import Mathlib

/-!
# miaowlang: the parser, the type layer, the compiler and its arrays

A shallow embedding of `src/types.cpp`, `src/parser.cpp`, `src/compiler.cpp`,
of the passes of `src/miaow.cpp` and of the parts of `src/intrinsics.cpp`
that the properties below are about, followed by the properties.

Conventions of the embedding.

* `std::string` and `std::string_view` are lists of characters (`Str`); a
  character is a byte of the source text, and `isdigit`, `isupper`, `islower`
  are those of the C locale (false outside ASCII).  `size_t` positions are `Nat`,
  `npos` is `none`.  The two `int` variables of the parser (`layers`,
  `end_quote`) are `Int`; this is exact for sources shorter than `2^31` bytes,
  which is what the statements are about.
* A C++ exception (`std::out_of_range` from `substr`, `std::bad_variant_access`
  from `std::get`) is a `Fault`, and so is a read that C++ leaves undefined;
  every function that can end in one returns `Except Fault _`.
* `llvm::Value*` is `Option Value`, `nullptr` is `none`.
* A `std::unordered_map` is the list of its entries (`Table`), looked up by
  key.
* The `while` loop of `lexparse` is `lexLoop`, the iteration of its body
  `lexStep`, one unit of fuel per iteration; `lexparse` starts it with more
  fuel than it can use (`lexLoop_fuel_adequate`, `lexparse_ne_fuel`).
* After `view = view.substr(word_begin)` the parser tests `view[word_begin]`
  again (parser.cpp 54-64), which can read past the end of the view.  The
  loop therefore carries `tail`, the characters that follow the view in its
  buffer; `lexLoop_agree` shows that the result never depends on them.
* The closures stored in `Function` are named by the constructors of `Build`
  and `TypeInference`.  What a builder does to the code generator is a
  parameter `run` of `evaluate` and of `compile`; `run_builder` is that
  parameter for the builders that are modelled.
* The LLVM module is the record `CodeGen`: functions, basic blocks with their
  instructions in the order of creation, the insertion block.  A call of
  `Builder` appends one instruction and returns the number of its value.
* The code that the array builders emit is given by what it does at run time
  to an array (`ArrayObject`): `i32` arithmetic wraps at `2^32`, an access
  outside the buffer is a `Fault`.
-/

set_option autoImplicit false

namespace Miaow

/-! ## Strings -/

/-- A `std::string` or `std::string_view`: the list of its characters. -/
abbrev Str := List Char

/-- A handle of a generated value (`llvm::Value*` that is not null). -/
abbrev Value := Nat

/-- What a C++ run can end in instead of a result. -/
inductive Fault where
  /-- `std::out_of_range`, thrown by `substr(pos)` when `pos > size()`. -/
  | out_of_range
  /-- `std::bad_variant_access`, thrown by `std::get` on the other alternative. -/
  | bad_variant_access
  /-- A read the language leaves undefined (`front()` of an empty vector). -/
  | undefined
  /-- The loop model ran out of fuel (never happens from `lexparse`). -/
  | fuel
deriving DecidableEq, Repr

/-- `WHITESPACE` of types.hpp: newline, tab, blank. -/
def WHITESPACE : Str := ['\n', '\t', ' ']

/-- The string literal of the three opening brackets, the argument of
`find_first_of` in parser.cpp 4 and 76. -/
def OPENERS : Str := ['(', '[', '{']

/-- One of the three opening brackets. -/
def isOpen (c : Char) : Bool := c == '(' || c == '[' || c == '{'

/-- One of the three closing brackets. -/
def isClose (c : Char) : Bool := c == ')' || c == ']' || c == '}'

/-- `s.find_first_of(set)`: position of the first character that is in `set`. -/
def find_first_of (s set : Str) : Option Nat := s.findIdx? (fun c => set.contains c)

/-- `s.find_first_not_of(set)`: position of the first character not in `set`. -/
def find_first_not_of (s set : Str) : Option Nat := s.findIdx? (fun c => !set.contains c)

/-- `s.substr(pos)`: throws `std::out_of_range` when `pos > size()`. -/
def substr (s : Str) (pos : Nat) : Except Fault Str :=
  if pos ≤ s.length then .ok (s.drop pos) else .error .out_of_range

/-- `s[i]` read from the underlying buffer: the characters of the view, then
whatever follows the view in the buffer; a NUL past all of it. -/
def peek (buffer : Str) (i : Nat) : Char := buffer.getD i '\x00'

/-! ## The tree (types.hpp) -/

/-- `class Atom`: a leaf of the tree. -/
structure Atom where
  identifier : Str
  stored_in : Option Value
  type : Str
  member_access : Str
  len : Int
deriving DecidableEq, Repr

/-- `class Molecule`, with the element type of its `List` left open so that
`Particle` can be defined as the variant of `Atom` and `Molecule`. -/
structure MoleculeOf (P : Type) where
  atoms : List P
  stored_in : Option Value
  type : Str
  eval : Bool
deriving Repr

/-- `typedef std::variant<Atom, Molecule> Particle`. -/
inductive Particle where
  | atom (a : Atom)
  | molecule (m : MoleculeOf Particle)

/-- `class Molecule`. -/
abbrev Molecule := MoleculeOf Particle

/-- The `Type:object` split of `Atom::Atom` (types.cpp 53-57): the type and
the identifier that remains. -/
def Atom.split_type (i : Str) : Str × Str :=
  match i.indexOf? ':' with
  | some colon =>
    if 0 < colon ∧ (i.headD '\x00').isUpper then (i.take colon, i.drop (colon + 1))
    else ([], i)
  | none => ([], i)

/-- The `owner>field` split of `Atom::Atom` (types.cpp 61-65): the member
name and the identifier that remains. -/
def Atom.split_member (identifier : Str) : Str × Str :=
  match identifier.indexOf? '>' with
  | some arrow =>
    if 0 < arrow ∧ (identifier.headD '\x00').isLower then
      (identifier.drop (arrow + 1), identifier.take arrow)
    else ([], identifier)
  | none => ([], identifier)

/-- `Atom::Atom(std::string i)` (types.cpp 44-67). -/
def Atom.make (i : Str) : Except Fault Atom :=
  if i.head? = some '"' then
    -- len = identifier.size()-1; identifier.pop_back();
    let len : Int := (i.length : Int) - 1
    let identifier := i.dropLast
    -- identifier = identifier.substr(1); type = "Str";
    (substr identifier 1).map fun identifier =>
      { identifier := identifier, stored_in := none, type := "Str".toList,
        member_access := [], len := len }
  else
    let typed := Atom.split_type i
    let member := Atom.split_member typed.2
    .ok { identifier := member.2, stored_in := none, type := typed.1,
          member_access := member.1, len := 0 }

/-- `Molecule(List a, bool e)` with an empty list, and `Molecule{}`: no
children, no generated value, no type, `eval` set. -/
def Molecule.empty : Molecule := { atoms := [], stored_in := none, type := [], eval := true }

/-- `Molecule::add_atom(std::string identifier)`. -/
def Molecule.add_atom (m : Molecule) (identifier : Str) : Except Fault Molecule :=
  (Atom.make identifier).map fun a => { m with atoms := m.atoms ++ [Particle.atom a] }

/-- `Molecule::add_molecule(Molecule m)`. -/
def Molecule.add_molecule (m : Molecule) (child : Molecule) : Molecule :=
  { m with atoms := m.atoms ++ [Particle.molecule child] }

/-! ## The parser (parser.cpp) -/

/-- The bracket scan of parser.cpp 36-49 (and 91-103): `layers` goes up at an
opening bracket and down at a closing one, whatever their kinds; the result
is the first position at which it is zero, `none` for `npos`. -/
def scanLayers : Str → Nat → Int → Option Nat
  | [], _, _ => none
  | c :: cs, p, layers =>
    let layers := if isOpen c then layers + 1 else if isClose c then layers - 1 else layers
    if layers = 0 then some p else scanLayers cs (p + 1) layers

/-- The part of `lexparse` before its loop (parser.cpp 4-21), with the loop
passed in; `tail` is what follows `view` in the buffer it is a view of. -/
def lexparseWith (loop : Str → Molecule → Str → Except Fault Molecule)
    (tail view : Str) : Except Fault Molecule :=
  match find_first_of view OPENERS with
  | none => .ok Molecule.empty
  | some first_paren =>
    let is_block := view.getD first_paren '\x00' == '{'
    let is_array := view.getD first_paren '\x00' == '['
    let view := view.drop (first_paren + 1)
    let molecule : Except Fault Molecule :=
      if is_block then Molecule.empty.add_atom "block".toList
      else if is_array then Molecule.empty.add_atom "array".toList
      else .ok Molecule.empty
    molecule.bind fun molecule => loop tail molecule view

/-- One iteration of the `while (more_words)` loop of `lexparse` (parser.cpp
24-121); `loop` is the rest of the loop, `tail` what follows `view` in the
buffer. -/
def lexStep (loop : Str → Molecule → Str → Except Fault Molecule)
    (tail : Str) (molecule : Molecule) (view : Str) : Except Fault Molecule :=
  match find_first_not_of view WHITESPACE with
  | none => .ok molecule
  | some word_begin =>
    let c := view.getD word_begin '\x00'
    if isClose c then .ok molecule
    else if isOpen c then
      let view := view.drop word_begin
      match scanLayers view 0 0 with
      | none => .ok molecule
      | some word_end =>
        -- the three tests of `view[word_begin]` (lines 54, 59, 64) are made
        -- after `view` was moved to `word_begin`, and have the same body
        if isOpen (peek (view ++ tail) word_begin) then
          (lexparseWith loop (view.drop (word_end + 1) ++ tail)
              (view.take (word_end + 1))).bind fun sub =>
            loop tail (molecule.add_molecule sub) (view.drop (word_end + 1))
        else loop tail molecule view
    else if c = '"' then
      let end_quote : Int :=
        match find_first_of (view.drop 1) ['"'] with
        | none => -1
        | some p => p
      (molecule.add_atom (view.take (end_quote + 2).toNat)).bind fun molecule =>
        (substr view (end_quote + 3).toNat).bind fun view =>
          loop tail molecule view
    else
      let rel_end := find_first_of (view.drop word_begin) (WHITESPACE ++ OPENERS)
      let word_end :=
        match rel_end with
        | none => view.length
        | some rel_end => word_begin + rel_end
      let word := (view.drop word_begin).take (word_end - word_begin)
      let closed := isClose (word.getLastD '\x00')
      let more_words := !closed
      let word := if closed then word.dropLast else word
      if !word.isEmpty ∧ word.getLast? = some ':' ∧ word_end < view.length ∧
          (view.getD word_end '\x00' = '(' ∨ view.getD word_end '\x00' = '[') then
        let type_prefix := word.dropLast
        let view := view.drop word_end
        match scanLayers view 0 0 with
        | some paren_end =>
          (lexparseWith loop (view.drop (paren_end + 1) ++ tail)
              (view.take (paren_end + 1))).bind fun sub =>
            let molecule := molecule.add_molecule { sub with type := type_prefix }
            let view := view.drop (paren_end + 1)
            if more_words then loop tail molecule view else .ok molecule
        | none => if more_words then loop tail molecule view else .ok molecule
      else
        (molecule.add_atom word).bind fun molecule =>
          if word_end < view.length then
            if more_words then loop tail molecule (view.drop (word_end + 1))
            else .ok molecule
          else .ok molecule

/-- The `while (more_words)` loop of `lexparse`: `lexStep` iterated, one unit
of fuel per iteration. -/
def lexLoop : Nat → Str → Molecule → Str → Except Fault Molecule
  | 0 => fun _ _ _ => .error .fuel
  | fuel + 1 => lexStep (lexLoop fuel)

/-- `Molecule lexparse(std::string_view view)` on a view with `tail` after it. -/
def lexparseIn (tail view : Str) : Except Fault Molecule :=
  lexparseWith (lexLoop (view.length + 1)) tail view

/-- `Molecule lexparse(std::string_view view)` on a whole buffer, as `main`
calls it. -/
def lexparse (view : Str) : Except Fault Molecule := lexparseIn [] view

/-- Two runs agree and neither ran out of fuel. -/
def Agree (x y : Except Fault Molecule) : Prop := x = y ∧ x ≠ .error .fuel

/-- A character of a bare word: no whitespace, no bracket, no double quote. -/
def isPlain (c : Char) : Bool :=
  !WHITESPACE.contains c && !isOpen c && !isClose c && c != '"'

/-- Net bracket depth of a text: opening brackets minus closing brackets,
the three kinds counted together. -/
def depth : Str → Int
  | [] => 0
  | c :: cs => (if isOpen c then 1 else if isClose c then -1 else 0) + depth cs

/-- A balanced span: not empty, of depth zero, and no proper non-empty prefix
of it has depth zero. -/
def BalancedSpan (s : Str) : Prop :=
  s ≠ [] ∧ depth s = 0 ∧ ∀ k < s.length, 0 < k → depth (s.take k) ≠ 0

instance (s : Str) : Decidable (BalancedSpan s) := by
  unfold BalancedSpan; exact inferInstance

/-- The text of a flat list of words, each followed by its separator. -/
def flatBody : List (Str × Str) → Str
  | [] => []
  | (w, sep) :: segs => w ++ (sep ++ flatBody segs)

/-- The atom that `lexparse` injects in front of the children: `block` for
`{`, `array` for `[`, none for `(`. -/
def injected (b : Char) : List Particle :=
  if b = '{' then
    [Particle.atom { identifier := "block".toList, stored_in := none, type := [],
                     member_access := [], len := 0 }]
  else if b = '[' then
    [Particle.atom { identifier := "array".toList, stored_in := none, type := [],
                     member_access := [], len := 0 }]
  else []

/-! ## Registries (types.hpp, types.cpp, intrinsics.hpp) -/

/-- A `std::unordered_map<std::string, β>`: its entries, looked up by key. -/
abbrev Table (β : Type) := List (Str × β)

/-- `m.count(k)`, as a truth value. -/
def Table.count {β : Type} (m : Table β) (k : Str) : Bool := (m.lookup k).isSome

/-- `m[k] = v`: replaces the entry of `k`, or adds one. -/
def Table.set {β : Type} (m : Table β) (k : Str) (v : β) : Table β :=
  if m.count k then m.map fun e => if e.1 == k then (k, v) else e else m ++ [(k, v)]

/-- `class MemObject`: declared type and storage of a variable. -/
structure MemObject where
  type : Str
  value : Option Value
deriving DecidableEq, Repr

/-- `struct StructDef`. -/
structure StructDef where
  name : Str
  field_names : List Str
  field_types : List Str
  llvm_type : Option Value
  is_extern : Bool
deriving DecidableEq, Repr

/-- `NATIVE_TYPES` (types.cpp 13-21). -/
def NATIVE_TYPES : Table Str :=
  [("Int".toList, "i32".toList), ("Float".toList, "float".toList), ("Bool".toList, "i1".toList),
   ("Char".toList, "i8".toList), ("Str".toList, "i8".toList), ("Nil".toList, "void".toList),
   ("Var".toList, "ptr".toList)]

/-- The type-inference closures of `init_intrinsics` (intrinsics.cpp 754-850)
and of the `fun` and `extern` branches of `compile`, by name, with what they
capture. -/
inductive TypeInference where
  | arithmetic_type
  | comparison_type
  | def_type
  | reassign_type
  | infer_first_type
  | str_type
  | int_type
  | nil_type
  | infer_array_type
  | infer_element_type
  | infer_array_self_type
  | array_type
  /-- `[fn_return_type](const std::vector<Particle>&) { return fn_return_type; }` -/
  | fn_return_type (r : Str)
deriving DecidableEq, Repr

/-- The code-generation closures stored in `Function::build`, by the builder
they call, with what they capture. -/
inductive Build where
  | build_arith (fn_name : Str)
  | build_compound_arith (fn_name : Str)
  | build_compare (fn_name : Str)
  | build_not
  | build_and
  | build_or
  | build_def
  | build_reassign
  | build_meow
  | build_return
  | build_conv (out_type : Str)
  | build_array
  | build_array_size
  | build_array_element (name : Str)
  | build_array_memshift (name : Str)
  /-- The closure made by the `fun` branch of `compile`. -/
  | call_fun (Func : Value) (llvm_param_types : List Str) (llvm_ret_type : Str)
  /-- The closure made by the `extern` branch of `compile`. -/
  | call_extern (extern_func : Value) (captured_param_types : List Str) (llvm_ret_type : Str)
deriving DecidableEq, Repr

/-- `class Function` (intrinsics.hpp). -/
structure Function where
  identifier : Str
  return_type : Str
  param_types : List Str
  build : Build
  type_inference : TypeInference
deriving DecidableEq, Repr

/-- The global registries: `object_registry`, `struct_registry`,
`overload_registry` (types.cpp 5-7) and `INTRINSICS` (intrinsics.cpp 3). -/
structure Globals where
  object_registry : Table MemObject
  struct_registry : Table StructDef
  overload_registry : Table (List Str)
  INTRINSICS : Table Function
deriving Repr

/-! ## Types of nodes (types.cpp) -/

/-- `isdigit` on a character of the identifier. -/
def isdigit (c : Char) : Bool := c.isDigit

/-- `Atom::get_type(bool native)` (types.cpp 73-106). -/
def Atom.get_type (g : Globals) (a : Atom) (native : Bool) : Str :=
  if a.type ≠ [] then
    if a.type = "Str".toList then (if native then "ptr".toList else "Str".toList)
    else if g.struct_registry.count a.type then (if native then "ptr".toList else a.type)
    else
      match NATIVE_TYPES.lookup a.type with
      | some n => if native then n else a.type
      | none => if native then "ptr".toList else a.type
  else if a.identifier ≠ [] ∧
      (isdigit (a.identifier.headD '\x00') ∨
        (a.identifier.headD '\x00' = '-' ∧ 1 < a.identifier.length ∧
          isdigit (a.identifier.getD 1 '\x00'))) then
    if a.identifier.indexOf? '.' = none then (if native then "i32".toList else "Int".toList)
    else (if native then "float".toList else "Float".toList)
  else if a.identifier = "true".toList ∨ a.identifier = "false".toList then
    (if native then "i1".toList else "Bool".toList)
  else if a.identifier = "nil".toList then
    (if native then "void".toList else "Nil".toList)
  else if a.identifier.headD '\x00' = '"' ∨ a.type = "Str".toList then
    (if native then "ptr".toList else "Str".toList)
  else
    match g.object_registry.lookup a.identifier with
    | some obj =>
      let registered_type := obj.type
      if g.struct_registry.count registered_type then
        (if native then "ptr".toList else registered_type)
      else
        match NATIVE_TYPES.lookup registered_type with
        | some n => if native then n else registered_type
        | none => if native then "ptr".toList else registered_type
    | none => if native then "ptr".toList else "Var".toList

/-- `get_array_element_type_str` (intrinsics.cpp 13-22). -/
def get_array_element_type_str (array_type_str : Str) : Str :=
  if array_type_str = "Str".toList then "Char".toList
  else if 7 ≤ array_type_str.length ∧ "Array<".toList.isPrefixOf array_type_str ∧
      array_type_str.getLast? = some '>' then
    (array_type_str.drop 6).take (array_type_str.length - 7)
  else "Var".toList

mutual

/-- `get_particle_type(Particle p)` (types.cpp 209-215): `p.get_type(false)` on
a copy of the node; what it returns and the registries afterwards. -/
def get_particle_type : Particle → Globals → Except Fault (Str × Globals)
  | .atom a, g => .ok (a.get_type g false, g)
  | .molecule ⟨atoms, _, type, _⟩, g =>
    -- Molecule::get_type(bool) and Molecule::get_type() (types.cpp 180-206)
    if type ≠ [] then .ok (type, g)
    else
      match atoms with
      | [] => .error .undefined
      | .molecule _ :: _ => .error .bad_variant_access
      | .atom subject :: args =>
        match g.INTRINSICS.lookup subject.identifier with
        | some fn => type_inference fn.type_inference args g
        | none => .ok ("Nil".toList, g)

/-- Calling `Function::type_inference` on `args`. -/
def type_inference : TypeInference → List Particle → Globals → Except Fault (Str × Globals)
  | .arithmetic_type, args, g =>
    match args with
    | a0 :: a1 :: _ =>
      (get_particle_type a0 g).bind fun r1 =>
        (get_particle_type a1 r1.2).bind fun r2 =>
          let t1 := r1.1
          let t2 := r2.1
          if t1 = "Int".toList ∧ t2 = "Int".toList then .ok ("Int".toList, r2.2)
          else if t1 = "Float".toList ∧ t2 = "Float".toList then .ok ("Float".toList, r2.2)
          else if t1 = "Var".toList ∨ t2 = "Var".toList then .ok ("Var".toList, r2.2)
          else .ok ("Nil".toList, r2.2)
    | _ => .ok ("Nil".toList, g)
  | .comparison_type, _, g => .ok ("Bool".toList, g)
  | .def_type, args, g =>
    match args with
    | .atom var_atom :: _ =>
      let explicit_type := var_atom.type
      if explicit_type = [] then .ok ("Nil".toList, g)
      else
        let var_name := var_atom.identifier
        if !g.object_registry.count var_name then
          .ok (explicit_type,
            { g with object_registry :=
                g.object_registry.set var_name { type := explicit_type, value := none } })
        else .ok (explicit_type, g)
    | _ => .ok ("Nil".toList, g)
  | .reassign_type, args, g =>
    match args with
    | .atom var_atom :: _ :: _ =>
      match g.object_registry.lookup var_atom.identifier with
      | some obj => .ok (obj.type, g)
      | none => .ok ("Nil".toList, g)
    | _ => .ok ("Nil".toList, g)
  | .infer_first_type, args, g =>
    match args with
    | [] => .ok ("Nil".toList, g)
    | a0 :: _ => get_particle_type a0 g
  | .str_type, _, g => .ok ("Str".toList, g)
  | .int_type, _, g => .ok ("Int".toList, g)
  | .nil_type, _, g => .ok ("Nil".toList, g)
  | .infer_array_type, args, g =>
    match args with
    | [] => .error .undefined
    | a0 :: _ =>
      (get_particle_type a0 g).bind fun r =>
        if r.1 = "Str".toList then .ok ("Char".toList, r.2)
        else .ok (get_array_element_type_str r.1, r.2)
  | .infer_element_type, args, g =>
    match args with
    | [] => .ok ("Nil".toList, g)
    | a0 :: _ =>
      (get_particle_type a0 g).bind fun r =>
        if r.1 = "Str".toList then .ok ("Char".toList, r.2)
        else .ok (get_array_element_type_str r.1, r.2)
  | .infer_array_self_type, args, g =>
    match args with
    | [] => .ok ("Nil".toList, g)
    | a0 :: _ => get_particle_type a0 g
  | .array_type, args, g =>
    match args with
    | [] => .ok ("Array<Nil>".toList, g)
    | a0 :: _ =>
      (get_particle_type a0 g).bind fun r => .ok ("Array<".toList ++ r.1 ++ ">".toList, r.2)
  | .fn_return_type r, _, g => .ok (r, g)

end

/-! ## Overloads and calls (compiler.cpp) -/

/-- `get_stored_in(Particle p)` (types.cpp 225-231). -/
def get_stored_in : Particle → Option Value
  | .atom a => a.stored_in
  | .molecule m => m.stored_in

/-- The loop of compiler.cpp 147-150: the type of each operand in turn. -/
def arg_types : List Particle → Globals → Except Fault (List Str × Globals)
  | [], g => .ok ([], g)
  | p :: ps, g =>
    (get_particle_type p g).bind fun r =>
      (arg_types ps r.2).bind fun rs => .ok (r.1 :: rs.1, rs.2)

/-- The test of compiler.cpp 156-163: equal sizes, and no position at which
`fn.param_types[i] != arg_types[i]`. -/
def signature_matches (param_types arg_types : List Str) : Bool :=
  param_types.length == arg_types.length &&
    (List.zipWith (fun p a => p == a) param_types arg_types).all id

/-- What `evaluate(Molecule&)` hands back: the returned value, the molecule
(it is passed by reference) and the state. -/
abbrev Evaluated (σ : Type) := Option Value × Molecule × (Globals × σ)

/-- The loop over the candidates (compiler.cpp 153-174); `none` when it ends
without a match.  `run` is `Function::evaluate`, that is the call of the
stored builder, acting on the registries and on the code generator `σ`. -/
def try_overloads {σ : Type}
    (run : Build → Molecule → List Value → Globals × σ → Except Fault (Evaluated σ))
    (mol : Molecule) (args : List Value) (tys : List Str) :
    List Str → Globals × σ → Option (Except Fault (Evaluated σ))
  | [], _ => none
  | candidate :: rest, st =>
    match st.1.INTRINSICS.lookup candidate with
    | some fn =>
      if signature_matches fn.param_types tys then
        some ((run fn.build mol args st).bind fun r =>
          -- mol.stored_in = result.value; mol.type = fn.type_inference(type_args)
          (type_inference fn.type_inference r.2.1.atoms.tail r.2.2.1).bind fun t =>
            .ok (r.1, { r.2.1 with stored_in := r.1, type := t.1 }, (t.2, r.2.2.2)))
      else try_overloads run mol args tys rest st
    | none => try_overloads run mol args tys rest st

/-- The fall-back of compiler.cpp 177-184: the intrinsic of the call's own
name, or nothing. -/
def evaluate_fallback {σ : Type}
    (run : Build → Molecule → List Value → Globals × σ → Except Fault (Evaluated σ))
    (mol : Molecule) (args : List Value) (fn_name : Str) (st : Globals × σ) :
    Except Fault (Evaluated σ) :=
  match st.1.INTRINSICS.lookup fn_name with
  | some fn =>
    (run fn.build mol args st).map fun r => (r.1, { r.2.1 with stored_in := r.1 }, r.2.2)
  | none => .ok (none, mol, st)

/-- `llvm::Value* evaluate(Molecule& mol)` (compiler.cpp 128-185). -/
def evaluate {σ : Type}
    (run : Build → Molecule → List Value → Globals × σ → Except Fault (Evaluated σ))
    (mol : Molecule) (st : Globals × σ) : Except Fault (Evaluated σ) :=
  match mol.atoms with
  | [] => .error .undefined
  | .molecule _ :: _ => .ok (none, mol, st)
  | .atom subj :: operands =>
    let args := operands.filterMap get_stored_in
    let fn_name := subj.identifier
    match st.1.overload_registry.lookup fn_name with
    | some candidates =>
      (arg_types operands st.1).bind fun r =>
        match try_overloads run mol args r.1 candidates (r.2, st.2) with
        | some result => result
        | none => evaluate_fallback run mol args fn_name (r.2, st.2)
    | none => evaluate_fallback run mol args fn_name st

/-- `overload_registry[op_name].push_back(method)`. -/
def push_overload (reg : Table (List Str)) (op_name method : Str) : Table (List Str) :=
  match reg.lookup op_name with
  | some methods => reg.set op_name (methods ++ [method])
  | none => reg.set op_name [method]

/-- The loop of compiler.cpp 500-503 over `methods.atoms[i]`, `i ≥ 1`. -/
def push_methods : List Particle → Table (List Str) → Str → Except Fault (Table (List Str))
  | [], reg, _ => .ok reg
  | .atom method :: rest, reg, op_name =>
    push_methods rest (push_overload reg op_name method.identifier) op_name
  | .molecule _ :: _, _, _ => .error .bad_variant_access

/-- The `overload` branch of `compile` (compiler.cpp 489-505). -/
def compile_overload (mol : Molecule) (g : Globals) : Except Fault Globals :=
  match mol.atoms with
  | _ :: .atom op :: .atom method :: _ =>
    let reg := push_overload g.overload_registry op.identifier method.identifier
    .ok { g with overload_registry := reg }
  | _ :: .atom op :: .molecule methods :: _ =>
    (push_methods methods.atoms.tail g.overload_registry op.identifier).map fun reg =>
      { g with overload_registry := reg }
  | _ :: .molecule _ :: _ => .error .bad_variant_access
  | _ => .error .undefined

/-- A code generator that only records which builders were called, in order. -/
def traceRun : Build → Molecule → List Value → Globals × List Build →
    Except Fault (Evaluated (List Build)) :=
  fun b mol _ st => .ok (none, mol, (st.1, st.2 ++ [b]))

/-! ## Variable hoisting (compiler.cpp 247-273) -/

mutual

/-- `collect_variables(Particle& p, vars)`. -/
def collect_variables : Particle → Table Str → Table Str
  | .atom _, vars => vars
  | .molecule ⟨atoms, _, _, _⟩, vars =>
    match atoms with
    | [] => vars
    | subject :: rest =>
      let vars :=
        match subject, rest with
        | .atom subj, .atom var_atom :: _ =>
          -- subj == "def" && mol.atoms.size() >= 2, and mol.atoms[1] is an Atom
          if subj.identifier = "def".toList then
            let var_name := var_atom.identifier
            let var_type := var_atom.type
            if var_type ≠ [] ∧ var_type ≠ "Str".toList ∧ !vars.count var_name then
              vars.set var_name var_type
            else vars
          else vars
        | _, _ => vars
      collect_variables_from rest vars

/-- The loop `for (i = 1; i < mol.atoms.size(); i++) collect_variables(...)`. -/
def collect_variables_from : List Particle → Table Str → Table Str
  | [], vars => vars
  | p :: ps, vars => collect_variables_from ps (collect_variables p vars)

end

mutual

/-- The declarations of a tree in pre-order: for each `def` form that is the
tree itself or sits in an operand position, and whose first operand is an
atom with a type annotation that is neither empty nor `Str`, the name and
the annotation. -/
def declarations : Particle → List (Str × Str)
  | .atom _ => []
  | .molecule ⟨atoms, _, _, _⟩ =>
    match atoms with
    | [] => []
    | subject :: operands =>
      (match subject, operands with
        | .atom subj, .atom var_atom :: _ =>
          if subj.identifier = "def".toList ∧ var_atom.type ≠ [] ∧
              var_atom.type ≠ "Str".toList then
            [(var_atom.identifier, var_atom.type)]
          else []
        | _, _ => []) ++ declarations_of operands

/-- The declarations of a list of operands, left to right. -/
def declarations_of : List Particle → List (Str × Str)
  | [] => []
  | p :: ps => declarations p ++ declarations_of ps

end

/-! ## The properties, in the words of the specification -/

/-- A numeric literal by its shape: starts with a digit, or with `-` followed
by a digit. -/
def numeric_shape : Str → Bool
  | c :: rest =>
    c.isDigit || (c == '-' && (match rest with
      | d :: _ => d.isDigit
      | [] => false))
  | [] => false

/-- The resolution order of the logical type of an atom: the annotation; the
literal shapes; the variable table; `Var`. -/
def resolved_type (g : Globals) (a : Atom) : Str :=
  if a.type ≠ [] then a.type
  else if numeric_shape a.identifier then
    (if '.' ∈ a.identifier then "Float".toList else "Int".toList)
  else if a.identifier = "true".toList ∨ a.identifier = "false".toList then "Bool".toList
  else if a.identifier = "nil".toList then "Nil".toList
  else
    match g.object_registry.lookup a.identifier with
    | some obj => obj.type
    | none => "Var".toList

/-- Adding a declaration to a table that has no entry of that name yet. -/
def insert_new (vars : Table Str) (d : Str × Str) : Table Str :=
  if vars.count d.1 then vars else vars ++ [d]

/-- Same length and pairwise equal. -/
def ExactMatch (param_types arg_types : List Str) : Prop :=
  List.Forall₂ (fun p a => p = a) param_types arg_types

/-- The size that the specification gives a field of an extern struct: 1 byte
for `Char` and `Bool`, 4 for `Int` and `Float`, 8 for every other type. -/
def field_size (field_type : Str) : Nat :=
  if field_type = "Char".toList ∨ field_type = "Bool".toList then 1
  else if field_type = "Int".toList ∨ field_type = "Float".toList then 4
  else 8

/-! ## A worked example: `(overload + [addInts addFloats])` -/

/-- The operation that the `fun` branch of `compile` registers for a function
`name` with the parameter types `params` and the return type `ret`, compiled
to the function handle `func`. -/
def declared_fun (name : Str) (params : List Str) (ret : Str) (func : Value) : Function :=
  { identifier := name, return_type := [], param_types := params,
    build := .call_fun func params ret, type_inference := .fn_return_type ret }

/-- The registries after `addInts` (on `Int Int`) and `addFloats` (on
`Float Float`) were declared and `(overload + [addInts addFloats])` was
compiled; the built-in `+` is there too. -/
def example_globals : Globals :=
  { object_registry := [],
    struct_registry := [],
    overload_registry := [("+".toList, ["addInts".toList, "addFloats".toList])],
    INTRINSICS :=
      [("+".toList, { identifier := "+".toList, return_type := [], param_types := [],
                      build := .build_arith "+".toList, type_inference := .arithmetic_type }),
       ("addInts".toList,
          declared_fun "addInts".toList ["Int".toList, "Int".toList] "Int".toList 1),
       ("addFloats".toList,
          declared_fun "addFloats".toList ["Float".toList, "Float".toList] "Float".toList 2)] }

/-- The call `(+ 1.5 2.5)` after its operands were compiled into the values
`10` and `11`. -/
def example_call : Molecule :=
  { atoms :=
      [.atom ⟨"+".toList, none, [], [], 0⟩,
       .atom ⟨"1.5".toList, some 10, "Float".toList, [], 0⟩,
       .atom ⟨"2.5".toList, some 11, "Float".toList, [], 0⟩],
    stored_in := none, type := [], eval := true }

/-- The call `(- 1 2)`, with its operands compiled into the values `10` and
`11`, where `-` was given the only overload `addFloats` and is not itself a
declared operation. -/
def example_unresolved_call : Molecule :=
  { atoms :=
      [.atom ⟨"-".toList, none, [], [], 0⟩,
       .atom ⟨"1".toList, some 10, "Int".toList, [], 0⟩,
       .atom ⟨"2".toList, some 11, "Int".toList, [], 0⟩],
    stored_in := none, type := [], eval := true }

/-- Registries in which `-` has the overload `addFloats` and no operation of
its own. -/
def example_unresolved_globals : Globals :=
  { object_registry := [],
    struct_registry := [],
    overload_registry := [("-".toList, ["addFloats".toList])],
    INTRINSICS :=
      [("addFloats".toList,
          declared_fun "addFloats".toList ["Float".toList, "Float".toList] "Float".toList 2)] }

/-- Two states of the registries that differ at most in the variable table. -/
def SameDeclarations (g g' : Globals) : Prop :=
  g'.INTRINSICS = g.INTRINSICS ∧ g'.overload_registry = g.overload_registry ∧
    g'.struct_registry = g.struct_registry

/-! ## The module under construction (`TheContext`, `TheModule`, `Builder`)

The compiler talks to LLVM through a handful of calls.  The model keeps what
those calls build: the struct types, the functions, their basic blocks with
the instructions in the order of creation, and the insertion block of the
builder.  A created value, block, function or struct type is named by a
number. -/

/-- An `llvm::Type*`, as far as the compiler makes them. -/
inductive LType where
  | void
  | i1
  | i8
  | i32
  | i64
  | float
  /-- `llvm::PointerType::getUnqual` -/
  | ptr
  /-- `llvm::ArrayType::get(elem, n)` -/
  | array (elem : LType) (n : Nat)
  /-- `get_array_struct_type` (types.cpp 275-281): size, capacity, data -/
  | array_struct
  /-- `StructDef::llvm_type`, a type made by `llvm::StructType::create` -/
  | created (llvm_type : Option Value)
deriving DecidableEq, Repr

/-- `get_llvm_type` (types.cpp 233-242).  The look-up in `struct_registry`
returns the pointer type, as the last line does. -/
def get_llvm_type (type_name : Str) : LType :=
  if type_name = "Int".toList then .i32
  else if type_name = "Float".toList then .float
  else if type_name = "Bool".toList then .i1
  else if type_name = "Char".toList then .i8
  else if type_name = "Nil".toList then .void
  else .ptr

/-- What an instruction is given as an operand. -/
inductive Operand where
  /-- The result of an instruction. -/
  | value (v : Value)
  /-- A null `llvm::Value*` handed to the builder. -/
  | unset
  /-- `llvm::ConstantInt` of `bits` bits. -/
  | const_int (bits : Nat) (n : Int)
  /-- `llvm::ConstantFP` of the number that `std::stof` reads from `literal`. -/
  | const_float (literal : Str)
  /-- `&Arg`, the argument `index` of the function `func`. -/
  | argument (func : Nat) (index : Nat)
  /-- A function of the module. -/
  | function (func : Nat)
  /-- `llvm::Constant::getNullValue(ty)` -/
  | null_value (ty : LType)
deriving DecidableEq, Repr

/-- `Operand` of a pointer that may be null. -/
def Operand.of : Option Value → Operand
  | some v => .value v
  | none => .unset

/-- The instructions that the modelled calls of `Builder` create. -/
inductive Instr where
  | alloca (ty : LType) (name : Str)
  | load (ty : LType) (ptr : Operand) (name : Str)
  | store (val : Operand) (ptr : Operand)
  | struct_gep (ty : LType) (ptr : Operand) (index : Nat) (name : Str)
  | inbounds_gep (ty : LType) (ptr : Operand) (indices : List Operand) (name : Str)
  | br (dest : Nat)
  | cond_br (cond : Operand) (if_true : Nat) (if_false : Nat)
  | ret (val : Option Operand)
  | call (callee : Nat) (args : List Operand)
deriving DecidableEq, Repr

/-- `llvm::Instruction::isTerminator`. -/
def Instr.isTerminator : Instr → Bool
  | .br _ => true
  | .cond_br _ _ _ => true
  | .ret _ => true
  | _ => false

/-- The blocks an instruction can branch to. -/
def Instr.successors : Instr → List Nat
  | .br dest => [dest]
  | .cond_br _ if_true if_false => [if_true, if_false]
  | _ => []

/-- An `llvm::BasicBlock`: its name, the function it belongs to, and its
instructions with the values they define. -/
structure BasicBlock where
  name : Str
  parent : Nat
  instrs : List (Value × Instr)
deriving DecidableEq, Repr

/-- An `llvm::Function` of the module: name and `llvm::FunctionType`. -/
structure LFunction where
  name : Str
  return_type : LType
  param_types : List LType
deriving DecidableEq, Repr

/-- The state of `TheContext`, `TheModule` and `Builder`. -/
structure CodeGen where
  /-- The types made by `llvm::StructType::create`, by handle. -/
  struct_types : List (Str × List LType)
  /-- The functions of `TheModule`, by handle. -/
  functions : List LFunction
  /-- The basic blocks, by number, in the order of creation. -/
  blocks : List (Nat × BasicBlock)
  /-- `Builder->GetInsertBlock()`; new instructions go to its end. -/
  insert_block : Option Nat
  /-- The next unused number for a value or a block. -/
  next : Nat
deriving DecidableEq, Repr

/-- The registries together with the module: all that compilation changes. -/
abbrev State := Globals × CodeGen

/-- The module before `main` starts to fill it. -/
def CodeGen.empty : CodeGen :=
  { struct_types := [], functions := [], blocks := [], insert_block := none, next := 0 }

/-- `Builder->Create...`: a new instruction at the end of the insertion block
(in no block if the builder has none); returns the value it defines. -/
def CodeGen.emit (cg : CodeGen) (i : Instr) : Value × CodeGen :=
  (cg.next,
    { cg with
      next := cg.next + 1
      blocks :=
        match cg.insert_block with
        | some b =>
          cg.blocks.map fun e =>
            if e.1 = b then (e.1, { e.2 with instrs := e.2.instrs ++ [(cg.next, i)] }) else e
        | none => cg.blocks })

/-- `llvm::BasicBlock::Create(*TheContext, name, parent)`. -/
def CodeGen.create_block (cg : CodeGen) (name : Str) (parent : Nat) : Nat × CodeGen :=
  (cg.next,
    { cg with
      next := cg.next + 1
      blocks := cg.blocks ++ [(cg.next, { name := name, parent := parent, instrs := [] })] })

/-- `llvm::Function::Create(FT, ExternalLinkage, name, TheModule.get())`. -/
def CodeGen.create_function (cg : CodeGen) (name : Str) (return_type : LType)
    (param_types : List LType) : Nat × CodeGen :=
  (cg.functions.length,
    { cg with
      functions := cg.functions ++
        [{ name := name, return_type := return_type, param_types := param_types }] })

/-- `TheModule->getOrInsertFunction(name, FT)`: the function of that name, or
a new declaration. -/
def CodeGen.getOrInsertFunction (cg : CodeGen) (name : Str) (return_type : LType)
    (param_types : List LType) : Nat × CodeGen :=
  match cg.functions.findIdx? (fun f => f.name == name) with
  | some func => (func, cg)
  | none => cg.create_function name return_type param_types

/-- `llvm::StructType::create(*TheContext, fields, name)`. -/
def CodeGen.create_struct (cg : CodeGen) (name : Str) (fields : List LType) :
    Value × CodeGen :=
  (cg.struct_types.length, { cg with struct_types := cg.struct_types ++ [(name, fields)] })

/-- `Builder->SetInsertPoint(BB)`. -/
def CodeGen.SetInsertPoint (cg : CodeGen) (b : Nat) : CodeGen :=
  { cg with insert_block := some b }

/-- `Builder->GetInsertBlock()->getParent()`; undefined without a block. -/
def CodeGen.getParent (cg : CodeGen) : Except Fault Nat :=
  match cg.insert_block with
  | some b =>
    match cg.blocks.lookup b with
    | some block => .ok block.parent
    | none => .error .undefined
  | none => .error .undefined

/-- `Builder->GetInsertBlock()->getTerminator()`, as a truth value: the last
instruction of the insertion block is a terminator. -/
def CodeGen.getTerminator (cg : CodeGen) : Except Fault Bool :=
  match cg.insert_block with
  | some b =>
    match cg.blocks.lookup b with
    | some block =>
      match block.instrs.getLast? with
      | some last => .ok last.2.isTerminator
      | none => .ok false
    | none => .error .undefined
  | none => .error .undefined

/-- `BB->hasNPredecessorsOrMore(1)`: some branch instruction names the block. -/
def CodeGen.hasPredecessor (cg : CodeGen) (b : Nat) : Bool :=
  cg.blocks.any fun e => e.2.instrs.any fun i => i.2.successors.contains b

/-- `BB->eraseFromParent()`. -/
def CodeGen.eraseFromParent (cg : CodeGen) (b : Nat) : CodeGen :=
  { cg with blocks := cg.blocks.filter fun e => e.1 != b }

/-- The block and the function in which a value was defined. -/
def CodeGen.defined_in (cg : CodeGen) (v : Value) : Option (Str × Str) :=
  (cg.blocks.find? fun e => e.2.instrs.any fun i => i.1 == v).bind fun e =>
    (cg.functions.get? e.2.parent).map fun f => (e.2.name, f.name)

/-- The instructions of the insertion block, in order (none without a block). -/
def CodeGen.insertion_code (cg : CodeGen) : List (Value × Instr) :=
  match cg.insert_block.bind fun b => cg.blocks.lookup b with
  | some block => block.instrs
  | none => []

/-- The builder stands in a block of the module. -/
def CodeGen.Ready (cg : CodeGen) : Prop :=
  (cg.insert_block.bind fun b => cg.blocks.lookup b).isSome = true

/-! ## Constants and atoms (types.cpp 244-273, compiler.cpp 19-126) -/

/-- `isspace` of the C locale. -/
def isspace (c : Char) : Bool :=
  c == ' ' || c == '\t' || c == '\n' || c == '\x0b' || c == '\x0c' || c == '\r'

/-- `std::stoi(s)`: skips white space, reads a sign and the longest run of
digits; `std::invalid_argument` (here `undefined`, no caller of the model
reaches it) without a digit, `std::out_of_range` outside `int`. -/
def stoi (s : Str) : Except Fault Int :=
  let s := s.dropWhile isspace
  let negative := s.head? = some '-'
  let body := if s.head? = some '-' ∨ s.head? = some '+' then s.tail else s
  let digits := body.takeWhile isdigit
  if digits = [] then .error .undefined
  else
    let n : Int := digits.foldl (fun n c => 10 * n + ((c.toNat : Int) - 48)) 0
    let v := if negative then -n else n
    if -2147483648 ≤ v ∧ v ≤ 2147483647 then .ok v else .error .out_of_range

/-- `get_llvm_constant(Atom& atom)` (types.cpp 244-273): the constant, if the
atom is a literal, and the atom, whose empty `type` the function fills in. -/
def get_llvm_constant (g : Globals) (atom : Atom) : Except Fault (Option Operand × Atom) :=
  let atom := if atom.type = [] then { atom with type := atom.get_type g false } else atom
  let numeric : Bool := atom.identifier ≠ [] ∧
    (isdigit (atom.identifier.headD '\x00') ∨
      (atom.identifier.headD '\x00' = '-' ∧ 1 < atom.identifier.length ∧
        isdigit (atom.identifier.getD 1 '\x00')))
  if atom.type = "Int".toList then
    if numeric then (stoi atom.identifier).map fun n => (some (.const_int 32 n), atom)
    else .ok (none, atom)
  else if atom.type = "Float".toList then
    if numeric then .ok (some (.const_float atom.identifier), atom)
    else .ok (none, atom)
  else if atom.type = "Char".toList then
    if atom.identifier ≠ [] ∧ isdigit (atom.identifier.headD '\x00') then
      (stoi atom.identifier).map fun n => (some (.const_int 8 n), atom)
    else .ok (none, atom)
  else if atom.type = "Bool".toList then
    .ok (some (.const_int 1 (if atom.identifier = "true".toList then 1 else 0)), atom)
  else .ok (none, atom)

/-- `std::ceil(std::log2(n))` for an `int` `n ≥ 1`, at its mathematical
value: the least `k` with `n ≤ 2^k`. -/
def ceil_log2 (n : Nat) : Nat :=
  ((List.range (n + 1)).find? fun k => n ≤ 2 ^ k).getD 0

/-- The `int` that `std::pow(2, std::ceil(std::log2(n)))` is converted to
(intrinsics.cpp 488, compiler.cpp 65).  The three library functions are
taken at their mathematical values, which is what they return in `double`
for `1 ≤ n ≤ 2^30`; `std::log2(0)` is minus infinity and gives `0`. -/
def pow2_ceil_log2 (n : Nat) : Nat :=
  if n = 0 then 0 else 2 ^ ceil_log2 n

/-- The loop of compiler.cpp 76-83: one `char_ptr` and one store for each
character of the literal, from position `i` on. -/
def store_chars (data_array_type : LType) (data_alloc : Value) :
    List Char → Nat → CodeGen → CodeGen
  | [], _, cg => cg
  | c :: cs, i, cg =>
    let ptr := cg.emit (.inbounds_gep data_array_type (.value data_alloc)
      [.const_int 32 0, .const_int 32 i] "char_ptr".toList)
    let stored := ptr.2.emit (.store (.const_int 8 c.toNat) (.value ptr.1))
    store_chars data_array_type data_alloc cs (i + 1) stored.2

/-- The header of an array or of a string on the stack (intrinsics.cpp
490-497, compiler.cpp 67-74): the struct, and `size` and `capacity` stored
into its first two fields. -/
def write_header (struct_name : Str) (size capacity : Nat) (cg : CodeGen) : Value × CodeGen :=
  let alloc := cg.emit (.alloca .array_struct struct_name)
  let size_ptr := alloc.2.emit (.struct_gep .array_struct (.value alloc.1) 0 "size_ptr".toList)
  let cg := (size_ptr.2.emit (.store (.const_int 32 size) (.value size_ptr.1))).2
  let cap_ptr := cg.emit (.struct_gep .array_struct (.value alloc.1) 1 "cap_ptr".toList)
  (alloc.1, (cap_ptr.2.emit (.store (.const_int 32 capacity) (.value cap_ptr.1))).2)

/-- The string-literal case of `evaluate(Atom&)` (compiler.cpp 61-105): the
header, the characters and the terminator on the stack; returns `str_ref`. -/
def evaluate_string_literal (identifier : Str) (cg : CodeGen) : Value × CodeGen :=
  let size := identifier.length
  let capacity := pow2_ceil_log2 (if 0 < size then size + 1 else 1)
  let str_alloc := write_header "str_struct".toList size capacity cg
  let data_array_type := LType.array .i8 (size + 1)
  let data_alloc := str_alloc.2.emit (.alloca data_array_type "str_data".toList)
  let cg := store_chars data_array_type data_alloc.1 identifier 0 data_alloc.2
  let null_ptr := cg.emit (.inbounds_gep data_array_type (.value data_alloc.1)
    [.const_int 32 0, .const_int 32 size] "null_ptr".toList)
  let cg := (null_ptr.2.emit (.store (.const_int 8 0) (.value null_ptr.1))).2
  let data_ptr_ptr := cg.emit
    (.struct_gep .array_struct (.value str_alloc.1) 2 "data_ptr_ptr".toList)
  -- CreateBitCast to the type the value already has returns the value
  let cg := (data_ptr_ptr.2.emit (.store (.value data_alloc.1) (.value data_ptr_ptr.1))).2
  let result_ptr := cg.emit (.alloca .ptr "str_ref".toList)
  let cg := (result_ptr.2.emit (.store (.value str_alloc.1) (.value result_ptr.1))).2
  (result_ptr.1, cg)

/-- The member-access case of `evaluate(Atom&)` (compiler.cpp 21-58):
`none` when the function goes on to the other cases. -/
def evaluate_member (atom : Atom) (st : State) :
    Option (Except Fault (Option Value × Atom × State)) :=
  if atom.member_access = [] then none
  else
    match st.1.object_registry.lookup atom.identifier with
    | none => none
    | some obj =>
      match st.1.struct_registry.lookup obj.type with
      | none => none
      | some sdef =>
        match sdef.field_names.indexOf? atom.member_access with
        | none => none
        | some field_idx =>
          let struct_ptr := st.2.emit (.load .ptr (Operand.of obj.value) [])
          let field_ptr := struct_ptr.2.emit
            (.struct_gep (.created sdef.llvm_type) (.value struct_ptr.1) field_idx [])
          match sdef.field_types.get? field_idx with
          | none => some (.error .undefined)
          | some field_type =>
            if field_type = "Str".toList ∨ st.1.struct_registry.count field_type then
              let field_val := field_ptr.2.emit (.load .ptr (.value field_ptr.1) [])
              let result := field_val.2.emit (.alloca .ptr [])
              let cg := (result.2.emit (.store (.value field_val.1) (.value result.1))).2
              some (.ok (some result.1,
                { atom with stored_in := some result.1, type := field_type }, (st.1, cg)))
            else
              some (.ok (some field_ptr.1,
                { atom with stored_in := some field_ptr.1, type := field_type },
                (st.1, field_ptr.2)))

/-- `llvm::Value* evaluate(Atom& atom)` (compiler.cpp 19-126): the returned
value, the atom (it is passed by reference) and the state.  The type of a
constant, `const_val->getType()`, is the LLVM type of the atom's type. -/
def evaluate_atom (atom : Atom) (st : State) : Except Fault (Option Value × Atom × State) :=
  match evaluate_member atom st with
  | some result => result
  | none =>
    if atom.type = "Str".toList then
      let r := evaluate_string_literal atom.identifier st.2
      .ok (some r.1, { atom with stored_in := some r.1 }, (st.1, r.2))
    else
      match (st.1.object_registry.lookup atom.identifier).bind fun obj => obj.value with
      | some val => .ok (some val, { atom with stored_in := some val }, st)
      | none =>
        (get_llvm_constant st.1 atom).bind fun c =>
          match c.1 with
          | some const_val =>
            let alloca := st.2.emit (.alloca (get_llvm_type c.2.type) [])
            let cg := (alloca.2.emit (.store const_val (.value alloca.1))).2
            .ok (some alloca.1, { c.2 with stored_in := some alloca.1 }, (st.1, cg))
          | none => .ok (none, c.2, st)

/-! ## The builders (intrinsics.cpp) -/

/-- `build_def(Molecule& mol)` (intrinsics.cpp 158-214). -/
def build_def (mol : Molecule) (st : State) : Except Fault (Evaluated CodeGen) :=
  match mol.atoms with
  | _ :: name :: rest =>
    let var_name := match name with
      | .atom var_atom => var_atom.identifier
      | .molecule _ => []
    let explicit_type := match name with
      | .atom var_atom => var_atom.type
      | .molecule _ => []
    if explicit_type = [] then .ok (none, mol, st)
    else
      let llvm_type :=
        match st.1.struct_registry.lookup explicit_type with
        | some sdef =>
          if StructDef.is_extern sdef then LType.created sdef.llvm_type
          else get_llvm_type explicit_type
        | none => get_llvm_type explicit_type
      -- use the hoisted alloca if there is one, otherwise create a new one
      let slot : Value × State :=
        match (st.1.object_registry.lookup var_name).bind fun obj => obj.value with
        | some var_ptr => (var_ptr, st)
        | none =>
          let alloca := st.2.emit (.alloca llvm_type [])
          let registry := st.1.object_registry.set var_name ⟨explicit_type, some alloca.1⟩
          (alloca.1, ({ st.1 with object_registry := registry }, alloca.2))
      let var_ptr := slot.1
      let cg :=
        match rest.head?.bind get_stored_in with
        | some val_ptr =>
          let val := slot.2.2.emit (.load llvm_type (.value val_ptr) [])
          (val.2.emit (.store (.value val.1) (.value var_ptr))).2
        | none => slot.2.2
      .ok (some var_ptr, mol, (slot.2.1, cg))
  | _ => .ok (none, mol, st)

/-- `build_reassign(Molecule& mol)` (intrinsics.cpp 216-243). -/
def build_reassign (mol : Molecule) (st : State) : Except Fault (Evaluated CodeGen) :=
  match mol.atoms with
  | _ :: name :: value :: _ =>
    let var_name := match name with
      | .atom var_atom => var_atom.identifier
      | .molecule _ => []
    match st.1.object_registry.lookup var_name with
    | none => .ok (none, mol, st)
    | some obj =>
      match obj.value with
      | none => .ok (none, mol, st)
      | some var_ptr =>
        let llvm_type := get_llvm_type obj.type
        match get_stored_in value with
        | none => .ok (none, mol, st)
        | some val_ptr =>
          let val := st.2.emit (.load llvm_type (.value val_ptr) [])
          let cg := (val.2.emit (.store (.value val.1) (.value var_ptr))).2
          .ok (some var_ptr, mol, (st.1, cg))
  | _ => .ok (none, mol, st)

/-- `build_return` (intrinsics.cpp 269-279). -/
def build_return (mol : Molecule) (args : List Value) (st : State) :
    Except Fault (Evaluated CodeGen) :=
  match args with
  | [] => .ok (none, mol, (st.1, (st.2.emit (.ret none)).2))
  | arg :: _ =>
    match mol.atoms with
    | _ :: operand :: _ =>
      (get_particle_type operand st.1).bind fun t =>
        let val := st.2.emit (.load (get_llvm_type t.1) (.value arg) [])
        .ok (none, mol, (t.2, (val.2.emit (.ret (some (.value val.1)))).2))
    | _ => .error .undefined

/-- The loop of intrinsics.cpp 502-510: load each value and store it into its
slot of `data_arr`, from position `i` on. -/
def store_elements (element_type data_array_type : LType) (data_alloc : Value) :
    List Value → Nat → CodeGen → CodeGen
  | [], _, cg => cg
  | arg :: rest, i, cg =>
    let val := cg.emit (.load element_type (.value arg) [])
    let ptr := val.2.emit (.inbounds_gep data_array_type (.value data_alloc)
      [.const_int 32 0, .const_int 32 i] "elem_ptr".toList)
    let stored := ptr.2.emit (.store (.value val.1) (.value ptr.1))
    store_elements element_type data_array_type data_alloc rest (i + 1) stored.2

/-- The rest of `build_array` after the header (intrinsics.cpp 499-520): the
buffer of `size` slots, the elements, the `data` field, and `array_ref`. -/
def write_elements (element_type : LType) (args : List Value) (array_alloc : Value)
    (cg : CodeGen) : Value × CodeGen :=
  let data_array_type := LType.array element_type args.length
  let data_alloc := cg.emit (.alloca data_array_type "data_arr".toList)
  let cg := store_elements element_type data_array_type data_alloc.1 args 0 data_alloc.2
  let data_ptr_ptr := cg.emit
    (.struct_gep .array_struct (.value array_alloc) 2 "data_ptr_ptr".toList)
  -- CreateBitCast to the type the value already has returns the value
  let cg := (data_ptr_ptr.2.emit (.store (.value data_alloc.1) (.value data_ptr_ptr.1))).2
  let result_ptr := cg.emit (.alloca .ptr "array_ref".toList)
  (result_ptr.1, (result_ptr.2.emit (.store (.value array_alloc) (.value result_ptr.1))).2)

/-- `build_array` (intrinsics.cpp 480-521). -/
def build_array (mol : Molecule) (args : List Value) (st : State) :
    Except Fault (Evaluated CodeGen) :=
  if args = [] then .ok (none, mol, st)
  else
    match mol.atoms with
    | _ :: first :: _ =>
      (get_particle_type first st.1).bind fun t =>
        let element_type := get_llvm_type t.1
        let size := args.length
        let capacity := pow2_ceil_log2 size
        let array_alloc := write_header "array_struct".toList size capacity st.2
        let result_ptr := write_elements element_type args array_alloc.1 array_alloc.2
        .ok (some result_ptr.1, mol, (t.2, result_ptr.2))
    | _ => .error .undefined

/-- The byte size that the `extern` branch gives an extern struct
(compiler.cpp 531-538 and 572-579). -/
def byte_size (field_types : List Str) : Nat :=
  field_types.foldl (fun byte_size ft =>
    if ft = "Char".toList then byte_size + 1
    else if ft = "Int".toList then byte_size + 4
    else if ft = "Float".toList then byte_size + 4
    else if ft = "Bool".toList then byte_size + 1
    else byte_size + 8) 0

/-- The LLVM type that the `extern` branch declares for a parameter of the
type `param_type` (compiler.cpp 522-547). -/
def declared_param_type (g : Globals) (param_type : Str) : LType :=
  if param_type = "Str".toList then .ptr
  else
    match g.struct_registry.lookup param_type with
    | some sdef =>
      if StructDef.is_extern sdef then
        if byte_size sdef.field_types ≤ 4 then .i32
        else if byte_size sdef.field_types ≤ 8 then .i64
        else .ptr
      else get_llvm_type param_type
    | none => get_llvm_type param_type

/-- `extract_cstring` (compiler.cpp 4-16). -/
def extract_cstring (str_ptr_ptr : Value) (cg : CodeGen) : Value × CodeGen :=
  let str_ptr := cg.emit (.load .ptr (.value str_ptr_ptr) "str_ptr".toList)
  let data_ptr_ptr := str_ptr.2.emit
    (.struct_gep .array_struct (.value str_ptr.1) 2 "data_ptr_ptr".toList)
  data_ptr_ptr.2.emit (.load .ptr (.value data_ptr_ptr.1) "data_ptr".toList)

/-- The loop of the closure that the `extern` branch registers (compiler.cpp
562-594): the operand passed for each argument, by the type of its
parameter, read from position `i` of `captured_param_types`. -/
def marshal_arguments (captured_param_types : List Str) :
    List Value → Nat → State → Except Fault (List Operand × State)
  | [], _, st => .ok ([], st)
  | arg :: rest, i, st =>
    match captured_param_types.get? i with
    | none => .error .undefined
    | some param_type =>
      let passed : Operand × CodeGen :=
        if param_type = "Str".toList then
          let data_ptr := extract_cstring arg st.2
          (.value data_ptr.1, data_ptr.2)
        else
          match st.1.struct_registry.lookup param_type with
          | some sdef =>
            if StructDef.is_extern sdef then
              if byte_size sdef.field_types ≤ 4 then
                let loaded := st.2.emit (.load .i32 (.value arg) [])
                (.value loaded.1, loaded.2)
              else if byte_size sdef.field_types ≤ 8 then
                let loaded := st.2.emit (.load .i64 (.value arg) [])
                (.value loaded.1, loaded.2)
              else (.value arg, st.2)
            else
              let loaded := st.2.emit (.load (get_llvm_type param_type) (.value arg) [])
              (.value loaded.1, loaded.2)
          | none =>
            let loaded := st.2.emit (.load (get_llvm_type param_type) (.value arg) [])
            (.value loaded.1, loaded.2)
      (marshal_arguments captured_param_types rest (i + 1) (st.1, passed.2)).map fun r =>
        (passed.1 :: r.1, r.2)

/-- The end of both call closures: the call, and a slot for its result unless
the return type is `void`. -/
def call_and_store (callee : Nat) (call_args : List Operand) (llvm_ret_type : LType)
    (mol : Molecule) (st : State) : Evaluated CodeGen :=
  let result := st.2.emit (.call callee call_args)
  if llvm_ret_type = .void then (none, mol, (st.1, result.2))
  else
    let alloca := result.2.emit (.alloca llvm_ret_type [])
    let cg := (alloca.2.emit (.store (.value result.1) (.value alloca.1))).2
    (some alloca.1, mol, (st.1, cg))

/-- The closure that the `extern` branch registers (compiler.cpp 559-604). -/
def call_external (extern_func : Value) (captured_param_types : List Str)
    (llvm_ret_type : LType) (mol : Molecule) (args : List Value) (st : State) :
    Except Fault (Evaluated CodeGen) :=
  (marshal_arguments captured_param_types args 0 st).map fun r =>
    call_and_store extern_func r.1 llvm_ret_type mol r.2

/-- The loop of the closure that the `fun` branch registers (compiler.cpp
469-472): each argument loaded at the type of its parameter. -/
def load_arguments (llvm_param_types : List LType) :
    List Value → Nat → CodeGen → Except Fault (List Operand × CodeGen)
  | [], _, cg => .ok ([], cg)
  | arg :: rest, i, cg =>
    match llvm_param_types.get? i with
    | none => .error .undefined
    | some ty =>
      let loaded := cg.emit (.load ty (.value arg) [])
      (load_arguments llvm_param_types rest (i + 1) loaded.2).map fun r =>
        (.value loaded.1 :: r.1, r.2)

/-- The closure that the `fun` branch registers (compiler.cpp 467-481). -/
def call_function (Func : Value) (llvm_param_types : List LType) (llvm_ret_type : LType)
    (mol : Molecule) (args : List Value) (st : State) : Except Fault (Evaluated CodeGen) :=
  (load_arguments llvm_param_types args 0 st.2).map fun r =>
    call_and_store Func r.1 llvm_ret_type mol (st.1, r.2)

/-- `Function::evaluate`: the call of the stored builder.  The builders of
`def`, `=`, `return`, array literals and of declared and external functions
are the ones above; `others` stands for the remaining ones. -/
def run_builder (others : Build → Molecule → List Value → State →
      Except Fault (Evaluated CodeGen)) :
    Build → Molecule → List Value → State → Except Fault (Evaluated CodeGen)
  | .build_def, mol, _, st => build_def mol st
  | .build_reassign, mol, _, st => build_reassign mol st
  | .build_return, mol, args, st => build_return mol args st
  | .build_array, mol, args, st => build_array mol args st
  | .call_fun Func llvm_param_types llvm_ret_type, mol, args, st =>
    call_function Func (llvm_param_types.map get_llvm_type) (get_llvm_type llvm_ret_type)
      mol args st
  | Build.call_extern extern_func captured_param_types llvm_ret_type, mol, args, st =>
    call_external extern_func captured_param_types (get_llvm_type llvm_ret_type) mol args st
  | b, mol, args, st => others b mol args st

/-! ## Compilation (compiler.cpp 275-710) -/

/-- `std::get<Atom>` on each element of a parameter or field list. -/
def get_atoms : List Particle → Except Fault (List Atom)
  | [] => .ok []
  | .atom a :: rest => (get_atoms rest).map fun r => a :: r
  | .molecule _ :: _ => .error .bad_variant_access

/-- `if (!Builder->GetInsertBlock()->getTerminator()) Builder->CreateBr(dest)`. -/
def branch_unless_terminated (cg : CodeGen) (dest : Nat) : Except Fault CodeGen :=
  cg.getTerminator.map fun terminated =>
    if terminated then cg else (cg.emit (.br dest)).2

/-- The end of the `if` branch (compiler.cpp 320-325): the merge block is kept
only if it has a predecessor. -/
def keep_or_erase (cg : CodeGen) (MergeBB : Nat) : CodeGen :=
  if cg.hasPredecessor MergeBB then cg.SetInsertPoint MergeBB
  else cg.eraseFromParent MergeBB

/-- The loop of compiler.cpp 439-445: a slot for each argument of `Func`, and
its entry in the variable table, from argument `idx` on. -/
def allocate_parameters (Func : Nat) : List Atom → Nat → State → State
  | [], _, st => st
  | param :: rest, idx, st =>
    let alloca := st.2.emit (.alloca (get_llvm_type param.type) param.identifier)
    let cg := (alloca.2.emit (.store (.argument Func idx) (.value alloca.1))).2
    let registry := st.1.object_registry.set param.identifier ⟨param.type, some alloca.1⟩
    allocate_parameters Func rest (idx + 1) ({ st.1 with object_registry := registry }, cg)

/-- The implicit return of compiler.cpp 453-461. -/
def implicit_return (cg : CodeGen) (llvm_ret_type : LType) : Except Fault CodeGen :=
  cg.getTerminator.map fun terminated =>
    if terminated then cg
    else if llvm_ret_type = .void then (cg.emit (.ret none)).2
    else (cg.emit (.ret (some (.null_value llvm_ret_type)))).2

/-- The `fun` branch from the creation of the function to the body
(compiler.cpp 427-446): the function, its entry block as the insertion
block, and a slot and a table entry for each parameter. -/
def enter_function (func_name return_type : Str) (params : List Atom) (st : State) :
    Nat × State :=
  let Func := st.2.create_function func_name (get_llvm_type return_type)
    (params.map fun param => get_llvm_type param.type)
  let EntryBB := Func.2.create_block "entry".toList Func.1
  (Func.1, allocate_parameters Func.1 params 0 (st.1, EntryBB.2.SetInsertPoint EntryBB.1))

/-- The `fun` branch after the body (compiler.cpp 452-487): the implicit
return, the variable table and the insertion block as they were saved, and
the function registered as an operation. -/
def leave_function (func_name return_type : Str) (params : List Atom) (Func : Nat)
    (SavedBB : Option Nat) (saved_registry : Table MemObject) (st : State) :
    Except Fault State :=
  (implicit_return st.2 (get_llvm_type return_type)).bind fun cg =>
    match SavedBB with
    | none => .error .undefined
    | some SavedBB =>
      let fn := declared_fun func_name (params.map fun param => param.type) return_type Func
      let g := { st.1 with object_registry := saved_registry }
      .ok ({ g with INTRINSICS := g.INTRINSICS.set func_name fn }, cg.SetInsertPoint SavedBB)

/-- The operation that the `extern` branch of `compile` registers
(compiler.cpp 556-606). -/
def declared_external (name : Str) (params : List Str) (ret : Str) (func : Value) : Function :=
  { identifier := name, return_type := [], param_types := params,
    build := Build.call_extern func params ret, type_inference := .fn_return_type ret }

/-- The `extern` branch of `compile` without its reads of the tree
(compiler.cpp 518-607): the declaration and the registered operation. -/
def declare_external (func_name return_type : Str) (params : List Atom) (st : State) : State :=
  let param_types := params.map fun param => param.type
  let llvm_param_types := param_types.map (declared_param_type st.1)
  let func := st.2.getOrInsertFunction func_name (get_llvm_type return_type) llvm_param_types
  let fn := declared_external func_name param_types return_type func.1
  ({ st.1 with INTRINSICS := st.1.INTRINSICS.set func_name fn }, func.2)

/-- The registration shared by the `struct` and `extern-struct` branches and
by `collect_struct_declarations`: the definition made of the fields. -/
def register_struct (struct_name : Str) (fields : List Atom) (external : Bool) (st : State) :
    State :=
  let llvm_field_types := fields.map fun field => get_llvm_type field.type
  let llvm_type := st.2.create_struct struct_name llvm_field_types
  let sdef : StructDef :=
    { name := struct_name,
      field_names := fields.map fun field => field.identifier,
      field_types := fields.map fun field => field.type,
      llvm_type := some llvm_type.1,
      is_extern := external }
  ({ st.1 with struct_registry := st.1.struct_registry.set struct_name sdef }, llvm_type.2)

/-- The loop of compiler.cpp 678-684: each field value loaded and stored into
its field of `struct_alloc`, from field `i` on. -/
def store_fields (sdef : StructDef) (struct_alloc : Value) :
    List Particle → Nat → CodeGen → Except Fault CodeGen
  | [], _, cg => .ok cg
  | p :: rest, i, cg =>
    match sdef.field_types.get? i with
    | none => .error .undefined
    | some field_type =>
      let val := cg.emit (.load (get_llvm_type field_type) (Operand.of (get_stored_in p)) [])
      let field_ptr := val.2.emit
        (.struct_gep (.created sdef.llvm_type) (.value struct_alloc) i [])
      let cg := (field_ptr.2.emit (.store (.value val.1) (.value field_ptr.1))).2
      store_fields sdef struct_alloc rest (i + 1) cg

/-- The end of the struct-literal branch (compiler.cpp 675-695): the
instance, its fields, and the value of the literal. -/
def build_struct_literal (sdef : StructDef) (operands : List Particle) (cg : CodeGen) :
    Except Fault (Value × CodeGen) :=
  let struct_alloc := cg.emit (.alloca (.created sdef.llvm_type) "struct_instance".toList)
  (store_fields sdef struct_alloc.1 operands 0 struct_alloc.2).map fun cg =>
    if StructDef.is_extern sdef then (struct_alloc.1, cg)
    else
      let result_ptr := cg.emit (.alloca .ptr "struct_ref".toList)
      (result_ptr.1, (result_ptr.2.emit (.store (.value struct_alloc.1) (.value result_ptr.1))).2)

/-- The end of the `web-loop` branch (compiler.cpp 378-401). -/
def call_set_main_loop (cg : CodeGen) (ReturnPoint UpdateFunc : Nat) (fps_val : Value) :
    CodeGen :=
  let cg := cg.SetInsertPoint ReturnPoint
  let SetMainLoop :=
    cg.getOrInsertFunction "emscripten_set_main_loop".toList .void [.ptr, .i32, .i32]
  (SetMainLoop.2.emit
    (.call SetMainLoop.1 [.function UpdateFunc, .value fps_val, .const_int 32 1])).2

mutual

/-- `void compile(Particle& p)` (compiler.cpp 275-710): the node afterwards
(it is passed by reference) and the state.  `run` is `Function::evaluate`. -/
def compile (run : Build → Molecule → List Value → State → Except Fault (Evaluated CodeGen)) :
    Particle → State → Except Fault (Particle × State)
  | .atom atom, st => (evaluate_atom atom st).map fun r => (.atom r.2.1, r.2.2)
  | .molecule ⟨atoms, stored_in, type, eval⟩, st =>
    match atoms with
    | [] => .ok (.molecule ⟨[], stored_in, type, eval⟩, st)
    | .molecule subject :: operands =>
      (compile_missing run operands st).bind fun r =>
        (evaluate run ⟨.molecule subject :: r.1, stored_in, type, eval⟩ r.2).map fun e =>
          (.molecule e.2.1, e.2.2)
    | .atom subject :: operands =>
      let subj := subject.identifier
      if subj = "block".toList then
        st.2.getParent.bind fun TheFunction =>
          let NewBB := st.2.create_block "block".toList TheFunction
          let cg := (NewBB.2.emit (.br NewBB.1)).2.SetInsertPoint NewBB.1
          (compile_each run operands (st.1, cg)).map fun r =>
            (.molecule ⟨.atom subject :: r.1, stored_in, type, eval⟩, r.2)
      else if subj = "if".toList then
        match operands with
        | [] => .error .undefined
        | condition :: branches =>
          (compile run condition st).bind fun c =>
            let cond := c.2.2.emit (.load .i1 (Operand.of (get_stored_in c.1)) "ifcond".toList)
            cond.2.getParent.bind fun TheFunction =>
              let ThenBB := cond.2.create_block "then".toList TheFunction
              let has_else := branches.length == 2
              let ElseBB :=
                if has_else then ThenBB.2.create_block "else".toList TheFunction
                else (0, ThenBB.2)
              let MergeBB := ElseBB.2.create_block "ifcont".toList TheFunction
              let cg := (MergeBB.2.emit
                (.cond_br (.value cond.1) ThenBB.1 (if has_else then ElseBB.1 else MergeBB.1))).2
              match branches with
              | [] => .error .undefined
              | then_branch :: after =>
                (compile run then_branch (c.2.1, cg.SetInsertPoint ThenBB.1)).bind fun t =>
                  (branch_unless_terminated t.2.2 MergeBB.1).bind fun cg =>
                    match after with
                    | [else_branch] =>
                      (compile run else_branch (t.2.1, cg.SetInsertPoint ElseBB.1)).bind fun e =>
                        (branch_unless_terminated e.2.2 MergeBB.1).map fun cg =>
                          (.molecule ⟨[.atom subject, c.1, t.1, e.1], stored_in, type, eval⟩,
                            (e.2.1, keep_or_erase cg MergeBB.1))
                    | _ =>
                      .ok (.molecule ⟨.atom subject :: c.1 :: t.1 :: after, stored_in, type, eval⟩,
                        (t.2.1, keep_or_erase cg MergeBB.1))
      else if subj = "while".toList then
        st.2.getParent.bind fun TheFunction =>
          let CondBB := st.2.create_block "cond".toList TheFunction
          let LoopBB := CondBB.2.create_block "loop".toList TheFunction
          let MergeBB := LoopBB.2.create_block "whilecont".toList TheFunction
          let cg := (MergeBB.2.emit (.br CondBB.1)).2.SetInsertPoint CondBB.1
          match operands with
          | [] => .error .undefined
          | condition :: after =>
            (compile run condition (st.1, cg)).bind fun c =>
              let cond := c.2.2.emit
                (.load .i1 (Operand.of (get_stored_in c.1)) "whilecond".toList)
              let cg := (cond.2.emit (.cond_br (.value cond.1) LoopBB.1 MergeBB.1)).2
              match after with
              | [] => .error .undefined
              | body :: rest =>
                (compile run body (c.2.1, cg.SetInsertPoint LoopBB.1)).bind fun b =>
                  (branch_unless_terminated b.2.2 CondBB.1).map fun cg =>
                    (.molecule ⟨.atom subject :: c.1 :: b.1 :: rest, stored_in, type, eval⟩,
                      (b.2.1, cg.SetInsertPoint MergeBB.1))
      else if subj = "web-loop".toList then
        match operands with
        | [] => .error .undefined
        | fps :: after =>
          (compile run fps st).bind fun f =>
            let fps_val := f.2.2.emit (.load .i32 (Operand.of (get_stored_in f.1)) "fps".toList)
            match fps_val.2.getParent, fps_val.2.insert_block with
            | .ok _, some ReturnPoint =>
              let UpdateFunc := fps_val.2.create_function "UpdateFrame".toList .void []
              let UpdateBB := UpdateFunc.2.create_block "entry".toList UpdateFunc.1
              match after with
              | [] => .error .undefined
              | body :: rest =>
                (compile run body (f.2.1, UpdateBB.2.SetInsertPoint UpdateBB.1)).bind fun b =>
                  b.2.2.getTerminator.map fun terminated =>
                    let cg := if terminated then b.2.2 else (b.2.2.emit (.ret none)).2
                    (.molecule ⟨.atom subject :: f.1 :: b.1 :: rest, stored_in, type, eval⟩,
                      (b.2.1, call_set_main_loop cg ReturnPoint UpdateFunc.1 fps_val.1))
            | _, _ => .error .undefined
      else if subj = "fun".toList then
        match operands with
        | [] => .error .undefined
        | .atom _ :: _ => .error .bad_variant_access
        | .molecule sig :: after =>
          let return_type := sig.type
          match sig.atoms with
          | [] => .error .undefined
          | .molecule _ :: _ => .error .bad_variant_access
          | .atom name :: parameters =>
            let func_name := name.identifier
            (get_atoms parameters).bind fun params =>
              -- save the current state
              let SavedBB := st.2.insert_block
              let saved_registry := st.1.object_registry
              let entered := enter_function func_name return_type params st
              match after with
              | [] => .error .undefined
              | .atom _ :: _ => .error .bad_variant_access
              | .molecule ⟨body, body_stored_in, body_type, body_eval⟩ :: rest =>
                let compiled : Except Fault (List Particle × State) :=
                  match body with
                  | [] => .ok ([], entered.2)
                  | head :: commands =>
                    (compile_each run commands entered.2).map fun r => (head :: r.1, r.2)
                compiled.bind fun b =>
                  (leave_function func_name return_type params entered.1 SavedBB
                      saved_registry b.2).map fun left =>
                    (.molecule
                        ⟨.atom subject :: .molecule sig ::
                          .molecule ⟨b.1, body_stored_in, body_type, body_eval⟩ :: rest,
                         stored_in, type, eval⟩,
                      left)
      else if subj = "overload".toList then
        (compile_overload ⟨.atom subject :: operands, stored_in, type, eval⟩ st.1).map fun g =>
          (.molecule ⟨.atom subject :: operands, stored_in, type, eval⟩, (g, st.2))
      else if subj = "extern".toList then
        match operands with
        | [] => .error .undefined
        | .atom _ :: _ => .error .bad_variant_access
        | .molecule sig :: _ =>
          match sig.atoms with
          | [] => .error .undefined
          | .molecule _ :: _ => .error .bad_variant_access
          | .atom name :: parameters =>
            (get_atoms parameters).map fun params =>
              (.molecule ⟨.atom subject :: operands, stored_in, type, eval⟩,
                declare_external name.identifier sig.type params st)
      else if subj = "struct".toList then
        match operands with
        | [] => .error .undefined
        | .atom _ :: _ => .error .bad_variant_access
        | .molecule fields_mol :: _ =>
          let struct_name := fields_mol.type
          if st.1.struct_registry.count struct_name then
            .ok (.molecule ⟨.atom subject :: operands, stored_in, type, eval⟩, st)
          else
            (get_atoms fields_mol.atoms.tail).map fun fields =>
              (.molecule ⟨.atom subject :: operands, stored_in, type, eval⟩,
                register_struct struct_name fields false st)
      else if subj = "extern-struct".toList then
        match operands with
        | [] => .error .undefined
        | .molecule _ :: _ => .error .bad_variant_access
        | .atom name :: after =>
          let struct_name := name.identifier
          if st.1.struct_registry.count struct_name then
            .ok (.molecule ⟨.atom subject :: operands, stored_in, type, eval⟩, st)
          else
            match after with
            | [] => .error .undefined
            | .atom _ :: _ => .error .bad_variant_access
            | .molecule fields_mol :: _ =>
              (get_atoms fields_mol.atoms.tail).map fun fields =>
                (.molecule ⟨.atom subject :: operands, stored_in, type, eval⟩,
                  register_struct struct_name fields true st)
      else
        match (if subj = "array".toList then st.1.struct_registry.lookup type else none) with
        | some sdef =>
          -- a struct literal
          (compile_each run operands st).bind fun r =>
            (build_struct_literal sdef r.1 r.2.2).map fun v =>
              (.molecule ⟨.atom subject :: r.1, some v.1, type, eval⟩, (r.2.1, v.2))
        | none =>
          (compile_missing run operands st).bind fun r =>
            (evaluate run ⟨.atom subject :: r.1, stored_in, type, eval⟩ r.2).map fun e =>
              (.molecule e.2.1, e.2.2)

/-- The loops `for (i = 1; i < mol.atoms.size(); i++) compile(mol.atoms[i])`. -/
def compile_each (run : Build → Molecule → List Value → State →
      Except Fault (Evaluated CodeGen)) :
    List Particle → State → Except Fault (List Particle × State)
  | [], st => .ok ([], st)
  | p :: ps, st =>
    (compile run p st).bind fun r =>
      (compile_each run ps r.2).map fun rs => (r.1 :: rs.1, rs.2)

/-- The loop of compiler.cpp 699-704, which compiles the operands that have
no value yet. -/
def compile_missing (run : Build → Molecule → List Value → State →
      Except Fault (Evaluated CodeGen)) :
    List Particle → State → Except Fault (List Particle × State)
  | [], st => .ok ([], st)
  | p :: ps, st =>
    match get_stored_in p with
    | some _ => (compile_missing run ps st).map fun rs => (p :: rs.1, rs.2)
    | none =>
      (compile run p st).bind fun r =>
        (compile_missing run ps r.2).map fun rs => (r.1 :: rs.1, rs.2)

end

/-! ## The program (miaow.cpp 19-122) -/

/-- An entry of `INTRINSICS` as `init_intrinsics` makes it. -/
def intrinsic (name : Str) (build : Build) (type_inference : TypeInference) :
    Str × Function :=
  (name, { identifier := name, return_type := [], param_types := [],
           build := build, type_inference := type_inference })

/-- `init_intrinsics()` (intrinsics.cpp 761-917). -/
def init_intrinsics : Table Function :=
  [intrinsic "+".toList (.build_arith "+".toList) .arithmetic_type,
   intrinsic "-".toList (.build_arith "-".toList) .arithmetic_type,
   intrinsic "*".toList (.build_arith "*".toList) .arithmetic_type,
   intrinsic "/".toList (.build_arith "/".toList) .arithmetic_type,
   intrinsic "%".toList (.build_arith "%".toList) .arithmetic_type,
   intrinsic "++".toList (.build_compound_arith "++".toList) .infer_first_type,
   intrinsic "eat".toList (.build_compound_arith "++".toList) .infer_first_type,
   intrinsic "--".toList (.build_compound_arith "--".toList) .infer_first_type,
   intrinsic "exercise".toList (.build_compound_arith "++".toList) .infer_first_type,
   intrinsic "+=".toList (.build_compound_arith "+".toList) .infer_first_type,
   intrinsic "-=".toList (.build_compound_arith "-".toList) .infer_first_type,
   intrinsic "==".toList (.build_compare "==".toList) .comparison_type,
   intrinsic "!=".toList (.build_compare "!=".toList) .comparison_type,
   intrinsic ">".toList (.build_compare ">".toList) .comparison_type,
   intrinsic ">=".toList (.build_compare ">=".toList) .comparison_type,
   intrinsic "<".toList (.build_compare "<".toList) .comparison_type,
   intrinsic "<=".toList (.build_compare "<=".toList) .comparison_type,
   intrinsic "!".toList .build_not .comparison_type,
   intrinsic "&&".toList .build_and .comparison_type,
   intrinsic "||".toList .build_or .comparison_type,
   intrinsic "def".toList .build_def .def_type,
   intrinsic "=".toList .build_reassign .reassign_type,
   intrinsic "meow".toList .build_meow .nil_type,
   intrinsic "return".toList .build_return .infer_first_type,
   intrinsic "->S".toList (.build_conv "Str".toList) .str_type,
   intrinsic "->I".toList (.build_conv "Int".toList) .int_type,
   intrinsic "array".toList .build_array .array_type,
   intrinsic "len".toList .build_array_size .int_type,
   intrinsic "get".toList (.build_array_element "get".toList) .infer_array_type,
   intrinsic "set".toList (.build_array_element "set".toList) .nil_type,
   intrinsic "append".toList (.build_array_memshift "append".toList) .infer_array_self_type,
   intrinsic "insert".toList (.build_array_memshift "insert".toList) .infer_array_self_type,
   intrinsic "remove".toList (.build_array_memshift "remove".toList) .infer_array_self_type,
   intrinsic "pop_back".toList (.build_array_memshift "pop_back".toList) .infer_element_type]

/-- The registries when `main` starts: only the built-in operations. -/
def Globals.initial : Globals :=
  { object_registry := [], struct_registry := [], overload_registry := [],
    INTRINSICS := init_intrinsics }

mutual

/-- `collect_struct_declarations(Particle& p)` (compiler.cpp 187-245). -/
def collect_struct_declarations : Particle → State → Except Fault State
  | .atom _, st => .ok st
  | .molecule ⟨atoms, _, _, _⟩, st =>
    match atoms with
    | [] => .ok st
    | subject :: operands =>
      let declared : Option Bool :=
        match subject with
        | .atom subj =>
          if subj.identifier = "extern-struct".toList ∧ 2 ≤ operands.length then some true
          else if subj.identifier = "struct".toList ∧ 2 ≤ operands.length then some false
          else none
        | .molecule _ => none
      match declared, operands with
      | some external, .atom name :: .molecule fields_mol :: _ =>
        (get_atoms fields_mol.atoms.tail).map fun fields =>
          register_struct name.identifier fields external st
      | some _, _ => .error .bad_variant_access
      | none, _ => collect_struct_declarations_from operands st

/-- The loop over the operands (compiler.cpp 241-243). -/
def collect_struct_declarations_from : List Particle → State → Except Fault State
  | [], st => .ok st
  | p :: ps, st =>
    (collect_struct_declarations p st).bind fun st => collect_struct_declarations_from ps st

end

/-- The loop of miaow.cpp 78-88: a slot in the insertion block for every
hoisted variable, and its entry in the variable table.  The variables come
in the order in which `collect_variables` met them; the order in which the
C++ map hands them out is not specified. -/
def allocate_hoisted : List (Str × Str) → State → State
  | [], st => st
  | (var_name, var_type) :: rest, st =>
    let llvm_type :=
      match st.1.struct_registry.lookup var_type with
      | some sdef =>
        if StructDef.is_extern sdef then LType.created sdef.llvm_type
        else get_llvm_type var_type
      | none => get_llvm_type var_type
    let alloca := st.2.emit (.alloca llvm_type var_name)
    let registry := st.1.object_registry.set var_name ⟨var_type, some alloca.1⟩
    allocate_hoisted rest ({ st.1 with object_registry := registry }, alloca.2)

/-- What `main` does with the tree of the source (miaow.cpp 58-96): the type
pass, the struct pass, hoisting into the entry block of `main`, compilation
of the commands, and `ret i32 0`. -/
def compile_program (run : Build → Molecule → List Value → State →
      Except Fault (Evaluated CodeGen)) (root : Molecule) : Except Fault State :=
  -- pass 1: type checking
  (arg_types root.atoms Globals.initial).bind fun typed =>
    -- pass 1.5: struct declarations
    (collect_struct_declarations (.molecule root) (typed.2, CodeGen.empty)).bind fun st =>
      -- pass 2: variable hoisting
      let all_vars := collect_variables (.molecule root) []
      let MainFunc := st.2.create_function "main".toList .i32 []
      let EntryBB := MainFunc.2.create_block "entry".toList MainFunc.1
      let st := allocate_hoisted all_vars (st.1, EntryBB.2.SetInsertPoint EntryBB.1)
      -- pass 3: compilation
      (compile_each run root.atoms.tail st).map fun r =>
        (r.2.1, (r.2.2.emit (.ret (some (.const_int 32 0)))).2)

/-- `main` from the (preprocessed) source text on. -/
def compile_source (run : Build → Molecule → List Value → State →
      Except Fault (Evaluated CodeGen)) (source : Str) : Except Fault State :=
  (lexparse source).bind (compile_program run)

/-- A stand-in for the builders outside `run_builder` that builds nothing. -/
def no_others : Build → Molecule → List Value → State → Except Fault (Evaluated CodeGen) :=
  fun _ mol _ st => .ok (none, mol, st)

/-- The state in which pass 3 starts on a program that declares nothing: the
built-in operations, and `main` with an empty entry block as the insertion
block. -/
def State.start : State :=
  let MainFunc := CodeGen.empty.create_function "main".toList .i32 []
  let EntryBB := MainFunc.2.create_block "entry".toList MainFunc.1
  (Globals.initial, EntryBB.2.SetInsertPoint EntryBB.1)

/-! ## Arrays at run time (intrinsics.cpp 480-760)

The array builders emit straight-line code with one conditional block.  What
that code does when it runs is given here as functions on the array it is
handed: the two `i32` fields of the header and the buffer that the `data`
field points to.  Arithmetic on the `i32` values wraps at `2^32`; an index
is sign-extended by `getelementptr`; a read or write outside the buffer is
undefined; `malloc` is taken to succeed. -/

/-- An array or string at run time: the fields `size` and `capacity` of its
header (bit patterns of `i32`, below `2^32`), and the buffer behind `data`,
one entry for each element slot that was allocated (`none`: never written). -/
structure ArrayObject where
  size : Nat
  capacity : Nat
  data : List (Option Nat)
deriving DecidableEq, Repr

/-- The offset of `CreateInBoundsGEP(element_type, data_ptr, index)` for an
`i32` index, in elements: the index is sign-extended, so that indices from
`2^31` on point in front of the buffer. -/
def element_offset (index : Nat) : Int :=
  if index < 2 ^ 31 then (index : Int) else (index : Int) - 2 ^ 32

/-- The slot that a load or store through
`CreateInBoundsGEP(element_type, data_ptr, index)` touches. -/
def element_slot (data : List (Option Nat)) (index : Nat) : Except Fault Nat :=
  if 0 ≤ element_offset index ∧ element_offset index < data.length then
    .ok (element_offset index).toNat
  else .error .undefined

/-- `memmove` of `n` elements from the offset `src` to the offset `dst` of the
same buffer; it touches nothing when `n` is zero. -/
def move_elements (data : List (Option Nat)) (dst src : Int) (n : Nat) :
    Except Fault (List (Option Nat)) :=
  if n = 0 then .ok data
  else if 0 ≤ src ∧ 0 ≤ dst ∧ src + n ≤ data.length ∧ dst + n ≤ data.length then
    .ok (data.take dst.toNat ++ (data.drop src.toNat).take n ++ data.drop (dst.toNat + n))
  else .error .undefined

/-- The array that the code emitted by `build_array` (intrinsics.cpp 480-521)
makes of the values of the elements: `size` slots on the stack; nothing for
an empty literal. -/
def ArrayObject.literal (values : List Nat) : Option ArrayObject :=
  if values = [] then none
  else
    some { size := values.length, capacity := pow2_ceil_log2 values.length,
           data := values.map some }

/-- The string that the code emitted by the string-literal case of `evaluate`
(compiler.cpp 61-105) makes of the characters: `size + 1` slots on the stack,
the last one a zero byte. -/
def ArrayObject.string_literal (identifier : List Nat) : ArrayObject :=
  { size := identifier.length,
    capacity := pow2_ceil_log2 (if 0 < identifier.length then identifier.length + 1 else 1),
    data := identifier.map some ++ [some 0] }

/-- The blocks `grow` and `cont` up to the reload of `data_ptr` (intrinsics.cpp
640-677): when the condition holds, a new buffer of `new_cap` elements that
starts with a copy of the first `size` elements. -/
def ArrayObject.grow_if_needed (is_str : Bool) (a : ArrayObject) : Except Fault ArrayObject :=
  let cond : Bool :=
    if is_str then decide (a.capacity ≤ (a.size + 1) % 2 ^ 32)   -- ICmpUGE(size + 1, capacity)
    else decide (a.size = a.capacity)                            -- ICmpEQ(size, capacity)
  if cond then
    let new_cap := if a.capacity = 0 then 1 else (a.capacity * 2) % 2 ^ 32
    -- malloc(zext(new_cap) * size_of_elem); memcpy(new_data, data_ptr, zext(size) * size_of_elem)
    if a.size ≤ a.data.length ∧ a.size ≤ new_cap then
      .ok { a with capacity := new_cap
                   data := a.data.take a.size ++ List.replicate (new_cap - a.size) none }
    else .error .undefined
  else .ok a

/-- The end of the `append`/`insert` code (intrinsics.cpp 700-711): the value
stored at `idx`, the size incremented, and for a string the zero byte at the
new size. -/
def ArrayObject.store_and_count (is_str : Bool) (a : ArrayObject) (size idx val : Nat) :
    Except Fault ArrayObject :=
  (element_slot a.data idx).bind fun slot =>
    let data := a.data.set slot (some val)
    let new_size := (size + 1) % 2 ^ 32
    if is_str then
      (element_slot data new_size).map fun null_slot =>
        { a with size := new_size, data := data.set null_slot (some 0) }
    else .ok { a with size := new_size, data := data }

/-- The code emitted by `build_array_memshift` for `append` (intrinsics.cpp
636-712), run on the array `a` and the value `val`. -/
def ArrayObject.append (is_str : Bool) (a : ArrayObject) (val : Nat) :
    Except Fault ArrayObject :=
  (a.grow_if_needed is_str).bind fun grown =>
    grown.store_and_count is_str a.size a.size val

/-- The code emitted by `build_array_memshift` for `insert` (intrinsics.cpp
636-712), run on the array `a`, the index `idx` and the value `val`. -/
def ArrayObject.insert (is_str : Bool) (a : ArrayObject) (idx val : Nat) :
    Except Fault ArrayObject :=
  (a.grow_if_needed is_str).bind fun grown =>
    let move_size := (a.size + 2 ^ 32 - idx) % 2 ^ 32          -- CreateSub(size, idx)
    let src := element_offset idx
    let dst := element_offset ((idx + 1) % 2 ^ 32)                  -- CreateAdd(idx, 1)
    (move_elements grown.data dst src move_size).bind fun data =>
      ArrayObject.store_and_count is_str { grown with data := data } a.size idx val

/-- An atom as the parser makes it of a plain or annotated word. -/
def word (identifier type : Str) : Particle :=
  .atom { identifier := identifier, stored_in := none, type := type, member_access := [],
          len := 0 }

/-- A molecule as the parser makes it of a bracketed form. -/
def form (atoms : List Particle) (type : Str) : Particle :=
  .molecule { atoms := atoms, stored_in := none, type := type, eval := true }

/-- The tree of `(fun Int:(f Int:a) {(def Int:y a)})`: a function with a
parameter and a local variable. -/
def example_fun_form : Particle :=
  form [word "fun".toList [],
        form [word "f".toList [], word "a".toList "Int".toList] "Int".toList,
        form [word "block".toList [],
              form [word "def".toList [], word "y".toList "Int".toList, word "a".toList []] []]
          []] []

/-- The tree of `(fun Nil:(f) {(overload p q)})`: a function whose body
declares an overload. -/
def example_fun_with_overload : Particle :=
  form [word "fun".toList [],
        form [word "f".toList []] "Nil".toList,
        form [word "block".toList [],
              form [word "overload".toList [], word "p".toList [], word "q".toList []] []]
          []] []

/-- The tree of the empty array literal `[]`. -/
def example_empty_literal : Particle := form [word "array".toList []] []

/-! ## Native representation tags (types.cpp 180-188, 217-223) -/

/-- `get_particle_type(Particle p, bool native)` (types.cpp 217-223):
`p.get_type(native)` on a copy of the node.  For a molecule that is
`Molecule::get_type(bool)` (types.cpp 180-188), which takes the logical type
through `struct_registry` and `NATIVE_TYPES`. -/
def get_particle_type_native (p : Particle) (native : Bool) (g : Globals) :
    Except Fault (Str × Globals) :=
  match p with
  | .atom a => .ok (a.get_type g native, g)
  | .molecule m =>
    (get_particle_type (.molecule m) g).map fun r =>
      if native then
        if r.2.struct_registry.count r.1 then ("ptr".toList, r.2)
        else
          match NATIVE_TYPES.lookup r.1 with
          | some n => (n, r.2)
          | none => ("ptr".toList, r.2)
      else r

/-- The registries of a program that has declared the variable `s` with
`(def Str:s ...)` and nothing else: the built-in operations, and the entry
that the type pass makes for `s`. -/
def example_str_globals : Globals :=
  { Globals.initial with
    object_registry := [("s".toList, { type := "Str".toList, value := none })] }

/-! ## A worked example: a call with a type annotation -/

/-- The call `Int:(+ 1.5 2.5)`: the call `(+ 1.5 2.5)` of `example_call` with
the type prefix `Int`, which the parser stores in the `type` field. -/
def example_typed_call : Molecule := { example_call with type := "Int".toList }

/-! ## Running straight-line code

What the emitted instructions do when they run, as far as the struct
properties need it: `alloca`, `load`, `store` and the two `getelementptr`
forms, in the order of the block.  Every executed `alloca` makes a new object,
named by the value of the instruction; a location is an object together with
the path of indices that leads into it.  A `load` at a type other than the
type of the value that was stored is taken to be undefined. -/

/-- A value at run time. -/
inductive RValue where
  /-- An integer of `bits` bits. -/
  | int (bits : Nat) (n : Int)
  /-- The `float` that `std::stof` reads from `literal`. -/
  | float (literal : Str)
  /-- The location at `path` inside the object that `base` allocated. -/
  | pointer (base : Value) (path : List Nat)
deriving DecidableEq, Repr

/-- The value is one of the LLVM type `ty`. -/
def RValue.has_type : RValue → LType → Bool
  | .int 1 _, .i1 => true
  | .int 8 _, .i8 => true
  | .int 32 _, .i32 => true
  | .int 64 _, .i64 => true
  | .float _, .float => true
  | .pointer _ _, .ptr => true
  | _, _ => false

/-- The state of a run: the values of the instructions executed so far, and
the contents of the locations written so far (the latest first). -/
structure Machine where
  registers : List (Value × RValue)
  memory : List ((Value × List Nat) × RValue)
deriving DecidableEq, Repr

/-- The value of an operand. -/
def Machine.operand (m : Machine) : Operand → Except Fault RValue
  | .value v =>
    match m.registers.lookup v with
    | some x => .ok x
    | none => .error .undefined
  | .const_int bits n => .ok (.int bits n)
  | .const_float literal => .ok (.float literal)
  | _ => .error .undefined

/-- The location an operand points to. -/
def Machine.address (m : Machine) (ptr : Operand) : Except Fault (Value × List Nat) :=
  (m.operand ptr).bind fun x =>
    match x with
    | .pointer base path => .ok (base, path)
    | _ => .error .undefined

/-- The indices of a `getelementptr` into an aggregate: the first one steps
over the pointer and must be the constant `0`, the others are constants that
go into the aggregate. -/
def gep_path : List Operand → Except Fault (List Nat)
  | .const_int _ 0 :: rest =>
    rest.mapM fun index =>
      match index with
      | .const_int _ (.ofNat i) => .ok i
      | _ => .error .undefined
  | _ => .error .undefined

/-- One instruction; a terminator or a call is outside straight-line code. -/
def Machine.step (m : Machine) (v : Value) : Instr → Except Fault Machine
  | .alloca _ _ => .ok { m with registers := (v, .pointer v []) :: m.registers }
  | .load ty ptr _ =>
    (m.address ptr).bind fun a =>
      match m.memory.lookup a with
      | some x =>
        if x.has_type ty then .ok { m with registers := (v, x) :: m.registers }
        else .error .undefined
      | none => .error .undefined
  | .store val ptr =>
    (m.operand val).bind fun x =>
      (m.address ptr).map fun a => { m with memory := (a, x) :: m.memory }
  | .struct_gep _ ptr index _ =>
    (m.address ptr).map fun a =>
      { m with registers := (v, .pointer a.1 (a.2 ++ [index])) :: m.registers }
  | .inbounds_gep _ ptr indices _ =>
    (m.address ptr).bind fun a =>
      (gep_path indices).map fun path =>
        { m with registers := (v, .pointer a.1 (a.2 ++ path)) :: m.registers }
  | _ => .error .undefined

/-- The instructions of a block in order. -/
def Machine.run : List (Value × Instr) → Machine → Except Fault Machine
  | [], m => .ok m
  | (v, i) :: rest, m => (m.step v i).bind (Machine.run rest)

/-- What the location held in the value `v` contains. -/
def Machine.read (m : Machine) (v : Value) : Option RValue :=
  match m.registers.lookup v with
  | some (.pointer base path) => m.memory.lookup (base, path)
  | _ => none

/-- A machine before anything ran. -/
def Machine.empty : Machine := { registers := [], memory := [] }

/-- Every value and every object of the machine has a number below `n`: the
machine is the state of a run of code that was emitted before the value `n`. -/
def Machine.before (m : Machine) (n : Nat) : Prop :=
  (∀ e ∈ m.registers, e.1 < n) ∧ (∀ e ∈ m.memory, e.1.1 < n)

instance (m : Machine) (n : Nat) : Decidable (m.before n) := by
  unfold Machine.before; exact inferInstance

/-- The machine `m` has the values and the contents of `m0` at every value
and in every object below `n`. -/
def Machine.agrees_below (m m0 : Machine) (n : Nat) : Prop :=
  (∀ v, v < n → m.registers.lookup v = m0.registers.lookup v) ∧
  (∀ a : Value × List Nat, a.1 < n → m.memory.lookup a = m0.memory.lookup a)

/-! ## A worked example: a struct with one field -/

/-- The struct `P` with the only field `Int:a`, as `(struct P:[Int:a])`
registers it first. -/
def example_struct : StructDef :=
  { name := "P".toList, field_names := ["a".toList], field_types := ["Int".toList],
    llvm_type := some 0, is_extern := false }

/-- The code generator at the start of `main` after the literal `7` was
compiled: a slot (value `1`) and the store of the constant. -/
def example_operand_code : CodeGen :=
  ((State.start.2.emit (.alloca .i32 [])).2.emit (.store (.const_int 32 7) (.value 1))).2

/-- The machine after that code ran: the slot `1` holds `7`. -/
def example_operand_machine : Machine :=
  { registers := [(1, .pointer 1 [])], memory := [((1, []), .int 32 7)] }

/-! ## The module from one point of compilation to a later one -/

/-- Every block of the module and every block that a branch names has a
number that was handed out already. -/
def CodeGen.WellFormed (cg : CodeGen) : Prop :=
  (∀ e ∈ cg.blocks, e.1 < cg.next) ∧
  (∀ e ∈ cg.blocks, ∀ i ∈ e.2.instrs, ∀ b ∈ i.2.successors, b < cg.next)

instance (cg : CodeGen) : Decidable cg.WellFormed := by
  unfold CodeGen.WellFormed; exact inferInstance

/-- The module `cg'` comes from the module `cg` by code generation: the
blocks of `cg` are still there with the instructions they had in front, and
no branch to a block of `cg` was added. -/
def CodeGen.Extends (cg cg' : CodeGen) : Prop :=
  cg.WellFormed ∧ cg'.WellFormed ∧ cg.next ≤ cg'.next ∧
  (∀ e ∈ cg.blocks, ∃ e' ∈ cg'.blocks, e'.1 = e.1 ∧ e.2.instrs <+: e'.2.instrs) ∧
  (∀ b, b < cg.next → cg'.hasPredecessor b = true → cg.hasPredecessor b = true)

/-- The builders behind `Function::evaluate` only generate code: they leave
the blocks that exist in place and branch only to blocks they create. -/
def Framed (run : Build → Molecule → List Value → State → Except Fault (Evaluated CodeGen)) :
    Prop :=
  ∀ b mol args st r, st.2.WellFormed → run b mol args st = .ok r → st.2.Extends r.2.2.2

/-- The blocks of `cg` are still in `cg'`, with the instructions they had
in front. -/
def CodeGen.Keeps (cg cg' : CodeGen) : Prop :=
  ∀ e ∈ cg.blocks, ∃ e' ∈ cg'.blocks, e'.1 = e.1 ∧ e.2.instrs <+: e'.2.instrs

/-- The `if` branch of `compile` between the condition and the then arm
(compiler.cpp 296-309), for the compiled condition `c`: the load of the
condition, the blocks `then`, `else` (with an else arm only) and `ifcont`,
the conditional branch, and the builder at the start of `then`.  Returns
`ElseBB` (0 for the null pointer), `MergeBB` and the module. -/
def open_branches (c : Particle × State) (has_else : Bool) : Except Fault (Nat × Nat × CodeGen) :=
  let cond := c.2.2.emit (.load .i1 (Operand.of (get_stored_in c.1)) "ifcond".toList)
  cond.2.getParent.map fun TheFunction =>
    let ThenBB := cond.2.create_block "then".toList TheFunction
    let ElseBB :=
      if has_else then ThenBB.2.create_block "else".toList TheFunction
      else (0, ThenBB.2)
    let MergeBB := ElseBB.2.create_block "ifcont".toList TheFunction
    let cg := (MergeBB.2.emit
      (.cond_br (.value cond.1) ThenBB.1 (if has_else then ElseBB.1 else MergeBB.1))).2
    (ElseBB.1, MergeBB.1, cg.SetInsertPoint ThenBB.1)

/-- The form `(return value)` as `lexparse` builds it. -/
def example_return (value : Str) : Particle :=
  .molecule ⟨[.atom ⟨"return".toList, none, [], [], 0⟩, .atom ⟨value, none, [], [], 0⟩],
    none, [], true⟩

/-- The atom `true` as `lexparse` builds it. -/
def example_condition : Particle := .atom ⟨"true".toList, none, [], [], 0⟩

/-! # Theorems -/

/-! ## Fuel and buffer independence of the loop -/


theorem Agree.ok (m : Molecule) : Agree (.ok m) (.ok m) := ⟨rfl, by simp⟩

theorem Agree.bind {α : Type} {x : Except Fault α}
    {g g' : α → Except Fault Molecule}
    (hx : x ≠ .error .fuel) (hg : ∀ v, x = .ok v → Agree (g v) (g' v)) :
    Agree (x.bind g) (x.bind g') := by
  cases x with
  | error e =>
    refine ⟨rfl, ?_⟩
    intro h
    apply hx
    simpa [Except.bind] using h
  | ok v => exact hg v rfl

theorem Agree.bind2 {x y : Except Fault Molecule}
    {g g' : Molecule → Except Fault Molecule}
    (hx : Agree x y) (hg : ∀ v, Agree (g v) (g' v)) :
    Agree (x.bind g) (y.bind g') := by
  obtain ⟨rfl, hne⟩ := hx
  exact Agree.bind hne (fun v _ => hg v)

theorem findIdx?_lt {α : Type} (p : α → Bool) (l : List α) (i : Nat)
    (h : l.findIdx? p = some i) : i < l.length := by
  have := List.findIdx?_eq_some_iff_getElem.mp h
  exact this.1

theorem scanLayers_bounds : ∀ (v : Str) (p : Nat) (l : Int) (e : Nat),
    scanLayers v p l = some e → p ≤ e ∧ e < p + v.length
  | [], _, _, _, h => by simp [scanLayers] at h
  | c :: cs, p, l, e, h => by
    unfold scanLayers at h
    by_cases h0 : (if isOpen c then l + 1 else if isClose c then l - 1 else l) = 0
    · simp only [h0, if_true] at h
      cases h
      simp
    · simp only [h0, if_false] at h
      have := scanLayers_bounds cs (p + 1) _ e h
      simp only [List.length_cons]
      omega

theorem substr_fuel (s : Str) (n : Nat) : substr s n ≠ .error .fuel := by
  unfold substr; split <;> simp

theorem Atom.make_fuel (i : Str) : Atom.make i ≠ .error .fuel := by
  unfold Atom.make
  split
  · unfold substr; dsimp only; split <;> simp [Except.map]
  · simp

theorem Molecule.add_atom_fuel (m : Molecule) (i : Str) : m.add_atom i ≠ .error .fuel := by
  unfold Molecule.add_atom
  have := Atom.make_fuel i
  cases h : Atom.make i with
  | error e => rw [h] at this; simpa [Except.map] using this
  | ok a => simp [Except.map]

theorem Agree.symm {x y : Except Fault Molecule} (h : Agree x y) : Agree y x :=
  ⟨h.1.symm, h.1 ▸ h.2⟩

theorem Agree.trans {x y z : Except Fault Molecule} (h : Agree x y) (h' : Agree y z) :
    Agree x z := ⟨h.1.trans h'.1, h.2⟩

theorem lexparseWith_agree (loop loop' : Str → Molecule → Str → Except Fault Molecule)
    (tail tail' view : Str)
    (h : ∀ v m, v.length < view.length → Agree (loop tail m v) (loop' tail' m v)) :
    Agree (lexparseWith loop tail view) (lexparseWith loop' tail' view) := by
  unfold lexparseWith
  cases hf : find_first_of view OPENERS with
  | none => exact Agree.ok _
  | some fp =>
    have hlt : fp < view.length := findIdx?_lt _ _ _ hf
    dsimp only
    apply Agree.bind
    · split
      · exact Molecule.add_atom_fuel _ _
      · split
        · exact Molecule.add_atom_fuel _ _
        · simp
    · intro v _
      apply h
      rw [List.length_drop]
      omega

/-- The loop body at a view that starts with an opening bracket whose match
is at `word_end`. -/
theorem lexStep_open_head (loop : Str → Molecule → Str → Except Fault Molecule)
    (tail : Str) (mol : Molecule) (c : Char) (cs : Str) (word_end : Nat)
    (hc : isOpen c = true) (hs : scanLayers (c :: cs) 0 0 = some word_end) :
    lexStep loop tail mol (c :: cs) =
      (lexparseWith loop ((c :: cs).drop (word_end + 1) ++ tail)
          ((c :: cs).take (word_end + 1))).bind fun sub =>
        loop tail (mol.add_molecule sub) ((c :: cs).drop (word_end + 1)) := by
  have hws : (!WHITESPACE.contains c) = true := by
    revert hc; unfold isOpen WHITESPACE
    intro hc
    simp only [Bool.or_eq_true, beq_iff_eq] at hc
    rcases hc with (rfl | rfl) | rfl <;> decide
  have hcl : isClose c = false := by
    revert hc; unfold isOpen isClose
    intro hc
    simp only [Bool.or_eq_true, beq_iff_eq] at hc
    rcases hc with (rfl | rfl) | rfl <;> decide
  have hf : find_first_not_of (c :: cs) WHITESPACE = some 0 := by
    unfold find_first_not_of
    rw [List.findIdx?_cons]
    have hws' : c ∉ WHITESPACE := by simpa using hws
    simp [hws']
  unfold lexStep
  simp only [hf, List.getD_cons_zero, hcl, hc, List.drop_zero, hs, peek, List.cons_append,
    if_true, Bool.false_eq_true, if_false]

theorem lexLoop_succ (f : Nat) : lexLoop (f + 1) = lexStep (lexLoop f) := rfl

/-- Whatever the fuel (beyond the length of the view) and whatever follows the
view in its buffer, the loop gives the same result, and it is never the
out-of-fuel fault. -/
theorem lexLoop_agree : ∀ (n : Nat) (view : Str), view.length ≤ n →
    ∀ (f f' : Nat) (tail tail' : Str) (mol : Molecule), view.length < f → view.length < f' →
      Agree (lexLoop f tail mol view) (lexLoop f' tail' mol view) := by
  intro n
  induction n with
  | zero =>
    intro view hv f f' tail tail' mol hf hf'
    have hnil : view = [] := List.length_eq_zero.mp (Nat.le_zero.mp hv)
    subst hnil
    obtain ⟨f0, rfl⟩ : ∃ k, f = k + 1 := ⟨f - 1, by simp at hf; omega⟩
    obtain ⟨f0', rfl⟩ : ∃ k, f' = k + 1 := ⟨f' - 1, by simp at hf'; omega⟩
    exact Agree.ok mol
  | succ n ih =>
    intro view hv f f' tail tail' mol hf hf'
    -- the induction hypothesis, for every shorter view
    have IH : ∀ v : Str, v.length < view.length → ∀ (g g' : Nat) (t t' : Str) (m : Molecule),
        v.length < g → v.length < g' → Agree (lexLoop g t m v) (lexLoop g' t' m v) :=
      fun v hlt => ih v (by omega)
    -- a recursive parse of a span no longer than the view
    have IHsub : ∀ (s : Str), s.length ≤ view.length → ∀ (g g' : Nat) (t t' : Str),
        s.length ≤ g → s.length ≤ g' →
        Agree (lexparseWith (lexLoop g) t s) (lexparseWith (lexLoop g') t' s) := by
      intro s hs g g' t t' hg hg'
      apply lexparseWith_agree
      intro v m hvs
      exact IH v (by omega) g g' t t' m (by omega) (by omega)
    -- the bracket branch, against a fixed choice of fuel and buffer
    have hopen : ∀ (g : Nat) (t : Str) (wb we : Nat), view.length ≤ g → wb < view.length →
        isOpen (view.getD wb '\x00') = true →
        scanLayers (view.drop wb) 0 0 = some we →
        Agree
          (if isOpen (peek (view.drop wb ++ t) wb) = true then
            (lexparseWith (lexLoop g) ((view.drop wb).drop (we + 1) ++ t)
                ((view.drop wb).take (we + 1))).bind fun sub =>
              lexLoop g t (mol.add_molecule sub) ((view.drop wb).drop (we + 1))
           else lexLoop g t mol (view.drop wb))
          ((lexparseWith (lexLoop view.length) ((view.drop wb).drop (we + 1))
                ((view.drop wb).take (we + 1))).bind fun sub =>
              lexLoop view.length [] (mol.add_molecule sub) ((view.drop wb).drop (we + 1))) := by
      intro g t wb we hg hwb hc hs
      have hb := scanLayers_bounds _ _ _ _ hs
      have hl1 : (view.drop wb).length = view.length - wb := List.length_drop _ _
      have hsub' : ((view.drop wb).take (we + 1)).length ≤ view.length - wb := by
        rw [List.length_take]; omega
      have hrest' : ((view.drop wb).drop (we + 1)).length < view.length - wb := by
        rw [List.length_drop]; omega
      have hsub : ((view.drop wb).take (we + 1)).length ≤ view.length := by omega
      have hrest : ((view.drop wb).drop (we + 1)).length < view.length := by omega
      by_cases hp : isOpen (peek (view.drop wb ++ t) wb) = true
      · rw [if_pos hp]
        exact Agree.bind2 (IHsub _ hsub _ _ _ _ (by omega) (by omega))
          (fun sub => IH _ hrest _ _ _ _ _ (by omega) (by omega))
      · rw [if_neg hp]
        have hwb0 : wb ≠ 0 := by
          rintro rfl
          apply hp
          simp only [List.drop_zero, peek] at hc ⊢
          rw [List.getD_append _ _ _ _ hwb]
          exact hc
        -- one more iteration, now at the bracket itself
        obtain ⟨c, cs, hcs⟩ : ∃ c cs, view.drop wb = c :: cs := by
          cases hd : view.drop wb with
          | nil => rw [hd] at hl1; simp at hl1; omega
          | cons c cs => exact ⟨c, cs, rfl⟩
        have hc' : isOpen c = true := by
          have : view.getD wb '\x00' = c := by
            rw [List.getD_eq_getElem _ _ hwb]
            have h1 : (view.drop wb)[0]? = some c := by rw [hcs]; simp
            rw [List.getElem?_drop] at h1
            simp only [Nat.add_zero] at h1
            rw [List.getElem?_eq_getElem hwb] at h1
            exact Option.some.inj h1
          rw [← this]; exact hc
        obtain ⟨g0, rfl⟩ : ∃ k, g = k + 1 := ⟨g - 1, by omega⟩
        rw [lexLoop_succ, hcs, lexStep_open_head _ _ _ _ _ _ hc' (hcs ▸ hs), ← hcs]
        exact Agree.bind2 (IHsub _ hsub _ _ _ _ (by omega) (by omega))
          (fun sub => IH _ hrest _ _ _ _ _ (by omega) (by omega))
    obtain ⟨f0, rfl⟩ : ∃ k, f = k + 1 := ⟨f - 1, by omega⟩
    obtain ⟨f0', rfl⟩ : ∃ k, f' = k + 1 := ⟨f' - 1, by omega⟩
    rw [lexLoop_succ, lexLoop_succ]
    unfold lexStep
    cases hfind : find_first_not_of view WHITESPACE with
    | none => exact Agree.ok mol
    | some wb =>
      have hwb : wb < view.length := findIdx?_lt _ _ _ hfind
      dsimp only
      by_cases hcl : isClose (view.getD wb '\x00') = true
      · rw [if_pos hcl, if_pos hcl]; exact Agree.ok mol
      rw [if_neg hcl, if_neg hcl]
      by_cases hop : isOpen (view.getD wb '\x00') = true
      · rw [if_pos hop, if_pos hop]
        cases hs : scanLayers (view.drop wb) 0 0 with
        | none => exact Agree.ok mol
        | some we =>
          dsimp only
          exact (hopen f0 tail wb we (by omega) hwb hop hs).trans
            (hopen f0' tail' wb we (by omega) hwb hop hs).symm
      rw [if_neg hop, if_neg hop]
      by_cases hq : view.getD wb '\x00' = '"'
      · rw [if_pos hq, if_pos hq]
        have heq : (-1 : Int) ≤ (match find_first_of (view.drop 1) ['"'] with
            | none => (-1 : Int)
            | some p => (p : Int)) := by
          split
          · exact le_refl _
          · exact le_trans (by decide) (Int.ofNat_nonneg _)
        generalize (match find_first_of (view.drop 1) ['"'] with
            | none => (-1 : Int)
            | some p => (p : Int)) = end_quote at heq ⊢
        apply Agree.bind (Molecule.add_atom_fuel _ _)
        intro m _
        apply Agree.bind (substr_fuel _ _)
        intro v hv
        unfold substr at hv
        split at hv
        · cases hv
          apply IH
          · rw [List.length_drop]; omega
          · rw [List.length_drop]; omega
          · rw [List.length_drop]; omega
        · cases hv
      rw [if_neg hq, if_neg hq]
      have hw : ∀ we, List.take (we - wb) (view.drop wb) ≠ [] → 0 < we := by
        intro we h
        by_contra h0
        have h0' := Nat.le_zero.mp (Nat.not_lt.mp h0)
        subst h0'
        simp at h
      generalize (match find_first_of (view.drop wb) (WHITESPACE ++ OPENERS) with
          | none => view.length
          | some rel_end => wb + rel_end) = word_end
      have hw1 := hw word_end
      generalize List.take (word_end - wb) (view.drop wb) = word0 at hw1 ⊢
      generalize isClose (word0.getLastD '\x00') = closed
      generalize hword : (if closed = true then word0.dropLast else word0) = word
      have hw2 : word ≠ [] → 0 < word_end := by
        intro hne
        apply hw1
        rintro rfl
        apply hne
        rw [← hword]
        split <;> rfl
      by_cases hty : (!word.isEmpty) = true ∧ word.getLast? = some ':' ∧
          word_end < view.length ∧
          (view.getD word_end '\x00' = '(' ∨ view.getD word_end '\x00' = '[')
      · -- a typed sub-expression
        rw [if_pos hty, if_pos hty]
        have hlen := hty.2.2.1
        have hwe : 0 < word_end := by
          apply hw2
          intro h
          rw [h] at hty
          simp at hty
        cases hs : scanLayers (view.drop word_end) 0 0 with
        | none =>
          dsimp only
          split
          · apply IH
            · rw [List.length_drop]; omega
            · rw [List.length_drop]; omega
            · rw [List.length_drop]; omega
          · exact Agree.ok mol
        | some pe =>
          dsimp only
          have hb := scanLayers_bounds _ _ _ _ hs
          have hl1 : (view.drop word_end).length = view.length - word_end := List.length_drop _ _
          apply Agree.bind2
          · apply IHsub
            · rw [List.length_take]; omega
            · rw [List.length_take]; omega
            · rw [List.length_take]; omega
          · intro sub
            split
            · apply IH
              · rw [List.length_drop]; omega
              · rw [List.length_drop]; omega
              · rw [List.length_drop]; omega
            · exact Agree.ok _
      · -- a bare word
        rw [if_neg hty, if_neg hty]
        apply Agree.bind (Molecule.add_atom_fuel _ _)
        intro m _
        split
        · split
          · apply IH
            · rw [List.length_drop]; omega
            · rw [List.length_drop]; omega
            · rw [List.length_drop]; omega
          · exact Agree.ok _
        · exact Agree.ok _

theorem lexLoop_fuel_adequate (f : Nat) (tail : Str) (mol : Molecule) (view : Str)
    (h : view.length < f) : lexLoop f tail mol view ≠ .error .fuel :=
  (lexLoop_agree view.length view (le_refl _) f f tail tail mol h h).2

theorem lexLoop_irrel (f f' : Nat) (tail tail' : Str) (mol : Molecule) (view : Str)
    (h : view.length < f) (h' : view.length < f') :
    lexLoop f tail mol view = lexLoop f' tail' mol view :=
  (lexLoop_agree view.length view (le_refl _) f f' tail tail' mol h h').1

/-- A recursive parse in place is the parse of the span on its own. -/
theorem lexparseWith_eq_lexparse (f : Nat) (tail s : Str) (h : s.length ≤ f) :
    lexparseWith (lexLoop f) tail s = lexparse s := by
  unfold lexparse lexparseIn
  refine (lexparseWith_agree _ _ _ _ _ ?_).1
  intro v m hv
  exact lexLoop_agree v.length v (le_refl _) _ _ _ _ _ (by omega) (by omega)

theorem lexparse_ne_fuel (view : Str) : lexparse view ≠ .error .fuel := by
  unfold lexparse lexparseIn
  refine (lexparseWith_agree _ (lexLoop (view.length + 1)) [] [] _ ?_).2
  intro v m hv
  exact lexLoop_agree v.length v (le_refl _) _ _ _ _ _ (by omega) (by omega)

/-! ### Searching in a list -/

theorem find_first_not_of_skip (pad : Str) (c : Char) (rest set : Str)
    (hpad : ∀ x ∈ pad, x ∈ set) (hc : c ∉ set) :
    find_first_not_of (pad ++ c :: rest) set = some pad.length := by
  unfold find_first_not_of
  induction pad with
  | nil => simp [List.findIdx?_cons, hc]
  | cons x xs ih =>
    have hx : x ∈ set := hpad x (List.mem_cons_self _ _)
    have := ih (fun y hy => hpad y (List.mem_cons_of_mem _ hy))
    simp only [List.cons_append, List.findIdx?_cons, List.length_cons]
    have hx' : set.contains x = true := by simpa using hx
    simp only [hx', Bool.not_true, Bool.false_eq_true, if_false]
    rw [List.findIdx?_succ, this]
    simp

theorem find_first_not_of_all (pad set : Str) (hpad : ∀ x ∈ pad, x ∈ set) :
    find_first_not_of pad set = none := by
  unfold find_first_not_of
  rw [List.findIdx?_eq_none_iff]
  intro x hx
  simp [hpad x hx]

theorem find_first_of_skip (w : Str) (d : Char) (rest set : Str)
    (hw : ∀ x ∈ w, x ∉ set) (hd : d ∈ set) :
    find_first_of (w ++ d :: rest) set = some w.length := by
  unfold find_first_of
  induction w with
  | nil => simp [List.findIdx?_cons, hd]
  | cons x xs ih =>
    have hx : x ∉ set := hw x (List.mem_cons_self _ _)
    have := ih (fun y hy => hw y (List.mem_cons_of_mem _ hy))
    simp only [List.cons_append, List.findIdx?_cons, List.length_cons]
    have hx' : set.contains x = false := by simpa using hx
    simp only [hx', Bool.false_eq_true, if_false]
    rw [List.findIdx?_succ, this]
    simp

theorem find_first_of_none (w set : Str) (hw : ∀ x ∈ w, x ∉ set) :
    find_first_of w set = none := by
  unfold find_first_of
  rw [List.findIdx?_eq_none_iff]
  intro x hx
  simpa using hw x hx

theorem getD_append_cons (pad : Str) (c : Char) (rest : Str) (d : Char) :
    (pad ++ c :: rest).getD pad.length d = c := by
  induction pad with
  | nil => rfl
  | cons x xs ih => simpa using ih

theorem scanLayers_span : ∀ (s rest : Str) (p : Nat) (l : Int), s ≠ [] → l + depth s = 0 →
    (∀ k < s.length, 0 < k → l + depth (s.take k) ≠ 0) →
    scanLayers (s ++ rest) p l = some (p + s.length - 1)
  | [], _, _, _, h, _, _ => absurd rfl h
  | c :: cs, rest, p, l, _, hd, hpre => by
    simp only [List.cons_append, scanLayers]
    by_cases hcs : cs = []
    · subst hcs
      have : (if isOpen c = true then l + 1 else if isClose c = true then l - 1 else l) = 0 := by
        simp only [depth] at hd
        by_cases ho : isOpen c = true
        · rw [if_pos ho] at hd ⊢
          omega
        · rw [if_neg ho] at hd ⊢
          by_cases hc : isClose c = true
          · rw [if_pos hc] at hd ⊢
            omega
          · rw [if_neg hc] at hd ⊢
            omega
      simp [this]
    · have h1 := hpre 1 (by
        cases cs with
        | nil => exact absurd rfl hcs
        | cons _ _ => simp) (by omega)
      have hl : (if isOpen c = true then l + 1 else if isClose c = true then l - 1 else l) =
          l + depth (List.take 1 (c :: cs)) := by
        simp only [List.take_succ_cons, List.take_zero, depth]
        split <;> [skip; split] <;> omega
      rw [hl, if_neg h1]
      show scanLayers (cs ++ rest) (p + 1) _ = _
      rw [scanLayers_span cs rest (p + 1) _ hcs]
      · simp only [List.length_cons]
        congr 1
        have : 0 < cs.length := List.length_pos.mpr hcs
        omega
      · simp only [List.take_succ_cons, List.take_zero, depth] at hd ⊢
        omega
      · intro k hk hk0
        have := hpre (k + 1) (by simpa using hk) (by omega)
        simp only [List.take_succ_cons, List.take_zero, depth] at this ⊢
        intro h
        apply this
        omega

theorem BalancedSpan.scan {s : Str} (h : BalancedSpan s) (rest : Str) :
    scanLayers (s ++ rest) 0 0 = some (s.length - 1) := by
  have := scanLayers_span s rest 0 0 h.1 (by simpa using h.2.1)
    (fun k hk hk0 => by simpa using h.2.2 k hk hk0)
  simpa using this

/-! ### One iteration of the loop, case by case -/

theorem isPlain_iff (c : Char) : isPlain c = true ↔
    c ∉ WHITESPACE ∧ isOpen c = false ∧ isClose c = false ∧ c ≠ '"' := by
  unfold isPlain
  simp [and_assoc]

theorem not_mem_delims {c : Char} (h1 : c ∉ WHITESPACE) (h2 : isOpen c = false) :
    c ∉ WHITESPACE ++ OPENERS := by
  intro h
  rcases List.mem_append.mp h with h | h
  · exact h1 h
  · have : isOpen c = true := by
      unfold isOpen
      simp only [OPENERS, List.mem_cons, List.mem_singleton] at h
      rcases h with rfl | rfl | rfl | h
      · decide
      · decide
      · decide
      · simp at h
    rw [h2] at this
    cases this

theorem ws_not_bracket {d : Char} (h : d ∈ WHITESPACE) :
    isOpen d = false ∧ isClose d = false ∧ d ≠ '"' ∧ d ≠ '(' ∧ d ≠ '[' := by
  unfold WHITESPACE at h
  simp only [List.mem_cons, List.mem_singleton] at h
  rcases h with rfl | rfl | rfl | h
  · decide
  · decide
  · decide
  · simp at h

theorem lexStep_end (loop : Str → Molecule → Str → Except Fault Molecule)
    (tail : Str) (mol : Molecule) (pad : Str) (hpad : ∀ x ∈ pad, x ∈ WHITESPACE) :
    lexStep loop tail mol pad = .ok mol := by
  unfold lexStep
  rw [find_first_not_of_all pad _ hpad]

theorem lexStep_close (loop : Str → Molecule → Str → Except Fault Molecule)
    (tail : Str) (mol : Molecule) (pad : Str) (c : Char) (rest : Str)
    (hpad : ∀ x ∈ pad, x ∈ WHITESPACE) (hc : isClose c = true) :
    lexStep loop tail mol (pad ++ c :: rest) = .ok mol := by
  have hcw : c ∉ WHITESPACE := fun h => by
    have := (ws_not_bracket h).2.1
    rw [hc] at this
    cases this
  unfold lexStep
  rw [find_first_not_of_skip pad c rest _ hpad hcw]
  simp only [getD_append_cons, hc, if_true]

/-- A bare word followed by a whitespace character: one atom, and the loop
goes on after that character. -/
theorem lexStep_word (loop : Str → Molecule → Str → Except Fault Molecule)
    (tail : Str) (mol : Molecule) (pad w : Str) (d : Char) (rest : Str)
    (hpad : ∀ x ∈ pad, x ∈ WHITESPACE) (hw : ∀ x ∈ w, isPlain x = true) (hne : w ≠ [])
    (hd : d ∈ WHITESPACE) :
    lexStep loop tail mol (pad ++ (w ++ d :: rest)) =
      (mol.add_atom w).bind fun m => loop tail m rest := by
  obtain ⟨c0, w', rfl⟩ : ∃ c0 w', w = c0 :: w' := by
    cases w with
    | nil => exact absurd rfl hne
    | cons c0 w' => exact ⟨c0, w', rfl⟩
  have hc0 := (isPlain_iff c0).mp (hw c0 (List.mem_cons_self _ _))
  have hfind : find_first_not_of (pad ++ (c0 :: w' ++ d :: rest)) WHITESPACE = some pad.length :=
    find_first_not_of_skip pad c0 (w' ++ d :: rest) _ hpad hc0.1
  have hget : (pad ++ (c0 :: w' ++ d :: rest)).getD pad.length '\x00' = c0 :=
    getD_append_cons pad c0 _ _
  have hrel : find_first_of (c0 :: w' ++ d :: rest) (WHITESPACE ++ OPENERS) =
      some (c0 :: w').length :=
    find_first_of_skip _ d rest _
      (fun x hx => by
        have := (isPlain_iff x).mp (hw x hx)
        exact not_mem_delims this.1 this.2.1)
      (List.mem_append_left _ hd)
  have hlast : isClose ((c0 :: w').getLastD '\x00') = false := by
    have hmem : (c0 :: w').getLastD '\x00' ∈ c0 :: w' := by
      rw [List.getLastD_eq_getLast?, List.getLast?_eq_getLast _ (List.cons_ne_nil _ _)]
      exact List.getLast_mem _
    exact ((isPlain_iff _).mp (hw _ hmem)).2.2.1
  have hget2 : (pad ++ (c0 :: w' ++ d :: rest)).getD (pad.length + (c0 :: w').length) '\x00'
      = d := by
    have := getD_append_cons (pad ++ c0 :: w') d rest '\x00'
    simpa [List.append_assoc] using this
  have hdw := ws_not_bracket hd
  have hdrop2 : (pad ++ (c0 :: w' ++ d :: rest)).drop (pad.length + (c0 :: w').length + 1)
      = rest := by
    have : pad ++ (c0 :: w' ++ d :: rest) = (pad ++ c0 :: w' ++ [d]) ++ rest := by simp
    rw [this]
    have hl : pad.length + (c0 :: w').length + 1 = (pad ++ c0 :: w' ++ [d]).length := by
      simp only [List.length_append, List.length_cons, List.length_nil]
    rw [hl, List.drop_left]
  have hlen : pad.length + (c0 :: w').length < (pad ++ (c0 :: w' ++ d :: rest)).length := by
    simp
  unfold lexStep
  rw [hfind]
  simp only [hget, hc0.2.2.1, hc0.2.1, hc0.2.2.2, List.drop_left, hrel, Nat.add_sub_cancel_left,
    List.take_left, hlast, hget2, hdw.2.2.2.1, hdw.2.2.2.2, hdrop2, hlen,
    Bool.false_eq_true, if_false, or_self, and_false, Bool.not_false, if_true]

theorem Except.bind_ok_self {α : Type} (x : Except Fault α) :
    (x.bind fun m => Except.ok m) = x := by
  cases x <;> rfl

/-- The last bare word of a form, with the closing bracket right after it:
one atom without the bracket, and the loop ends. -/
theorem lexStep_last_word (loop : Str → Molecule → Str → Except Fault Molecule)
    (tail : Str) (mol : Molecule) (pad w : Str) (c : Char) (trail : Str)
    (hpad : ∀ x ∈ pad, x ∈ WHITESPACE) (hw : ∀ x ∈ w, isPlain x = true) (hne : w ≠ [])
    (hc : isClose c = true) (htrail : ∀ x ∈ trail.head?, x ∈ WHITESPACE) :
    lexStep loop tail mol (pad ++ (w ++ c :: trail)) = mol.add_atom w := by
  obtain ⟨c0, w', rfl⟩ : ∃ c0 w', w = c0 :: w' := by
    cases w with
    | nil => exact absurd rfl hne
    | cons c0 w' => exact ⟨c0, w', rfl⟩
  have hc0 := (isPlain_iff c0).mp (hw c0 (List.mem_cons_self _ _))
  have hfind : find_first_not_of (pad ++ (c0 :: w' ++ c :: trail)) WHITESPACE = some pad.length :=
    find_first_not_of_skip pad c0 (w' ++ c :: trail) _ hpad hc0.1
  have hget : (pad ++ (c0 :: w' ++ c :: trail)).getD pad.length '\x00' = c0 :=
    getD_append_cons pad c0 _ _
  have hcw : c ∉ WHITESPACE := fun h => by
    have := (ws_not_bracket h).2.1
    rw [hc] at this
    cases this
  have hco : isOpen c = false := by
    revert hc; unfold isOpen isClose
    intro hc
    simp only [Bool.or_eq_true, beq_iff_eq] at hc
    rcases hc with (rfl | rfl) | rfl <;> decide
  have hwc : ∀ x ∈ c0 :: w' ++ [c], x ∉ WHITESPACE ++ OPENERS := by
    intro x hx
    rcases List.mem_append.mp hx with hx | hx
    · have := (isPlain_iff x).mp (hw x hx)
      exact not_mem_delims this.1 this.2.1
    · rw [List.mem_singleton.mp hx]
      exact not_mem_delims hcw hco
  have hlastD : (c0 :: w' ++ [c]).getLastD '\x00' = c := by
    rw [List.getLastD_eq_getLast?, List.getLast?_append]
    simp
  have hdl : (c0 :: w' ++ [c]).dropLast = c0 :: w' := List.dropLast_concat
  have hend : (fun m : Molecule => (Except.ok m : Except Fault Molecule)) = Except.ok := rfl
  unfold lexStep
  rw [hfind]
  cases trail with
  | nil =>
    have hrel : find_first_of (c0 :: w' ++ [c]) (WHITESPACE ++ OPENERS) = none :=
      find_first_of_none _ _ hwc
    have hlen : (pad ++ (c0 :: w' ++ [c])).length - pad.length = (c0 :: w' ++ [c]).length := by
      simp
    simp only [hget, hc0.2.2.1, hc0.2.1, hc0.2.2.2, List.drop_left, hrel, hlen,
      List.take_length, hlastD, hc, hdl, lt_irrefl, false_and, and_false,
      Bool.false_eq_true, if_false, if_true]
    exact Except.bind_ok_self _
  | cons d t =>
    have hd : d ∈ WHITESPACE := htrail d (by simp)
    have hrel : find_first_of (c0 :: w' ++ c :: d :: t) (WHITESPACE ++ OPENERS) =
        some (c0 :: w' ++ [c]).length := by
      have := find_first_of_skip (c0 :: w' ++ [c]) d t _ hwc (List.mem_append_left _ hd)
      simpa [List.append_assoc] using this
    have htake : List.take ((c0 :: w' ++ [c]).length) (c0 :: w' ++ c :: d :: t) =
        c0 :: w' ++ [c] := by
      have : c0 :: w' ++ c :: d :: t = (c0 :: w' ++ [c]) ++ d :: t := by simp
      rw [this, List.take_left]
    have hget2 : (pad ++ (c0 :: w' ++ c :: d :: t)).getD
        (pad.length + (c0 :: w' ++ [c]).length) '\x00' = d := by
      have := getD_append_cons (pad ++ (c0 :: w' ++ [c])) d t '\x00'
      simpa [List.append_assoc] using this
    have hdw := ws_not_bracket hd
    simp only [hget, hc0.2.2.1, hc0.2.1, hc0.2.2.2, List.drop_left, hrel,
      Nat.add_sub_cancel_left, htake, hlastD, hc, hdl, hget2, hdw.2.2.2.1, hdw.2.2.2.2,
      or_self, and_false, Bool.false_eq_true, if_false, if_true, Bool.not_true, ite_self]
    exact Except.bind_ok_self _

/-! ### Flat forms -/

theorem Atom.make_bare (w : Str) (h : w.head? ≠ some '"') : ∃ a, Atom.make w = .ok a := by
  unfold Atom.make
  rw [if_neg h]
  exact ⟨_, rfl⟩

theorem Atom.make_plain (w : Str) (hw : ∀ x ∈ w, isPlain x = true) :
    ∃ a, Atom.make w = .ok a := by
  apply Atom.make_bare
  cases w with
  | nil => simp
  | cons c cs =>
    have := ((isPlain_iff c).mp (hw c (List.mem_cons_self _ _))).2.2.2
    simpa using this

theorem Molecule.add_atom_ok (m : Molecule) (w : Str) (a : Atom) (h : Atom.make w = .ok a) :
    m.add_atom w = .ok { m with atoms := m.atoms ++ [Particle.atom a] } := by
  unfold Molecule.add_atom
  rw [h]
  rfl

theorem lexLoop_flat (c : Char) (hc : isClose c = true) :
    ∀ (segs : List (Str × Str)) (pad : Str) (mol : Molecule) (f : Nat) (tail : Str),
      (∀ x ∈ pad, x ∈ WHITESPACE) →
      (∀ p ∈ segs, p.1 ≠ [] ∧ (∀ x ∈ p.1, isPlain x = true) ∧ ∀ x ∈ p.2, x ∈ WHITESPACE) →
      (∀ p ∈ segs.dropLast, p.2 ≠ []) →
      (pad ++ (flatBody segs ++ [c])).length < f →
      ∃ atoms : List Atom, List.Forall₂ (fun p a => Atom.make p.1 = .ok a) segs atoms ∧
        lexLoop f tail mol (pad ++ (flatBody segs ++ [c])) =
          .ok { mol with atoms := mol.atoms ++ atoms.map Particle.atom } := by
  intro segs
  induction segs with
  | nil =>
    intro pad mol f tail hpad _ _ hf
    obtain ⟨f0, rfl⟩ : ∃ k, f = k + 1 := ⟨f - 1, by omega⟩
    refine ⟨[], List.Forall₂.nil, ?_⟩
    rw [lexLoop_succ]
    simp only [flatBody, List.nil_append, List.map_nil, List.append_nil]
    exact lexStep_close _ _ _ _ _ _ hpad hc
  | cons seg segs ih =>
    intro pad mol f tail hpad hwords hsep hf
    obtain ⟨w, sep⟩ := seg
    obtain ⟨f0, rfl⟩ : ∃ k, f = k + 1 := ⟨f - 1, by omega⟩
    have hseg := hwords (w, sep) (List.mem_cons_self _ _)
    obtain ⟨a, ha⟩ := Atom.make_plain w hseg.2.1
    rw [lexLoop_succ]
    cases sep with
    | nil =>
      have hnil : segs = [] := by
        by_contra hne
        cases segs with
        | nil => exact hne rfl
        | cons s ss =>
          exact hsep (w, []) (by simp [List.dropLast]) rfl
      subst hnil
      refine ⟨[a], List.Forall₂.cons ha List.Forall₂.nil, ?_⟩
      simp only [flatBody, List.nil_append, List.append_nil, List.map_cons, List.map_nil]
      rw [lexStep_last_word _ _ _ _ _ _ [] hpad hseg.2.1 hseg.1 hc (by simp)]
      exact Molecule.add_atom_ok _ _ _ ha
    | cons d sep' =>
      have hd : d ∈ WHITESPACE := hseg.2.2 d (List.mem_cons_self _ _)
      have hsep' : ∀ x ∈ sep', x ∈ WHITESPACE :=
        fun x hx => hseg.2.2 x (List.mem_cons_of_mem _ hx)
      have hview : pad ++ (flatBody ((w, d :: sep') :: segs) ++ [c]) =
          pad ++ (w ++ d :: (sep' ++ (flatBody segs ++ [c]))) := by
        simp [flatBody]
      rw [hview] at hf ⊢
      rw [lexStep_word _ _ _ _ _ _ _ hpad hseg.2.1 hseg.1 hd, Molecule.add_atom_ok _ _ _ ha]
      obtain ⟨atoms, hatoms, hrun⟩ := ih sep'
        { mol with atoms := mol.atoms ++ [Particle.atom a] } f0 tail hsep'
        (fun p hp => hwords p (List.mem_cons_of_mem _ hp))
        (fun p hp => hsep p (by
          cases segs with
          | nil => simp at hp
          | cons s ss => simp only [List.dropLast_cons₂]; exact List.mem_cons_of_mem _ hp))
        (by simp only [List.length_append, List.length_cons] at hf ⊢; omega)
      refine ⟨a :: atoms, List.Forall₂.cons ha hatoms, ?_⟩
      show lexLoop f0 tail _ _ = _
      rw [hrun]
      simp

/-- C3. Flat form parsing: an opening bracket `b`, optional whitespace, the
bare words of `segs` (each non-empty, without whitespace, bracket or quote
characters) each followed by its whitespace separator (non-empty except
possibly after the last word), then a closing bracket.  `lexparse` returns a
molecule whose children are the atom injected for `b` (`block` for `{`,
`array` for `[`, none for `(`) followed by exactly `Atom(w)` for each word `w`
in order; the last word does not keep the closing bracket. -/
theorem flat_form_parse (b c : Char) (pad : Str) (segs : List (Str × Str))
    (hb : isOpen b = true) (hc : isClose c = true)
    (hpad : ∀ x ∈ pad, x ∈ WHITESPACE)
    (hwords : ∀ p ∈ segs, p.1 ≠ [] ∧ (∀ x ∈ p.1, isPlain x = true) ∧ ∀ x ∈ p.2, x ∈ WHITESPACE)
    (hsep : ∀ p ∈ segs.dropLast, p.2 ≠ []) :
    ∃ atoms : List Atom, List.Forall₂ (fun p a => Atom.make p.1 = .ok a) segs atoms ∧
      lexparse (b :: (pad ++ (flatBody segs ++ [c]))) =
        .ok { atoms := injected b ++ atoms.map Particle.atom, stored_in := none, type := [],
              eval := true } := by
  have hfind : find_first_of (b :: (pad ++ (flatBody segs ++ [c]))) OPENERS = some 0 := by
    unfold find_first_of
    rw [List.findIdx?_cons]
    have : OPENERS.contains b = true := by
      revert hb; unfold isOpen
      intro hb
      simp only [Bool.or_eq_true, beq_iff_eq] at hb
      rcases hb with (rfl | rfl) | rfl <;> decide
    rw [if_pos this]
  unfold lexparse lexparseIn lexparseWith
  rw [hfind]
  simp only [List.getD_cons_zero, Nat.zero_add, List.drop_succ_cons, List.drop_zero]
  by_cases h1 : b = '{'
  · subst h1
    obtain ⟨atoms, hatoms, hrun⟩ := lexLoop_flat c hc segs pad
      { atoms := injected '{', stored_in := none, type := [], eval := true }
      ((('{' :: (pad ++ (flatBody segs ++ [c]))).length) + 1) [] hpad hwords hsep
      (by simp only [List.length_cons]; omega)
    exact ⟨atoms, hatoms, hrun⟩
  · by_cases h2 : b = '['
    · subst h2
      obtain ⟨atoms, hatoms, hrun⟩ := lexLoop_flat c hc segs pad
        { atoms := injected '[', stored_in := none, type := [], eval := true }
        ((('[' :: (pad ++ (flatBody segs ++ [c]))).length) + 1) [] hpad hwords hsep
        (by simp only [List.length_cons]; omega)
      exact ⟨atoms, hatoms, hrun⟩
    · obtain ⟨atoms, hatoms, hrun⟩ := lexLoop_flat c hc segs pad
        { atoms := injected b, stored_in := none, type := [], eval := true }
        (((b :: (pad ++ (flatBody segs ++ [c]))).length) + 1) [] hpad hwords hsep
        (by simp only [List.length_cons]; omega)
      refine ⟨atoms, hatoms, ?_⟩
      have hbb : (b == '{') = false := by simpa using h1
      have hba : (b == '[') = false := by simpa using h2
      simp only [hbb, hba, Bool.false_eq_true, if_false]
      have hinj : injected b = [] := by simp [injected, h1, h2]
      rw [hinj] at hrun ⊢
      exact hrun

/-! ### Typed sub-expressions and nested forms -/

theorem BalancedSpan.length_pos {s : Str} (h : BalancedSpan s) : 0 < s.length :=
  List.length_pos.mpr h.1

/-- One iteration of the loop at an operand `T:` glued to a balanced span. -/
theorem lexStep_typed (loop : Str → Molecule → Str → Except Fault Molecule)
    (tail : Str) (mol : Molecule) (pad T s rest : Str)
    (hpad : ∀ x ∈ pad, x ∈ WHITESPACE) (hT : ∀ x ∈ T, isPlain x = true)
    (hs0 : s.head? = some '(' ∨ s.head? = some '[') (hs : BalancedSpan s) :
    lexStep loop tail mol (pad ++ (T ++ ':' :: (s ++ rest))) =
      (lexparseWith loop (rest ++ tail) s).bind fun sub =>
        loop tail (mol.add_molecule { sub with type := T }) rest := by
  obtain ⟨b, s', rfl⟩ : ∃ b s', s = b :: s' := by
    cases s with
    | nil => exact absurd rfl hs.1
    | cons b s' => exact ⟨b, s', rfl⟩
  have hb : b = '(' ∨ b = '[' := by simpa using hs0
  have hbd : b ∈ WHITESPACE ++ OPENERS := by
    rcases hb with rfl | rfl <;> decide
  have hcolon : isPlain ':' = true := by decide
  have hw : ∀ x ∈ T ++ [':'], isPlain x = true := by
    intro x hx
    rcases List.mem_append.mp hx with hx | hx
    · exact hT x hx
    · rw [List.mem_singleton.mp hx]; exact hcolon
  obtain ⟨c0, w', hw0⟩ : ∃ c0 w', T ++ [':'] = c0 :: w' := by
    cases T with
    | nil => exact ⟨':', [], rfl⟩
    | cons c0 T' => exact ⟨c0, T' ++ [':'], rfl⟩
  have hc0 := (isPlain_iff c0).mp (hw c0 (hw0 ▸ List.mem_cons_self _ _))
  have hview : pad ++ (T ++ ':' :: (b :: s' ++ rest)) =
      pad ++ (c0 :: w' ++ b :: (s' ++ rest)) := by
    rw [← hw0]; simp
  have hfind : find_first_not_of (pad ++ (c0 :: w' ++ b :: (s' ++ rest))) WHITESPACE =
      some pad.length :=
    find_first_not_of_skip pad c0 _ _ hpad hc0.1
  have hget : (pad ++ (c0 :: w' ++ b :: (s' ++ rest))).getD pad.length '\x00' = c0 :=
    getD_append_cons pad c0 _ _
  have hrel : find_first_of (c0 :: w' ++ b :: (s' ++ rest)) (WHITESPACE ++ OPENERS) =
      some (c0 :: w').length :=
    find_first_of_skip _ b _ _
      (fun x hx => by
        have := (isPlain_iff x).mp (hw x (hw0 ▸ hx))
        exact not_mem_delims this.1 this.2.1)
      hbd
  have hlastD : (c0 :: w').getLastD '\x00' = ':' := by
    rw [← hw0, List.getLastD_eq_getLast?, List.getLast?_append]
    simp
  have hlast? : (c0 :: w').getLast? = some ':' := by
    rw [← hw0, List.getLast?_append]
    simp
  have hdl : (c0 :: w').dropLast = T := by
    rw [← hw0]; exact List.dropLast_concat
  have hget2 : (pad ++ (c0 :: w' ++ b :: (s' ++ rest))).getD
      (pad.length + (c0 :: w').length) '\x00' = b := by
    have := getD_append_cons (pad ++ c0 :: w') b (s' ++ rest) '\x00'
    simpa [List.append_assoc] using this
  have hdrop : (pad ++ (c0 :: w' ++ b :: (s' ++ rest))).drop (pad.length + (c0 :: w').length)
      = (b :: s') ++ rest := by
    have : pad ++ (c0 :: w' ++ b :: (s' ++ rest)) = (pad ++ c0 :: w') ++ (b :: s' ++ rest) := by
      simp
    rw [this]
    have hl : pad.length + (c0 :: w').length = (pad ++ c0 :: w').length := by
      simp only [List.length_append]
    rw [hl, List.drop_left]
  have hlen : pad.length + (c0 :: w').length <
      (pad ++ (c0 :: w' ++ b :: (s' ++ rest))).length := by
    simp
  have hscan := hs.scan rest
  have hsl : (b :: s').length - 1 + 1 = (b :: s').length := by simp
  have hne : (c0 :: w').isEmpty = false := rfl
  have hcl : isClose ':' = false := by decide
  unfold lexStep
  rw [hview, hfind]
  simp only [hget, hc0.2.2.1, hc0.2.1, hc0.2.2.2, List.drop_left, hrel, Nat.add_sub_cancel_left,
    List.take_left, hlastD, hcl, hlast?, hne, hget2, hb, hdrop, hlen, hscan, hsl, hdl,
    Bool.false_eq_true, if_false, Bool.not_false, if_true, and_self]

theorem isOpen_facts {b : Char} (hb : isOpen b = true) :
    b ∉ WHITESPACE ∧ isClose b = false := by
  revert hb; unfold isOpen
  intro hb
  simp only [Bool.or_eq_true, beq_iff_eq] at hb
  rcases hb with (rfl | rfl) | rfl <;> exact ⟨by decide, by decide⟩

/-- A nested form in operand position: the loop adds `lexparse s` as a child
and goes on right after the span. -/
theorem lexLoop_subspan (f : Nat) (tail : Str) (mol : Molecule) (pad s rest : Str)
    (hf : (pad ++ (s ++ rest)).length < f)
    (hpad : ∀ x ∈ pad, x ∈ WHITESPACE)
    (hs0 : ∃ b ∈ s.head?, isOpen b = true) (hs : BalancedSpan s) :
    lexLoop f tail mol (pad ++ (s ++ rest)) =
      (lexparse s).bind fun sub => lexLoop f tail (mol.add_molecule sub) rest := by
  obtain ⟨b, s', rfl⟩ : ∃ b s', s = b :: s' := by
    cases s with
    | nil => exact absurd rfl hs.1
    | cons b s' => exact ⟨b, s', rfl⟩
  have hb : isOpen b = true := by
    obtain ⟨b', hb', hop⟩ := hs0
    simp only [List.head?_cons, Option.mem_def, Option.some.injEq] at hb'
    subst hb'
    exact hop
  have hbf := isOpen_facts hb
  have hlen : (pad ++ (b :: s' ++ rest)).length = pad.length + ((b :: s').length + rest.length) := by
    simp only [List.length_append]
  have hscan := hs.scan rest
  have hsl : (b :: s').length - 1 + 1 = (b :: s').length := by simp
  have key : ∀ g : Nat, (b :: s').length + rest.length ≤ g →
      ((lexparseWith (lexLoop g) (rest ++ tail) (b :: s')).bind fun sub =>
        lexLoop g tail (mol.add_molecule sub) rest) =
      (lexparse (b :: s')).bind fun sub => lexLoop f tail (mol.add_molecule sub) rest := by
    intro g hg
    have hpos := hs.length_pos
    rw [lexparseWith_eq_lexparse g _ _ (by omega)]
    congr 1
    funext sub
    exact lexLoop_irrel _ _ _ _ _ _ (by omega) (by omega)
  obtain ⟨f0, rfl⟩ : ∃ k, f = k + 1 := ⟨f - 1, by omega⟩
  have hfind : find_first_not_of (pad ++ (b :: s' ++ rest)) WHITESPACE = some pad.length :=
    find_first_not_of_skip pad b (s' ++ rest) _ hpad hbf.1
  have hget : (pad ++ (b :: s' ++ rest)).getD pad.length '\x00' = b :=
    getD_append_cons pad b _ _
  rw [lexLoop_succ]
  conv => lhs; unfold lexStep
  rw [hfind]
  simp only [hget, hbf.2, hb, List.drop_left, hscan, hsl, List.take_left,
    Bool.false_eq_true, if_false, if_true]
  by_cases hp : isOpen (peek (b :: s' ++ rest ++ tail) pad.length) = true
  · rw [if_pos hp]
    exact key f0 (by omega)
  · rw [if_neg hp]
    have hpad0 : 0 < pad.length := by
      rcases Nat.eq_zero_or_pos pad.length with h0 | h0
      · exfalso; apply hp; rw [h0]; exact hb
      · exact h0
    obtain ⟨f1, rfl⟩ : ∃ k, f0 = k + 1 := ⟨f0 - 1, by omega⟩
    rw [lexLoop_succ]
    have hscan' : scanLayers (b :: (s' ++ rest)) 0 0 = some ((b :: s').length - 1) := hscan
    rw [show b :: s' ++ rest = b :: (s' ++ rest) from rfl,
      lexStep_open_head _ _ _ _ _ _ hb hscan']
    rw [show b :: (s' ++ rest) = b :: s' ++ rest from rfl, hsl, List.take_left, List.drop_left]
    exact key f1 (by omega)

/-- C6. Typed sub-expression: when the loop of `lexparse` stands (after any
whitespace) at an operand `T:` immediately followed by a balanced span `s`
that starts with `(` or `[`, it adds one child molecule, equal to
`lexparse s` except that its type is `T`, adds no atom for `T:`, and goes on
with what follows the span. -/
theorem typed_subexpression (f : Nat) (tail : Str) (mol : Molecule) (pad T s rest : Str)
    (hf : (pad ++ (T ++ ':' :: (s ++ rest))).length < f)
    (hpad : ∀ x ∈ pad, x ∈ WHITESPACE) (hT : ∀ x ∈ T, isPlain x = true)
    (hs0 : s.head? = some '(' ∨ s.head? = some '[') (hs : BalancedSpan s) :
    lexLoop f tail mol (pad ++ (T ++ ':' :: (s ++ rest))) =
      (lexparse s).bind fun sub =>
        lexLoop f tail (mol.add_molecule { sub with type := T }) rest := by
  obtain ⟨f0, rfl⟩ : ∃ k, f = k + 1 := ⟨f - 1, by omega⟩
  simp only [List.length_append, List.length_cons] at hf
  rw [lexLoop_succ, lexStep_typed _ _ _ _ _ _ _ hpad hT hs0 hs,
    lexparseWith_eq_lexparse f0 _ _ (by omega)]
  congr 1
  funext sub
  exact lexLoop_irrel f0 (f0 + 1) tail tail _ rest (by omega) (by omega)

/-- Witness of `flat_form_parse`: the form `{ def Int:x` newline tab `5}`. -/
theorem flat_form_parse_witness :
    ∃ atoms : List Atom,
      List.Forall₂ (fun p a => Atom.make p.1 = .ok a)
        [("def".toList, " ".toList), ("Int:x".toList, "\n\t".toList), ("5".toList, [])] atoms ∧
      lexparse ('{' :: (" ".toList ++
          (flatBody [("def".toList, " ".toList), ("Int:x".toList, "\n\t".toList),
            ("5".toList, [])] ++ ['}']))) =
        .ok { atoms := injected '{' ++ atoms.map Particle.atom, stored_in := none, type := [],
              eval := true } :=
  flat_form_parse '{' '}' " ".toList
    [("def".toList, " ".toList), ("Int:x".toList, "\n\t".toList), ("5".toList, [])]
    (by decide) (by decide) (by decide) (by decide) (by decide)

/-- Witness of `typed_subexpression`: the operand `Int:(add Int:a)` of a form
that goes on with ` x)`. -/
theorem typed_subexpression_witness :
    lexLoop 24 [] Molecule.empty (" ".toList ++ ("Int".toList ++ ':' :: ("(add Int:a)".toList ++
        " x)".toList))) =
      (lexparse "(add Int:a)".toList).bind fun sub =>
        lexLoop 24 [] (Molecule.empty.add_molecule { sub with type := "Int".toList })
          " x)".toList :=
  typed_subexpression 24 [] Molecule.empty " ".toList "Int".toList "(add Int:a)".toList
    " x)".toList (by decide) (by decide) (by decide) (Or.inl rfl) (by decide)

/-- C4, at the input `(f (g) "abc")`: the nested form `(g)` becomes a child
equal to its own parse, but the string literal after it is split into the two
atoms ` "` and `bc"`, neither of type `Str`; after the word `w` in
`(f w "abc")` the same operand is one atom `abc` of type `Str`. -/
theorem operand_after_subspan_differs :
    lexparse "(f (g) \"abc\")".toList =
      .ok { atoms :=
              [.atom ⟨"f".toList, none, [], [], 0⟩,
               .molecule { atoms := [.atom ⟨"g".toList, none, [], [], 0⟩], stored_in := none,
                           type := [], eval := true },
               .atom ⟨" \"".toList, none, [], [], 0⟩,
               .atom ⟨"bc\"".toList, none, [], [], 0⟩],
            stored_in := none, type := [], eval := true } ∧
    lexparse "(f w \"abc\")".toList =
      .ok { atoms :=
              [.atom ⟨"f".toList, none, [], [], 0⟩,
               .atom ⟨"w".toList, none, [], [], 0⟩,
               .atom ⟨"abc".toList, none, "Str".toList, [], 4⟩],
            stored_in := none, type := [], eval := true } :=
  ⟨rfl, rfl⟩

/-- C5, at the input `(meow  "hi")` (two blanks before the literal): the
string literal does not become an atom of type `Str`; the children are the
untyped atoms `meow`, ` "` and `i"`. -/
theorem string_literal_after_blanks_split :
    lexparse "(meow  \"hi\")".toList =
      .ok { atoms :=
              [.atom ⟨"meow".toList, none, [], [], 0⟩,
               .atom ⟨" \"".toList, none, [], [], 0⟩,
               .atom ⟨"i\"".toList, none, [], [], 0⟩],
            stored_in := none, type := [], eval := true } :=
  rfl

/-- C7, at the input `(meow "abc"` (closing bracket missing after a string
literal): `lexparse` does not return a molecule, `substr` throws
`std::out_of_range`; and so it does at `("` (string literal not closed),
there from the constructor of the atom. -/
theorem unterminated_after_string_literal_throws :
    lexparse "(meow \"abc\"".toList = .error .out_of_range ∧
    lexparse "(\"".toList = .error .out_of_range :=
  ⟨rfl, rfl⟩

/-- An input without an opening bracket parses to a molecule without
children. -/
theorem lexparse_no_bracket (view : Str) (h : ∀ c ∈ view, isOpen c = false) :
    lexparse view = .ok Molecule.empty := by
  have : find_first_of view OPENERS = none := by
    apply find_first_of_none
    intro x hx hmem
    have hx' := h x hx
    have : isOpen x = true := by
      unfold isOpen
      simp only [OPENERS, List.mem_cons, List.mem_singleton] at hmem
      rcases hmem with rfl | rfl | rfl | h
      · decide
      · decide
      · decide
      · simp at h
    rw [hx'] at this
    cases this
  unfold lexparse lexparseIn lexparseWith
  rw [this]

/-! ### Atoms -/

/-- C9, at the token `"` (a lone double quote, which `lexparse` passes to
`add_atom` for the input `("`): the constructor yields no atom,
`identifier.substr(1)` throws `std::out_of_range` on the emptied string. -/
theorem atom_of_lone_quote_throws : Atom.make ['"'] = .error .out_of_range := rfl

/-- The constructor on a quoted token of at least two characters: type `Str`,
identifier the token without its first and last character. -/
theorem Atom.make_quoted (rest : Str) (h : rest ≠ []) :
    Atom.make ('"' :: rest) =
      .ok { identifier := rest.dropLast, stored_in := none, type := "Str".toList,
            member_access := [], len := rest.length } := by
  obtain ⟨c, cs, rfl⟩ : ∃ c cs, rest = c :: cs := by
    cases rest with
    | nil => exact absurd rfl h
    | cons c cs => exact ⟨c, cs, rfl⟩
  unfold Atom.make substr
  simp [Except.map, List.dropLast]

theorem Atom.split_type_cases (i : Str) :
    (Atom.split_type i).1 ≠ [] ∨ Atom.split_type i = ([], i) := by
  unfold Atom.split_type
  cases i.indexOf? ':' with
  | none => exact Or.inr rfl
  | some colon =>
    dsimp only
    split
    · rename_i h
      left
      dsimp only
      intro h0
      have hlen := congrArg List.length h0
      rw [List.length_take] at hlen
      have hh := h.2
      cases i with
      | nil => simp at hh
      | cons c cs => simp only [List.length_cons, List.length_nil] at hlen; omega
    · exact Or.inr rfl

theorem Atom.split_member_head (s : Str) : (Atom.split_member s).2.head? = s.head? := by
  unfold Atom.split_member
  cases s.indexOf? '>' with
  | none => rfl
  | some arrow =>
    dsimp only
    split
    · rename_i h
      dsimp only
      obtain ⟨k, hk⟩ : ∃ k, arrow = k + 1 := ⟨arrow - 1, by omega⟩
      subst hk
      cases s with
      | nil => rfl
      | cons c cs => rfl
    · rfl

/-- An atom built by the constructor has a type, or an identifier that does
not start with a double quote. -/
theorem Atom.make_untyped_not_quoted (tok : Str) (a : Atom) (h : Atom.make tok = .ok a) :
    a.type ≠ [] ∨ a.identifier.head? ≠ some '"' := by
  unfold Atom.make at h
  split at h
  · left
    unfold substr at h
    dsimp only at h
    split at h
    · simp only [Except.map] at h
      cases h
      exact List.cons_ne_nil _ _
    · cases h
  · rename_i hq
    simp only [Except.ok.injEq] at h
    subst h
    dsimp only
    rcases Atom.split_type_cases tok with h1 | h1
    · exact Or.inl h1
    · right
      rw [Atom.split_member_head, h1]
      exact hq

theorem numeric_shape_iff (s : Str) :
    (s ≠ [] ∧ (isdigit (s.headD '\x00') = true ∨
      (s.headD '\x00' = '-' ∧ 1 < s.length ∧ isdigit (s.getD 1 '\x00') = true))) ↔
    numeric_shape s = true := by
  cases s with
  | nil => simp [numeric_shape]
  | cons c rest =>
    cases rest with
    | nil => simp [numeric_shape, isdigit]
    | cons d rest' => simp [numeric_shape, isdigit]

theorem indexOf?_eq_none_iff (s : Str) (c : Char) : s.indexOf? c = none ↔ c ∉ s := by
  unfold List.indexOf?
  rw [List.findIdx?_eq_none_iff]
  constructor
  · intro h hc
    have := h c hc
    simp at this
  · intro h x hx
    simp only [beq_eq_false_iff_ne, ne_eq]
    rintro rfl
    exact h hx

/-- The logical type of an atom that has a type or whose identifier does not
start with a double quote follows the resolution order. -/
theorem Atom.get_type_logical (g : Globals) (a : Atom)
    (h : a.type ≠ [] ∨ a.identifier.head? ≠ some '"') :
    a.get_type g false = resolved_type g a := by
  unfold Atom.get_type resolved_type
  by_cases hty : a.type ≠ []
  · rw [if_pos hty, if_pos hty]
    simp only [Bool.false_eq_true, if_false]
    split
    · rename_i hs; exact hs.symm
    · split
      · rfl
      · split <;> rfl
  · rw [if_neg hty, if_neg hty]
    have hty' : a.type = [] := not_not.mp hty
    have hq : a.identifier.head? ≠ some '"' := by
      rcases h with h | h
      · exact absurd h hty
      · exact h
    simp only [Bool.false_eq_true, if_false]
    by_cases hnum : numeric_shape a.identifier = true
    · rw [if_pos ((numeric_shape_iff _).mpr hnum), if_pos hnum]
      by_cases hdot : '.' ∈ a.identifier
      · rw [if_neg (fun h0 => (indexOf?_eq_none_iff _ _).mp h0 hdot), if_pos hdot]
      · rw [if_pos ((indexOf?_eq_none_iff _ _).mpr hdot), if_neg hdot]
    · rw [if_neg (fun h0 => hnum ((numeric_shape_iff _).mp h0)), if_neg hnum]
      split
      · rfl
      · split
        · rfl
        · have hnq : ¬(a.identifier.headD '\x00' = '"' ∨ a.type = "Str".toList) := by
            rintro (h1 | h1)
            · apply hq
              cases hid : a.identifier with
              | nil => rw [hid] at h1; simp at h1
              | cons c cs => rw [hid] at h1; simpa using h1
            · rw [hty'] at h1; cases h1
          rw [if_neg hnq]
          split
          · split
            · rfl
            · split <;> rfl
          · rfl

/-- C8. Atom type resolution order: for an atom built by the constructor from
any token, whatever is later stored in its `stored_in`, `len` and
`member_access`, and whether its type is as constructed or was later set to a
non-empty type, `get_type(native = false)` returns the annotation if there is
one; otherwise `Int` or `Float` for a numeric shape without or with a `.`,
`Bool` for `true` and `false`, `Nil` for `nil`; otherwise the declared type of
the variable of that name; otherwise `Var`. -/
theorem atom_type_resolution_order (g : Globals) (tok : Str) (made a : Atom)
    (hmade : Atom.make tok = .ok made)
    (hid : a.identifier = made.identifier)
    (hty : a.type = made.type ∨ a.type ≠ []) :
    a.get_type g false = resolved_type g a := by
  have hinv := Atom.make_untyped_not_quoted tok made hmade
  have : a.type ≠ [] ∨ a.identifier.head? ≠ some '"' := by
    rcases hty with h | h
    · rw [h, hid]; exact hinv
    · exact Or.inl h
  exact Atom.get_type_logical g a this

/-- Witness of `atom_type_resolution_order`: the atom of the token `5`, with
a variable named `5` of type `Str` registered: the literal type `Int` wins. -/
theorem atom_type_resolution_order_witness :
    Atom.get_type
        { object_registry := [("5".toList, { type := "Str".toList, value := none })],
          struct_registry := [], overload_registry := [], INTRINSICS := [] }
        { identifier := "5".toList, stored_in := some 3, type := [], member_access := [],
          len := 0 } false = "Int".toList :=
  (atom_type_resolution_order _ "5".toList
    { identifier := "5".toList, stored_in := none, type := [], member_access := [], len := 0 }
    _ rfl rfl (Or.inl rfl)).trans rfl

/-! ### Variable hoisting -/

theorem Table.set_of_not_count {β : Type} (m : Table β) (k : Str) (v : β)
    (h : m.count k = false) : m.set k v = m ++ [(k, v)] := by
  unfold Table.set
  rw [h]
  rfl

mutual

theorem collect_variables_eq_foldl : ∀ (p : Particle) (vars : Table Str),
    collect_variables p vars = (declarations p).foldl insert_new vars
  | .atom _, vars => by simp [collect_variables, declarations]
  | .molecule ⟨[], _, _, _⟩, vars => by simp [collect_variables, declarations]
  | .molecule ⟨.molecule _ :: rest, _, _, _⟩, vars => by
    simp only [collect_variables, declarations, List.nil_append]
    exact collect_variables_from_eq_foldl rest vars
  | .molecule ⟨.atom _ :: [], _, _, _⟩, vars => by
    simp [collect_variables, declarations, collect_variables_from, declarations_of]
  | .molecule ⟨.atom _ :: .molecule m :: rest, _, _, _⟩, vars => by
    simp only [collect_variables, declarations, List.nil_append]
    exact collect_variables_from_eq_foldl (.molecule m :: rest) vars
  | .molecule ⟨.atom subj :: .atom var_atom :: rest, _, _, _⟩, vars => by
    simp only [collect_variables, declarations]
    rw [collect_variables_from_eq_foldl (.atom var_atom :: rest), List.foldl_append]
    congr 1
    cases hc : Table.count vars var_atom.identifier <;>
      by_cases hdef : subj.identifier = ['d', 'e', 'f'] <;>
      by_cases h1 : var_atom.type = [] <;>
      by_cases h2 : var_atom.type = ['S', 't', 'r'] <;>
      simp [hdef, h1, h2, hc, insert_new, Table.set_of_not_count]

theorem collect_variables_from_eq_foldl : ∀ (ps : List Particle) (vars : Table Str),
    collect_variables_from ps vars = (declarations_of ps).foldl insert_new vars
  | [], vars => by simp [collect_variables_from, declarations_of]
  | p :: ps, vars => by
    simp only [collect_variables_from, declarations_of, List.foldl_append]
    rw [collect_variables_eq_foldl p vars, collect_variables_from_eq_foldl ps]

end

theorem lookup_foldl_insert_new (n : Str) : ∀ (ds vars : Table Str),
    (ds.foldl insert_new vars).lookup n = (vars.lookup n).or (ds.lookup n)
  | [], vars => by simp
  | d :: ds, vars => by
    obtain ⟨k, t⟩ := d
    rw [List.foldl_cons, lookup_foldl_insert_new n ds]
    unfold insert_new
    cases hc : Table.count vars k with
    | true =>
      simp only [if_true]
      rw [List.lookup_cons]
      cases hnk : n == k with
      | true =>
        have : n = k := by simpa using hnk
        subst this
        unfold Table.count at hc
        cases hl : List.lookup n vars with
        | none => rw [hl] at hc; cases hc
        | some v => rfl
      | false => rfl
    | false =>
      simp only [Bool.false_eq_true, if_false]
      rw [List.lookup_append, Option.or_assoc]
      congr 1
      rw [List.lookup_cons, List.lookup_cons]
      cases n == k <;> simp

theorem mem_foldl_insert_new (e : Str × Str) : ∀ (ds vars : Table Str),
    e ∈ ds.foldl insert_new vars → e ∈ vars ∨ e ∈ ds
  | [], vars, h => Or.inl h
  | d :: ds, vars, h => by
    rw [List.foldl_cons] at h
    rcases mem_foldl_insert_new e ds _ h with h1 | h1
    · unfold insert_new at h1
      split at h1
      · exact Or.inl h1
      · rcases List.mem_append.mp h1 with h2 | h2
        · exact Or.inl h2
        · right
          rw [List.mem_singleton.mp h2]
          exact List.mem_cons_self _ _
    · exact Or.inr (List.mem_cons_of_mem _ h1)

mutual

theorem declarations_typed : ∀ (p : Particle) (e : Str × Str),
    e ∈ declarations p → e.2 ≠ [] ∧ e.2 ≠ "Str".toList
  | .atom _, e, h => by simp [declarations] at h
  | .molecule ⟨[], _, _, _⟩, e, h => by simp [declarations] at h
  | .molecule ⟨.molecule _ :: rest, _, _, _⟩, e, h => by
    simp only [declarations, List.nil_append] at h
    exact declarations_of_typed rest e h
  | .molecule ⟨.atom _ :: [], _, _, _⟩, e, h => by
    simp [declarations, declarations_of] at h
  | .molecule ⟨.atom _ :: .molecule m :: rest, _, _, _⟩, e, h => by
    simp only [declarations, List.nil_append] at h
    exact declarations_of_typed (.molecule m :: rest) e h
  | .molecule ⟨.atom subj :: .atom var_atom :: rest, _, _, _⟩, e, h => by
    simp only [declarations] at h
    rcases List.mem_append.mp h with h1 | h1
    · split at h1
      · rename_i hc
        rw [List.mem_singleton.mp h1]
        exact hc.2
      · simp at h1
    · exact declarations_of_typed (.atom var_atom :: rest) e h1

theorem declarations_of_typed : ∀ (ps : List Particle) (e : Str × Str),
    e ∈ declarations_of ps → e.2 ≠ [] ∧ e.2 ≠ "Str".toList
  | [], e, h => by simp [declarations_of] at h
  | p :: ps, e, h => by
    simp only [declarations_of] at h
    rcases List.mem_append.mp h with h1 | h1
    · exact declarations_typed p e h1
    · exact declarations_of_typed ps e h1

end

/-- C10. The hoisting pass `collect_variables`, run on any tree with an empty
table, gives a table that has an entry for a name exactly when some `def`
form of the tree (the tree itself or a form in an operand position) declares
that name as an atom with a type annotation that is neither empty nor `Str`;
the entry is the annotation of the first such `def` in pre-order; and no
entry has the type `Str` or an empty type. -/
theorem hoisting_collects_first_declarations (p : Particle) :
    (∀ n, (collect_variables p []).count n = true ↔ ∃ t, (n, t) ∈ declarations p) ∧
    (∀ n, (collect_variables p []).lookup n = (declarations p).lookup n) ∧
    (∀ e ∈ collect_variables p [], e.2 ≠ [] ∧ e.2 ≠ "Str".toList) := by
  have hlook : ∀ n, (collect_variables p []).lookup n = (declarations p).lookup n := by
    intro n
    rw [collect_variables_eq_foldl, lookup_foldl_insert_new]
    simp
  refine ⟨?_, hlook, ?_⟩
  · intro n
    unfold Table.count
    rw [hlook n, List.lookup_isSome_iff]
    constructor
    · rintro ⟨⟨k, t⟩, hmem, hk⟩
      have : n = k := by simpa using hk
      subst this
      exact ⟨t, hmem⟩
    · rintro ⟨t, hmem⟩
      exact ⟨(n, t), hmem, by simp⟩
  · intro e he
    rw [collect_variables_eq_foldl] at he
    rcases mem_foldl_insert_new e _ _ he with h | h
    · simp at h
    · exact declarations_typed p e h

/-! ### Type inference changes the variable table only -/

theorem SameDeclarations.refl (g : Globals) : SameDeclarations g g := ⟨rfl, rfl, rfl⟩

theorem SameDeclarations.compose {g g' g'' : Globals} (h : SameDeclarations g g')
    (h' : SameDeclarations g' g'') : SameDeclarations g g'' :=
  ⟨h'.1.trans h.1, h'.2.1.trans h.2.1, h'.2.2.trans h.2.2⟩

mutual

theorem get_particle_type_frame : ∀ (p : Particle) (g : Globals) (r : Str × Globals),
    get_particle_type p g = .ok r → SameDeclarations g r.2
  | .atom a, g, r, h => by
    simp only [get_particle_type, Except.ok.injEq] at h
    subst h
    exact SameDeclarations.refl g
  | .molecule ⟨[], _, type, _⟩, g, r, h => by
    simp only [get_particle_type] at h
    split at h
    · cases h; exact SameDeclarations.refl g
    · cases h
  | .molecule ⟨.molecule _ :: _, _, type, _⟩, g, r, h => by
    simp only [get_particle_type] at h
    split at h
    · cases h; exact SameDeclarations.refl g
    · cases h
  | .molecule ⟨.atom subject :: args, _, type, _⟩, g, r, h => by
    simp only [get_particle_type] at h
    split at h
    · cases h; exact SameDeclarations.refl g
    · split at h
      · rename_i fn _
        exact type_inference_frame fn.type_inference args g r h
      · cases h; exact SameDeclarations.refl g

theorem type_inference_frame : ∀ (ti : TypeInference) (args : List Particle) (g : Globals)
    (r : Str × Globals), type_inference ti args g = .ok r → SameDeclarations g r.2
  | .arithmetic_type, [], g, r, h => by
    simp only [type_inference] at h; cases h; exact SameDeclarations.refl g
  | .arithmetic_type, [_], g, r, h => by
    simp only [type_inference] at h; cases h; exact SameDeclarations.refl g
  | .arithmetic_type, a0 :: a1 :: _, g, r, h => by
    simp only [type_inference] at h
    cases h0 : get_particle_type a0 g with
    | error e => rw [h0] at h; cases h
    | ok r0 =>
      rw [h0] at h
      simp only [Except.bind] at h
      cases h1 : get_particle_type a1 r0.2 with
      | error e => rw [h1] at h; cases h
      | ok r1 =>
        rw [h1] at h
        have f0 := get_particle_type_frame a0 g r0 h0
        have f1 := get_particle_type_frame a1 r0.2 r1 h1
        have : r.2 = r1.2 := by
          dsimp only at h
          split at h
          · cases h; rfl
          · split at h
            · cases h; rfl
            · split at h
              · cases h; rfl
              · cases h; rfl
        rw [this]
        exact f0.compose f1
  | .comparison_type, _, g, r, h => by
    simp only [type_inference] at h; cases h; exact SameDeclarations.refl g
  | .def_type, [], g, r, h => by
    simp only [type_inference] at h; cases h; exact SameDeclarations.refl g
  | .def_type, .molecule _ :: _, g, r, h => by
    simp only [type_inference] at h; cases h; exact SameDeclarations.refl g
  | .def_type, .atom var_atom :: _, g, r, h => by
    simp only [type_inference] at h
    split at h
    · cases h; exact SameDeclarations.refl g
    · split at h
      · cases h; exact ⟨rfl, rfl, rfl⟩
      · cases h; exact SameDeclarations.refl g
  | .reassign_type, args, g, r, h => by
    have : r.2 = g := by
      unfold type_inference at h
      split at h
      · split at h
        · cases h; rfl
        · cases h; rfl
      · cases h; rfl
    rw [this]
    exact SameDeclarations.refl g
  | .infer_first_type, [], g, r, h => by
    simp only [type_inference] at h; cases h; exact SameDeclarations.refl g
  | .infer_first_type, a0 :: _, g, r, h => by
    simp only [type_inference] at h
    exact get_particle_type_frame a0 g r h
  | .str_type, _, g, r, h => by
    simp only [type_inference] at h; cases h; exact SameDeclarations.refl g
  | .int_type, _, g, r, h => by
    simp only [type_inference] at h; cases h; exact SameDeclarations.refl g
  | .nil_type, _, g, r, h => by
    simp only [type_inference] at h; cases h; exact SameDeclarations.refl g
  | .infer_array_type, [], g, r, h => by
    simp only [type_inference] at h; cases h
  | .infer_array_type, a0 :: _, g, r, h => by
    simp only [type_inference] at h
    cases h0 : get_particle_type a0 g with
    | error e => rw [h0] at h; cases h
    | ok r0 =>
      rw [h0] at h
      simp only [Except.bind] at h
      have f0 := get_particle_type_frame a0 g r0 h0
      split at h <;> (cases h; exact f0)
  | .infer_element_type, [], g, r, h => by
    simp only [type_inference] at h; cases h; exact SameDeclarations.refl g
  | .infer_element_type, a0 :: _, g, r, h => by
    simp only [type_inference] at h
    cases h0 : get_particle_type a0 g with
    | error e => rw [h0] at h; cases h
    | ok r0 =>
      rw [h0] at h
      simp only [Except.bind] at h
      have f0 := get_particle_type_frame a0 g r0 h0
      split at h <;> (cases h; exact f0)
  | .infer_array_self_type, [], g, r, h => by
    simp only [type_inference] at h; cases h; exact SameDeclarations.refl g
  | .infer_array_self_type, a0 :: _, g, r, h => by
    simp only [type_inference] at h
    exact get_particle_type_frame a0 g r h
  | .array_type, [], g, r, h => by
    simp only [type_inference] at h; cases h; exact SameDeclarations.refl g
  | .array_type, a0 :: _, g, r, h => by
    simp only [type_inference] at h
    cases h0 : get_particle_type a0 g with
    | error e => rw [h0] at h; cases h
    | ok r0 =>
      rw [h0] at h
      simp only [Except.bind] at h
      have f0 := get_particle_type_frame a0 g r0 h0
      cases h
      exact f0
  | .fn_return_type _, _, g, r, h => by
    simp only [type_inference] at h; cases h; exact SameDeclarations.refl g

end

theorem arg_types_frame : ∀ (ps : List Particle) (g : Globals) (r : List Str × Globals),
    arg_types ps g = .ok r → SameDeclarations g r.2 ∧ r.1.length = ps.length
  | [], g, r, h => by
    simp only [arg_types] at h; cases h; exact ⟨SameDeclarations.refl g, rfl⟩
  | p :: ps, g, r, h => by
    simp only [arg_types] at h
    cases h0 : get_particle_type p g with
    | error e => rw [h0] at h; cases h
    | ok r0 =>
      rw [h0] at h
      simp only [Except.bind] at h
      cases h1 : arg_types ps r0.2 with
      | error e => rw [h1] at h; cases h
      | ok r1 =>
        rw [h1] at h
        cases h
        have f0 := get_particle_type_frame p g r0 h0
        have f1 := arg_types_frame ps r0.2 r1 h1
        exact ⟨f0.compose f1.1, by simp [f1.2]⟩

/-! ### Overload resolution -/

theorem signature_matches_iff : ∀ (ps ts : List Str),
    signature_matches ps ts = true ↔ ExactMatch ps ts
  | [], [] => by simp [signature_matches, ExactMatch]
  | [], _ :: _ => by
    simp only [signature_matches, ExactMatch]
    constructor
    · intro h; simp at h
    · intro h; cases h
  | _ :: _, [] => by
    simp only [signature_matches, ExactMatch]
    constructor
    · intro h; simp at h
    · intro h; cases h
  | p :: ps, t :: ts => by
    have ih := signature_matches_iff ps ts
    simp only [signature_matches, ExactMatch, List.length_cons, List.zipWith_cons_cons,
      List.all_cons, Bool.and_eq_true, beq_iff_eq, id, List.forall₂_cons,
      Nat.add_right_cancel_iff] at ih ⊢
    constructor
    · rintro ⟨hl, hpt, hall⟩
      exact ⟨hpt, ih.mp ⟨hl, hall⟩⟩
    · rintro ⟨hpt, hrest⟩
      have := ih.mpr hrest
      exact ⟨this.1, hpt, this.2⟩

/-- Candidates that are not declared or do not match are passed over. -/
theorem try_overloads_skip {σ : Type}
    (run : Build → Molecule → List Value → Globals × σ → Except Fault (Evaluated σ))
    (mol : Molecule) (args : List Value) (tys : List Str) (st : Globals × σ) :
    ∀ (pre rest : List Str),
      (∀ c ∈ pre, ∀ fc, st.1.INTRINSICS.lookup c = some fc → ¬ExactMatch fc.param_types tys) →
      try_overloads run mol args tys (pre ++ rest) st = try_overloads run mol args tys rest st
  | [], _, _ => rfl
  | c :: pre, rest, h => by
    have ih := try_overloads_skip run mol args tys st pre rest
      (fun c' hc' => h c' (List.mem_cons_of_mem _ hc'))
    simp only [List.cons_append, try_overloads]
    cases hl : st.1.INTRINSICS.lookup c with
    | none => exact ih
    | some fc =>
      have hn : signature_matches fc.param_types tys = false := by
        cases hm : signature_matches fc.param_types tys with
        | false => rfl
        | true =>
          exact absurd ((signature_matches_iff _ _).mp hm) (h c (List.mem_cons_self _ _) fc hl)
      simp only [hn, Bool.false_eq_true, if_false]
      exact ih

/-- C1. Overload resolution in `evaluate(Molecule)`: for a call whose subject
name has the registered candidates `pre ++ cand :: post`, where no candidate
of `pre` is a declared operation whose parameter types have the length of
and are pairwise equal to the operands' logical types `tys`, and `cand` is
one, `evaluate` is exactly one call of the builder of `cand` (on the call's
molecule and the operands' generated values), followed by storing the
returned value and the type inferred by `cand` in the molecule: no candidate
of `pre` or `post`, and no other operation, is invoked. -/
theorem overload_resolution_first_match {σ : Type}
    (run : Build → Molecule → List Value → Globals × σ → Except Fault (Evaluated σ))
    (mol : Molecule) (subj : Atom) (operands : List Particle) (st : Globals × σ)
    (pre post : List Str) (cand : Str) (fn : Function) (tys : List Str) (g' : Globals)
    (hmol : mol.atoms = .atom subj :: operands)
    (hreg : st.1.overload_registry.lookup subj.identifier = some (pre ++ cand :: post))
    (htys : arg_types operands st.1 = .ok (tys, g'))
    (hpre : ∀ c ∈ pre, ∀ fc, st.1.INTRINSICS.lookup c = some fc →
      ¬ExactMatch fc.param_types tys)
    (hfn : st.1.INTRINSICS.lookup cand = some fn)
    (hmatch : ExactMatch fn.param_types tys) :
    evaluate run mol st =
      (run fn.build mol (operands.filterMap get_stored_in) (g', st.2)).bind fun r =>
        (type_inference fn.type_inference r.2.1.atoms.tail r.2.2.1).bind fun t =>
          .ok (r.1, { r.2.1 with stored_in := r.1, type := t.1 }, (t.2, r.2.2.2)) := by
  have hI : g'.INTRINSICS = st.1.INTRINSICS := (arg_types_frame operands st.1 _ htys).1.1
  rw [← hI] at hpre hfn
  unfold evaluate
  rw [hmol]
  simp only [hreg, htys, Except.bind]
  rw [try_overloads_skip run mol _ tys (g', st.2) pre (cand :: post) hpre]
  simp only [try_overloads, hfn, (signature_matches_iff _ _).mpr hmatch, if_true]
  rfl

/-- C2. When the subject name of a call has registered overloads of which
none is a declared operation matching the operands' types, or has no
registered overloads at all, `evaluate(Molecule)` calls the builder of the
operation registered under the call's own name if there is one and stores
the returned value in the molecule; if there is none it returns no value,
leaves the molecule as it was and leaves the code generator untouched. -/
theorem unresolved_overload_falls_back {σ : Type}
    (run : Build → Molecule → List Value → Globals × σ → Except Fault (Evaluated σ))
    (mol : Molecule) (subj : Atom) (operands : List Particle) (st : Globals × σ)
    (g' : Globals)
    (hmol : mol.atoms = .atom subj :: operands)
    (hcase :
      (st.1.overload_registry.lookup subj.identifier = none ∧ g' = st.1) ∨
      ∃ candidates tys,
        st.1.overload_registry.lookup subj.identifier = some candidates ∧
        arg_types operands st.1 = .ok (tys, g') ∧
        ∀ c ∈ candidates, ∀ fc, st.1.INTRINSICS.lookup c = some fc →
          ¬ExactMatch fc.param_types tys) :
    evaluate run mol st =
      match st.1.INTRINSICS.lookup subj.identifier with
      | some fn =>
        (run fn.build mol (operands.filterMap get_stored_in) (g', st.2)).map fun r =>
          (r.1, { r.2.1 with stored_in := r.1 }, r.2.2)
      | none => .ok (none, mol, (g', st.2)) := by
  unfold evaluate
  rw [hmol]
  rcases hcase with ⟨hnone, rfl⟩ | ⟨candidates, tys, hreg, htys, hno⟩
  · simp only [hnone]
    rfl
  · have hI : g'.INTRINSICS = st.1.INTRINSICS := (arg_types_frame operands st.1 _ htys).1.1
    rw [← hI] at hno ⊢
    simp only [hreg, htys, Except.bind]
    have := try_overloads_skip run mol (operands.filterMap get_stored_in) tys (g', st.2)
      candidates [] hno
    rw [List.append_nil] at this
    rw [this]
    rfl

/-- Witness of `overload_resolution_first_match`: with the overloads
`addInts`, `addFloats` of `+`, the call `(+ 1.5 2.5)` calls the builder of
`addFloats` once and no other builder, and gets the type `Float`. -/
theorem overload_resolution_first_match_witness :
    evaluate traceRun example_call (example_globals, []) =
      .ok (none, { example_call with type := "Float".toList },
        (example_globals,
          [Build.call_fun 2 ["Float".toList, "Float".toList] "Float".toList])) :=
  (overload_resolution_first_match traceRun example_call ⟨"+".toList, none, [], [], 0⟩
    [.atom ⟨"1.5".toList, some 10, "Float".toList, [], 0⟩,
     .atom ⟨"2.5".toList, some 11, "Float".toList, [], 0⟩]
    (example_globals, []) ["addInts".toList] [] "addFloats".toList
    (declared_fun "addFloats".toList ["Float".toList, "Float".toList] "Float".toList 2)
    ["Float".toList, "Float".toList] example_globals rfl rfl rfl
    (by
      intro c hc fc hfc h
      rw [List.mem_singleton.mp hc] at hfc
      cases hfc
      cases h with
      | cons h1 _ => exact absurd h1 (by decide))
    rfl
    (List.Forall₂.cons rfl (List.Forall₂.cons rfl List.Forall₂.nil))).trans rfl

/-- Witness of `unresolved_overload_falls_back`: `-` has the only overload
`addFloats` and no operation of its own; the call `(- 1 2)` returns no value,
the molecule and the (empty) record of builder calls are as before. -/
theorem unresolved_overload_falls_back_witness :
    evaluate traceRun example_unresolved_call (example_unresolved_globals, []) =
      .ok (none, example_unresolved_call, (example_unresolved_globals, [])) :=
  (unresolved_overload_falls_back traceRun example_unresolved_call
    ⟨"-".toList, none, [], [], 0⟩
    [.atom ⟨"1".toList, some 10, "Int".toList, [], 0⟩,
     .atom ⟨"2".toList, some 11, "Int".toList, [], 0⟩]
    (example_unresolved_globals, []) example_unresolved_globals rfl
    (Or.inr ⟨["addFloats".toList], ["Int".toList, "Int".toList], rfl, rfl, by
      intro c hc fc hfc h
      rw [List.mem_singleton.mp hc] at hfc
      cases hfc
      cases h with
      | cons h1 _ => exact absurd h1 (by decide)⟩)).trans rfl

/-- The form `(overload + [addInts addFloats])`, parsed and compiled,
registers the two candidates under `+` in the order written. -/
theorem overload_form_registers_in_order :
    ((lexparse "(overload + [addInts addFloats])".toList).bind fun m =>
        compile_overload m { example_globals with overload_registry := [] }) =
      .ok example_globals :=
  rfl

/-! ### What holds of string literals and of the constructor -/

/-- A string literal at the very start of the view (where the loop stands
after a word and one separator), followed by at least one more character:
one atom of type `Str` with the quotes stripped, and the loop goes on after
the character that follows the closing quote. -/
theorem lexStep_string_literal (loop : Str → Molecule → Str → Except Fault Molecule)
    (tail : Str) (mol : Molecule) (t : Str) (d : Char) (rest : Str)
    (ht : ∀ x ∈ t, x ≠ '"') :
    lexStep loop tail mol ('"' :: (t ++ '"' :: d :: rest)) =
      loop tail
        { mol with atoms := mol.atoms ++
            [Particle.atom { identifier := t, stored_in := none, type := "Str".toList,
                             member_access := [], len := t.length + 1 }] }
        rest := by
  have hfind : find_first_not_of ('"' :: (t ++ '"' :: d :: rest)) WHITESPACE = some 0 := by
    unfold find_first_not_of
    rw [List.findIdx?_cons]
    have : (!WHITESPACE.contains '"') = true := by decide
    rw [if_pos this]
  have hq : find_first_of (t ++ '"' :: d :: rest) ['"'] = some t.length :=
    find_first_of_skip t '"' (d :: rest) _
      (fun x hx => by simpa using ht x hx) (List.mem_singleton.mpr rfl)
  have htake : List.take (t.length + 2) ('"' :: (t ++ '"' :: d :: rest)) =
      '"' :: (t ++ ['"']) := by
    have : '"' :: (t ++ '"' :: d :: rest) = ('"' :: (t ++ ['"'])) ++ d :: rest := by simp
    rw [this]
    have hl : t.length + 2 = ('"' :: (t ++ ['"'])).length := by simp
    rw [hl, List.take_left]
  have hmake : Atom.make ('"' :: (t ++ ['"'])) =
      .ok { identifier := t, stored_in := none, type := "Str".toList, member_access := [],
            len := t.length + 1 } := by
    rw [Atom.make_quoted _ (by simp)]
    simp
  have hsub : substr ('"' :: (t ++ '"' :: d :: rest)) (t.length + 3) = .ok rest := by
    unfold substr
    have hle : t.length + 3 ≤ ('"' :: (t ++ '"' :: d :: rest)).length := by
      simp only [List.length_cons, List.length_append]; omega
    rw [if_pos hle]
    have : '"' :: (t ++ '"' :: d :: rest) = ('"' :: (t ++ ['"', d])) ++ rest := by simp
    rw [this]
    have hl : t.length + 3 = ('"' :: (t ++ ['"', d])).length := by simp
    rw [hl, List.drop_left]
  have h2 : ((t.length : Int) + 2).toNat = t.length + 2 := by omega
  have h3 : ((t.length : Int) + 3).toNat = t.length + 3 := by omega
  have hc : isClose '"' = false := by decide
  have ho : isOpen '"' = false := by decide
  unfold lexStep
  rw [hfind]
  simp only [List.getD_cons_zero, hc, ho, Bool.false_eq_true, if_false, if_true,
    List.drop_succ_cons, List.drop_zero, hq, h2, h3, htake, hsub,
    Molecule.add_atom_ok _ _ _ hmake, Except.bind]

theorem indexOf?_split (c : Char) : ∀ (s : Str) (i : Nat), s.indexOf? c = some i →
    s.take i = s.takeWhile (fun x => x != c) ∧
    s.drop (i + 1) = (s.dropWhile (fun x => x != c)).drop 1 ∧ c ∈ s ∧
    (0 < i ↔ s.head? ≠ some c)
  | [], i, h => by simp [List.indexOf?] at h
  | x :: xs, i, h => by
    unfold List.indexOf? at h
    rw [List.findIdx?_cons] at h
    by_cases hx : x = c
    · subst hx
      simp only [beq_self_eq_true, if_true, Option.some.injEq] at h
      subst h
      simp
    · have hx' : (x == c) = false := by simpa using hx
      simp only [hx', Bool.false_eq_true, if_false] at h
      rw [List.findIdx?_succ] at h
      cases hi : List.findIdx? (fun y => y == c) xs with
      | none => rw [hi] at h; simp at h
      | some j =>
        rw [hi] at h
        simp only [Option.map_some', Option.some.injEq] at h
        subst h
        have ih := indexOf?_split c xs j hi
        have hne : (x != c) = true := by simpa using hx
        refine ⟨?_, ?_, List.mem_cons_of_mem _ ih.2.2.1, ?_⟩
        · rw [List.take_succ_cons, List.takeWhile_cons, if_pos hne, ih.1]
        · rw [List.drop_succ_cons, List.dropWhile_cons, if_pos hne, ih.2.1]
        · simp only [Nat.zero_lt_succ, List.head?_cons, ne_eq, Option.some.injEq, true_iff]
          exact hx

/-- The type split: the text before and after the first `:`, for a token that
starts with an upper-case letter. -/
theorem Atom.split_type_spec (tok : Str) :
    Atom.split_type tok =
      if (tok.headD '\x00').isUpper = true ∧ ':' ∈ tok then
        (tok.takeWhile (fun x => x != ':'), (tok.dropWhile (fun x => x != ':')).drop 1)
      else ([], tok) := by
  unfold Atom.split_type
  cases h : tok.indexOf? ':' with
  | none =>
    have := (indexOf?_eq_none_iff tok ':').mp h
    simp [this]
  | some colon =>
    have hs := indexOf?_split ':' tok colon h
    dsimp only
    by_cases hup : (tok.headD '\x00').isUpper = true
    · have hpos : 0 < colon := by
        rw [hs.2.2.2]
        intro hh
        cases tok with
        | nil => simp at hh
        | cons c cs =>
          simp only [List.head?_cons, Option.some.injEq] at hh
          subst hh
          simp at hup
      rw [if_pos ⟨hpos, hup⟩, if_pos ⟨hup, hs.2.2.1⟩, hs.1, hs.2.1]
    · rw [if_neg (fun hh => hup hh.2), if_neg (fun hh => hup hh.1)]

/-- The member split: the text before and after the first `>`, for an
identifier that starts with a lower-case letter. -/
theorem Atom.split_member_spec (s : Str) :
    Atom.split_member s =
      if (s.headD '\x00').isLower = true ∧ '>' ∈ s then
        ((s.dropWhile (fun x => x != '>')).drop 1, s.takeWhile (fun x => x != '>'))
      else ([], s) := by
  unfold Atom.split_member
  cases h : s.indexOf? '>' with
  | none =>
    have := (indexOf?_eq_none_iff s '>').mp h
    simp [this]
  | some arrow =>
    have hs := indexOf?_split '>' s arrow h
    dsimp only
    by_cases hlo : (s.headD '\x00').isLower = true
    · have hpos : 0 < arrow := by
        rw [hs.2.2.2]
        intro hh
        cases s with
        | nil => simp at hh
        | cons c cs =>
          simp only [List.head?_cons, Option.some.injEq] at hh
          subst hh
          simp at hlo
      rw [if_pos ⟨hpos, hlo⟩, if_pos ⟨hlo, hs.2.2.1⟩, hs.1, hs.2.1]
    · rw [if_neg (fun hh => hlo hh.2), if_neg (fun hh => hlo hh.1)]

/-- The constructor on a token that does not start with a double quote: the
type is the text before the first `:` when the token starts with an
upper-case letter and has a `:`; the member name is the text after the first
`>` of what remains when that starts with a lower-case letter and has a `>`;
otherwise the token is kept whole. -/
theorem Atom.make_unquoted (tok : Str) (h : tok.head? ≠ some '"') :
    Atom.make tok =
      .ok { identifier := (Atom.split_member (Atom.split_type tok).2).2, stored_in := none,
            type := (Atom.split_type tok).1,
            member_access := (Atom.split_member (Atom.split_type tok).2).1, len := 0 } := by
  unfold Atom.make
  rw [if_neg h]

/-- The operator tokens `>`, `>=`, `->S`, `->I` are kept whole. -/
theorem Atom.make_operators :
    Atom.make ">".toList = .ok ⟨">".toList, none, [], [], 0⟩ ∧
    Atom.make ">=".toList = .ok ⟨">=".toList, none, [], [], 0⟩ ∧
    Atom.make "->S".toList = .ok ⟨"->S".toList, none, [], [], 0⟩ ∧
    Atom.make "->I".toList = .ok ⟨"->I".toList, none, [], [], 0⟩ :=
  ⟨rfl, rfl, rfl, rfl⟩

/-! ### Type inference of `def` -/

theorem Table.lookup_set_of_not_count {β : Type} (m : Table β) (k n : Str) (v : β)
    (h : m.count k = false) :
    (m.set k v).lookup n = if n = k then some v else m.lookup n := by
  rw [Table.set_of_not_count m k v h, List.lookup_append]
  by_cases hn : n = k
  · subst hn
    rw [if_pos rfl]
    unfold Table.count at h
    cases hl : List.lookup n m with
    | none => simp
    | some w => rw [hl] at h; cases h
  · rw [if_neg hn]
    have : (n == k) = false := by simpa using hn
    simp [List.lookup_cons, this]

/-- C11. Type inference of `def` on the annotated name `T:x` (an atom with the
non-empty type `T` and the identifier `x`): it returns `T`; afterwards the
variable table has an entry for `x`, which is `(T, storage unset)` if `x` had
no entry before and the old entry otherwise; the entry of every other name,
and every other registry, is as before. -/
theorem def_type_frame (g : Globals) (name : Atom) (rest : List Particle)
    (hT : name.type ≠ []) :
    ∃ g', type_inference .def_type (.atom name :: rest) g = .ok (name.type, g') ∧
      g'.object_registry.lookup name.identifier =
        (match g.object_registry.lookup name.identifier with
          | some entry => some entry
          | none => some { type := name.type, value := none }) ∧
      (∀ n, n ≠ name.identifier → g'.object_registry.lookup n = g.object_registry.lookup n) ∧
      SameDeclarations g g' := by
  cases hc : g.object_registry.count name.identifier with
  | true =>
    refine ⟨g, ?_, ?_, fun _ _ => rfl, SameDeclarations.refl g⟩
    · simp [type_inference, hT, hc]
    · unfold Table.count at hc
      cases hl : List.lookup name.identifier g.object_registry with
      | none => rw [hl] at hc; cases hc
      | some e => rfl
  | false =>
    refine ⟨{ g with object_registry :=
        g.object_registry.set name.identifier { type := name.type, value := none } },
      ?_, ?_, ?_, ⟨rfl, rfl, rfl⟩⟩
    · simp [type_inference, hT, hc]
    · have hl : List.lookup name.identifier g.object_registry = none := by
        unfold Table.count at hc
        cases hl : List.lookup name.identifier g.object_registry with
        | none => rfl
        | some e => rw [hl] at hc; cases hc
      rw [hl]
      simp only
      rw [Table.lookup_set_of_not_count _ _ _ _ hc, if_pos rfl]
    · intro n hn
      simp only
      rw [Table.lookup_set_of_not_count _ _ _ _ hc, if_neg hn]

/-- Witness of `def_type_frame`: `(def Int:x 5)` with `y` already declared. -/
theorem def_type_frame_witness :
    ∃ g', type_inference .def_type
        [.atom ⟨"x".toList, none, "Int".toList, [], 0⟩, .atom ⟨"5".toList, none, [], [], 0⟩]
        { object_registry := [("y".toList, { type := "Float".toList, value := some 7 })],
          struct_registry := [], overload_registry := [], INTRINSICS := [] } =
          .ok ("Int".toList, g') ∧
      g'.object_registry.lookup "x".toList = some { type := "Int".toList, value := none } ∧
      (∀ n, n ≠ "x".toList → g'.object_registry.lookup n =
        List.lookup n [("y".toList, ({ type := "Float".toList, value := some 7 } : MemObject))]) ∧
      SameDeclarations
        { object_registry := [("y".toList, { type := "Float".toList, value := some 7 })],
          struct_registry := [], overload_registry := [], INTRINSICS := [] } g' :=
  def_type_frame
    { object_registry := [("y".toList, { type := "Float".toList, value := some 7 })],
      struct_registry := [], overload_registry := [], INTRINSICS := [] }
    ⟨"x".toList, none, "Int".toList, [], 0⟩ [.atom ⟨"5".toList, none, [], [], 0⟩]
    (by decide)

/-! ### The variable table under `def`, `=` and `fun` -/

theorem Table.lookup_map_replace {β : Type} (m : Table β) (k n : Str) (v : β) :
    List.lookup n (m.map fun e => if e.1 == k then (k, v) else e) =
      if n = k then (m.lookup k).map (fun _ => v) else m.lookup n := by
  induction m with
  | nil => simp
  | cons e m ih =>
    obtain ⟨a, b⟩ := e
    simp only [List.map_cons, List.lookup_cons, beq_iff_eq] at ih ⊢
    by_cases hak : a = k
    · subst hak
      by_cases hn : n = a
      · subst hn; simp
      · have h1 : (n == a) = false := by simpa using hn
        simp only [if_true, List.lookup_cons, h1, ih, if_neg hn]
    · by_cases hn : n = k
      · subst hn
        have h1 : (n == a) = false := by simpa using (Ne.symm hak)
        simp only [if_neg hak, List.lookup_cons, h1, ih, if_true]
      · simp only [if_neg hak, List.lookup_cons, ih, if_neg hn]

theorem Table.lookup_set {β : Type} (m : Table β) (k n : Str) (v : β) :
    (m.set k v).lookup n = if n = k then some v else m.lookup n := by
  cases hc : m.count k with
  | false => exact Table.lookup_set_of_not_count m k n v hc
  | true =>
    unfold Table.set
    rw [if_pos hc, Table.lookup_map_replace]
    by_cases hn : n = k
    · rw [if_pos hn, if_pos hn]
      unfold Table.count at hc
      cases hl : List.lookup k m with
      | none => rw [hl] at hc; cases hc
      | some w => rfl
    · rw [if_neg hn, if_neg hn]

/-- `build_def` on a molecule whose name atom has an empty type: no value,
nothing built, the registries untouched. -/
theorem build_def_of_empty_type (mol : Molecule) (subject : Particle) (name : Atom)
    (rest : List Particle) (st : State) (hmol : mol.atoms = subject :: .atom name :: rest)
    (hT : name.type = []) : build_def mol st = .ok (none, mol, st) := by
  unfold build_def
  rw [hmol]
  simp [hT]

/-- C13. For every `(= name value)` in which `name` has no entry in the variable
table, or an entry whose storage is unset, `build_reassign` succeeds, returns
no value, and leaves the registries and the module as they were: no store is
emitted and no entry is created. -/
theorem reassign_of_undeclared (mol : Molecule) (subject : Particle) (name : Atom)
    (value : Particle) (rest : List Particle) (st : State)
    (hmol : mol.atoms = subject :: .atom name :: value :: rest)
    (h : st.1.object_registry.lookup name.identifier = none ∨
      ∃ t, st.1.object_registry.lookup name.identifier = some { type := t, value := none }) :
    build_reassign mol st = .ok (none, mol, st) := by
  unfold build_reassign
  rw [hmol]
  rcases h with h | ⟨t, h⟩
  · simp [h]
  · simp [h]

/-- Witness of `reassign_of_undeclared`: `(= x 5)` with `x` known to the type
pass only. -/
theorem reassign_of_undeclared_witness :
    build_reassign
      ⟨[.atom ⟨"=".toList, none, [], [], 0⟩, .atom ⟨"x".toList, none, "Int".toList, [], 0⟩,
        .atom ⟨"5".toList, some 1, "Int".toList, [], 0⟩], none, [], true⟩
      ({ Globals.initial with
          object_registry := [("x".toList, { type := "Int".toList, value := none })] },
        CodeGen.empty) =
    .ok (none,
      ⟨[.atom ⟨"=".toList, none, [], [], 0⟩, .atom ⟨"x".toList, none, "Int".toList, [], 0⟩,
        .atom ⟨"5".toList, some 1, "Int".toList, [], 0⟩], none, [], true⟩,
      ({ Globals.initial with
          object_registry := [("x".toList, { type := "Int".toList, value := none })] },
        CodeGen.empty)) :=
  reassign_of_undeclared _ (.atom ⟨"=".toList, none, [], [], 0⟩)
    ⟨"x".toList, none, "Int".toList, [], 0⟩ (.atom ⟨"5".toList, some 1, "Int".toList, [], 0⟩) []
    _ rfl (Or.inr ⟨"Int".toList, rfl⟩)

set_option smartUnfolding false in
/-- C12. The program `(def x 5)`, whose name atom has no type annotation, run
through `main`: when `compile` evaluates the name atom, `get_llvm_constant`
fills its empty type with `Var`, so that `build_def` does not see a missing
annotation; it allocates a `ptr` slot (value `3`), enters `x` in the variable
table with the type `Var` and that slot, and copies the operand into it. -/
theorem unannotated_def_declares_var : ∀ others,
    (compile_source (run_builder others) "{(def x 5)}".toList).map
      (fun st => (st.1.object_registry, st.2.blocks)) =
    .ok ([("x".toList, { type := "Var".toList, value := some 3 })],
      [(0, { name := "entry".toList, parent := 0,
             instrs := [(1, .alloca .i32 []),
                        (2, .store (.const_int 32 5) (.value 1)),
                        (3, .alloca .ptr []),
                        (4, .load .ptr (.value 1) []),
                        (5, .store (.value 4) (.value 3)),
                        (6, .ret (some (.const_int 32 0)))] })]) :=
  fun _ => rfl

/-! ### The `fun` form -/

set_option smartUnfolding false in
theorem compile_each_nil
    (run : Build → Molecule → List Value → State → Except Fault (Evaluated CodeGen))
    (st : State) : compile_each run [] st = .ok ([], st) := rfl

set_option smartUnfolding false in
theorem compile_fun_form
    (run : Build → Molecule → List Value → State → Except Fault (Evaluated CodeGen))
    (s1 : Option Value) (t1 m1 : Str) (l1 : Int) (name : Atom) (parameters : List Particle)
    (sig_stored_in : Option Value) (return_type : Str) (sig_eval : Bool)
    (head : Particle) (commands : List Particle) (bs : Option Value) (bt : Str) (be : Bool)
    (rest : List Particle) (stored_in : Option Value) (type : Str) (eval : Bool) (st : State) :
    compile run (.molecule ⟨.atom ⟨"fun".toList, s1, t1, m1, l1⟩ ::
        .molecule ⟨.atom name :: parameters, sig_stored_in, return_type, sig_eval⟩ ::
        .molecule ⟨head :: commands, bs, bt, be⟩ :: rest, stored_in, type, eval⟩) st =
    (get_atoms parameters).bind fun params =>
      ((compile_each run commands (enter_function name.identifier return_type params st).2).map
        fun r => (head :: r.1, r.2)).bind fun b =>
        (leave_function name.identifier return_type params
          (enter_function name.identifier return_type params st).1 st.2.insert_block
          st.1.object_registry b.2).map fun left =>
            (.molecule ⟨.atom ⟨"fun".toList, s1, t1, m1, l1⟩ ::
              .molecule ⟨.atom name :: parameters, sig_stored_in, return_type, sig_eval⟩ ::
              .molecule ⟨b.1, bs, bt, be⟩ :: rest, stored_in, type, eval⟩, left) := rfl

set_option smartUnfolding false in
theorem compile_fun_form_empty
    (run : Build → Molecule → List Value → State → Except Fault (Evaluated CodeGen))
    (s1 : Option Value) (t1 m1 : Str) (l1 : Int) (name : Atom) (parameters : List Particle)
    (sig_stored_in : Option Value) (return_type : Str) (sig_eval : Bool)
    (bs : Option Value) (bt : Str) (be : Bool)
    (rest : List Particle) (stored_in : Option Value) (type : Str) (eval : Bool) (st : State) :
    compile run (.molecule ⟨.atom ⟨"fun".toList, s1, t1, m1, l1⟩ ::
        .molecule ⟨.atom name :: parameters, sig_stored_in, return_type, sig_eval⟩ ::
        .molecule ⟨[], bs, bt, be⟩ :: rest, stored_in, type, eval⟩) st =
    (get_atoms parameters).bind fun params =>
      (leave_function name.identifier return_type params
        (enter_function name.identifier return_type params st).1 st.2.insert_block
        st.1.object_registry (enter_function name.identifier return_type params st).2).map
        fun left =>
          (.molecule ⟨.atom ⟨"fun".toList, s1, t1, m1, l1⟩ ::
            .molecule ⟨.atom name :: parameters, sig_stored_in, return_type, sig_eval⟩ ::
            .molecule ⟨[], bs, bt, be⟩ :: rest, stored_in, type, eval⟩, left) := rfl

/-- What `leave_function` hands back: the saved variable table and insertion
block, the function under its name in the operation table, and everything
else as the body left it. -/
theorem leave_function_restores (func_name return_type : Str) (params : List Atom)
    (Func : Nat) (SavedBB : Option Nat) (saved_registry : Table MemObject) (st st' : State)
    (h : leave_function func_name return_type params Func SavedBB saved_registry st = .ok st') :
    st'.1.object_registry = saved_registry ∧ st'.2.insert_block = SavedBB ∧
      st'.1.INTRINSICS.lookup func_name =
        some (declared_fun func_name (params.map fun param => param.type) return_type Func) ∧
      (∀ n, n ≠ func_name → st'.1.INTRINSICS.lookup n = st.1.INTRINSICS.lookup n) ∧
      st'.1.struct_registry = st.1.struct_registry ∧
      st'.1.overload_registry = st.1.overload_registry := by
  unfold leave_function at h
  cases hr : implicit_return st.2 (get_llvm_type return_type) with
  | error e => rw [hr] at h; cases h
  | ok cg =>
    rw [hr] at h
    cases SavedBB with
    | none => cases h
    | some b =>
      simp only [Except.bind] at h
      injection h with h
      subst h
      refine ⟨rfl, rfl, ?_, ?_, rfl, rfl⟩
      · simp only
        rw [Table.lookup_set, if_pos rfl]
      · intro n hn
        simp only
        rw [Table.lookup_set, if_neg hn]

/-- C14. When `compile` has processed a `fun` form, whatever its parameters
and its body: the variable table is the one from before the form, the
insertion block is the one from before the form, and the operation table
has the function's name, with the declared parameter types as its signature
and the declared return type as its inferred type.  The entries of the other
names in the operation table, the struct registry and the overload registry
are the ones that compiling the body left. -/
theorem fun_form_restores_scope
    (run : Build → Molecule → List Value → State → Except Fault (Evaluated CodeGen))
    (s1 : Option Value) (t1 m1 : Str) (l1 : Int) (name : Atom) (parameters : List Particle)
    (sig_stored_in : Option Value) (return_type : Str) (sig_eval : Bool)
    (body : List Particle) (bs : Option Value) (bt : Str) (be : Bool)
    (rest : List Particle) (stored_in : Option Value) (type : Str) (eval : Bool)
    (st st' : State) (p' : Particle)
    (h : compile run (.molecule ⟨.atom ⟨"fun".toList, s1, t1, m1, l1⟩ ::
        .molecule ⟨.atom name :: parameters, sig_stored_in, return_type, sig_eval⟩ ::
        .molecule ⟨body, bs, bt, be⟩ :: rest, stored_in, type, eval⟩) st = .ok (p', st')) :
    st'.1.object_registry = st.1.object_registry ∧
    st'.2.insert_block = st.2.insert_block ∧
    ∃ params commands inner,
      get_atoms parameters = .ok params ∧
      compile_each run body.tail (enter_function name.identifier return_type params st).2 =
        .ok (commands, inner) ∧
      (∃ fn, st'.1.INTRINSICS.lookup name.identifier = some fn ∧
        fn.param_types = params.map (fun param => param.type) ∧
        fn.type_inference = .fn_return_type return_type) ∧
      (∀ n, n ≠ name.identifier → st'.1.INTRINSICS.lookup n = inner.1.INTRINSICS.lookup n) ∧
      st'.1.struct_registry = inner.1.struct_registry ∧
      st'.1.overload_registry = inner.1.overload_registry := by
  cases hp : get_atoms parameters with
  | error e =>
    cases body with
    | nil => rw [compile_fun_form_empty, hp] at h; cases h
    | cons head commands => rw [compile_fun_form, hp] at h; cases h
  | ok params =>
    cases body with
    | nil =>
      rw [compile_fun_form_empty, hp] at h
      simp only [Except.bind] at h
      cases hl : leave_function name.identifier return_type params
          (enter_function name.identifier return_type params st).1 st.2.insert_block
          st.1.object_registry (enter_function name.identifier return_type params st).2 with
      | error e => rw [hl] at h; cases h
      | ok left =>
        rw [hl] at h
        simp only [Except.map] at h
        injection h with h
        injection h with _ h
        subst h
        obtain ⟨h1, h2, h3, h4, h5, h6⟩ := leave_function_restores _ _ _ _ _ _ _ _ hl
        exact ⟨h1, h2, params, [], _, rfl, compile_each_nil run _, ⟨_, h3, rfl, rfl⟩, h4, h5, h6⟩
    | cons head commands =>
      rw [compile_fun_form, hp] at h
      simp only [Except.bind] at h
      cases hc : compile_each run commands
          (enter_function name.identifier return_type params st).2 with
      | error e => rw [hc] at h; cases h
      | ok r =>
        rw [hc] at h
        simp only [Except.map] at h
        cases hl : leave_function name.identifier return_type params
            (enter_function name.identifier return_type params st).1 st.2.insert_block
            st.1.object_registry r.2 with
        | error e => rw [hl] at h; cases h
        | ok left =>
          rw [hl] at h
          simp only at h
          injection h with h
          injection h with _ h
          subst h
          obtain ⟨h1, h2, h3, h4, h5, h6⟩ := leave_function_restores _ _ _ _ _ _ _ _ hl
          exact ⟨h1, h2, params, r.1, r.2, rfl, hc, ⟨_, h3, rfl, rfl⟩, h4, h5, h6⟩

set_option smartUnfolding false in
/-- Witness of `fun_form_restores_scope`: `(fun Int:(f Int:a) {(def Int:y a)})`
compiled at the start of `main`; the parameter `a` and the local `y` are gone
from the variable table afterwards. -/
theorem fun_form_restores_scope_witness :
    ∃ p' st', compile (run_builder no_others) example_fun_form State.start = .ok (p', st') ∧
      st'.1.object_registry = State.start.1.object_registry ∧
      st'.2.insert_block = State.start.2.insert_block ∧
      ∃ fn, st'.1.INTRINSICS.lookup "f".toList = some fn ∧
        fn.param_types = ["Int".toList] ∧ fn.type_inference = .fn_return_type "Int".toList := by
  have hok : (compile (run_builder no_others) example_fun_form State.start).isOk = true := rfl
  cases h : compile (run_builder no_others) example_fun_form State.start with
  | error e => rw [h] at hok; cases hok
  | ok r =>
    obtain ⟨p', st'⟩ := r
    obtain ⟨h1, h2, params, commands, inner, hp, -, ⟨fn, h3, h4, h5⟩, -⟩ :=
      fun_form_restores_scope (run_builder no_others) none [] [] 0
        ⟨"f".toList, none, [], [], 0⟩ [word "a".toList "Int".toList] none "Int".toList true
        [word "block".toList [],
          form [word "def".toList [], word "y".toList "Int".toList, word "a".toList []] []]
        none [] true [] none [] true State.start st' p' h
    have hparams : params = [⟨"a".toList, none, "Int".toList, [], 0⟩] := by
      have : get_atoms [word "a".toList "Int".toList] =
          .ok [⟨"a".toList, none, "Int".toList, [], 0⟩] := rfl
      rw [this] at hp
      injection hp with hp
      exact hp.symm
    subst hparams
    exact ⟨p', st', rfl, h1, h2, fn, h3, h4, h5⟩

set_option smartUnfolding false in
/-- C14, as stated, fails on `(fun Nil:(f) {(overload p q)})`: compiled at the
start of `main`, where no overload is registered, it leaves the overload
`q` of `p` in the overload registry; the operation table is not the only
registry that changed. -/
theorem fun_form_body_changes_overloads :
    State.start.1.overload_registry = [] ∧
    (compile (run_builder no_others) example_fun_with_overload State.start).map
      (fun r => r.2.1.overload_registry) = .ok [("p".toList, ["q".toList])] :=
  ⟨rfl, rfl⟩

set_option smartUnfolding false in
/-- C15. The program `(fun Int:(f) {(def Int:y 5) (return y)})` run through
`main`: the slot of `y` (value `1`) is allocated in the entry block of `main`
(block `0`), and the code of `f` (block `2`) stores into it and reads from
it; `f` has no slot of its own for `y`. -/
theorem function_local_uses_slot_of_main : ∀ others,
    (compile_source (run_builder others)
        "{(fun Int:(f) {(def Int:y 5) (return y)})}".toList).map
      (fun st => (st.2.defined_in 1, st.2.functions.map (fun f => f.name), st.2.blocks)) =
    .ok (some ("entry".toList, "main".toList), ["main".toList, "f".toList],
      [(0, { name := "entry".toList, parent := 0,
             instrs := [(1, .alloca .i32 "y".toList),
                        (9, .ret (some (.const_int 32 0)))] }),
       (2, { name := "entry".toList, parent := 1,
             instrs := [(3, .alloca .i32 []),
                        (4, .store (.const_int 32 5) (.value 3)),
                        (5, .load .i32 (.value 3) []),
                        (6, .store (.value 5) (.value 1)),
                        (7, .load .i32 (.value 1) []),
                        (8, .ret (some (.value 7)))] })]) :=
  fun _ => rfl

/-! ### Extern structs at the call boundary -/

theorem byte_size_foldl (field_types : List Str) (acc : Nat) :
    field_types.foldl (fun byte_size ft =>
      if ft = "Char".toList then byte_size + 1
      else if ft = "Int".toList then byte_size + 4
      else if ft = "Float".toList then byte_size + 4
      else if ft = "Bool".toList then byte_size + 1
      else byte_size + 8) acc = acc + (field_types.map field_size).sum := by
  induction field_types generalizing acc with
  | nil => simp
  | cons ft rest ih =>
    rw [List.foldl_cons, ih, List.map_cons, List.sum_cons]
    have step : (if ft = "Char".toList then acc + 1
        else if ft = "Int".toList then acc + 4
        else if ft = "Float".toList then acc + 4
        else if ft = "Bool".toList then acc + 1
        else acc + 8) = acc + field_size ft := by
      unfold field_size
      by_cases h1 : ft = "Char".toList
      · rw [if_pos h1, if_pos (Or.inl h1)]
      · by_cases h4 : ft = "Bool".toList
        · subst h4
          rfl
        · by_cases h2 : ft = "Int".toList
          · rw [if_neg h1, if_pos h2, if_neg (not_or.mpr ⟨h1, h4⟩), if_pos (Or.inl h2)]
          · by_cases h3 : ft = "Float".toList
            · rw [if_neg h1, if_neg h2, if_pos h3, if_neg (not_or.mpr ⟨h1, h4⟩),
                if_pos (Or.inr h3)]
            · rw [if_neg h1, if_neg h2, if_neg h3, if_neg h4, if_neg (not_or.mpr ⟨h1, h4⟩),
                if_neg (not_or.mpr ⟨h2, h3⟩)]
    rw [step]
    omega

/-- C20. For every extern struct `T` (a registered struct other than the
built-in `Str`, flagged extern): the byte size used at the call boundary is
the sum of the field sizes 1 (`Char`, `Bool`), 4 (`Int`, `Float`), 8 (any
other type); the `extern` branch declares a parameter of type `T` as `i32`
when the sum is at most 4, as `i64` when it is at most 8, as `ptr` above; and
the call passes an argument of that type accordingly: a value loaded as
`i32`, a value loaded as `i64`, or the pointer itself. -/
theorem extern_struct_coercion (g : Globals) (T : Str) (sdef : StructDef)
    (hreg : g.struct_registry.lookup T = some sdef)
    (hext : StructDef.is_extern sdef = true) (hT : T ≠ "Str".toList) :
    byte_size sdef.field_types = (sdef.field_types.map field_size).sum ∧
    declared_param_type g T =
      (if byte_size sdef.field_types ≤ 4 then LType.i32
       else if byte_size sdef.field_types ≤ 8 then LType.i64 else LType.ptr) ∧
    ∀ (captured_param_types : List Str) (i : Nat) (arg : Value) (rest : List Value)
      (cg : CodeGen), captured_param_types.get? i = some T →
      marshal_arguments captured_param_types (arg :: rest) i (g, cg) =
        (marshal_arguments captured_param_types rest (i + 1)
          (g, if byte_size sdef.field_types ≤ 4 then (cg.emit (.load .i32 (.value arg) [])).2
              else if byte_size sdef.field_types ≤ 8 then (cg.emit (.load .i64 (.value arg) [])).2
              else cg)).map fun r =>
          ((if byte_size sdef.field_types ≤ 8 then Operand.value cg.next else Operand.value arg)
            :: r.1, r.2) := by
  refine ⟨?_, ?_, ?_⟩
  · unfold byte_size
    rw [byte_size_foldl, Nat.zero_add]
  · unfold declared_param_type
    rw [if_neg hT, hreg]
    simp only [hext, if_true]
  · intro captured i arg rest cg hi
    rw [marshal_arguments, hi]
    simp only [if_neg hT, hreg, hext, if_true]
    by_cases h4 : byte_size sdef.field_types ≤ 4
    · have h8 : byte_size sdef.field_types ≤ 8 := by omega
      simp only [if_pos h4, if_pos h8]
      rfl
    · by_cases h8 : byte_size sdef.field_types ≤ 8
      · simp only [if_neg h4, if_pos h8]
        rfl
      · simp only [if_neg h4, if_neg h8]

/-- Witness of `extern_struct_coercion`: a struct of four `Char` fields has
size 4 and passes as a 32-bit integer. -/
theorem extern_struct_coercion_witness :
    byte_size ["Char".toList, "Char".toList, "Char".toList, "Char".toList] = 4 ∧
    declared_param_type
      { Globals.initial with
        struct_registry := [("Color".toList,
          { name := "Color".toList,
            field_names := ["r".toList, "g".toList, "b".toList, "a".toList],
            field_types := ["Char".toList, "Char".toList, "Char".toList, "Char".toList],
            llvm_type := some 0, is_extern := true })] } "Color".toList = LType.i32 ∧
    marshal_arguments ["Color".toList] [7] 0
      ({ Globals.initial with
        struct_registry := [("Color".toList,
          { name := "Color".toList,
            field_names := ["r".toList, "g".toList, "b".toList, "a".toList],
            field_types := ["Char".toList, "Char".toList, "Char".toList, "Char".toList],
            llvm_type := some 0, is_extern := true })] }, State.start.2) =
      .ok ([.value 1],
        ({ Globals.initial with
          struct_registry := [("Color".toList,
            { name := "Color".toList,
              field_names := ["r".toList, "g".toList, "b".toList, "a".toList],
              field_types := ["Char".toList, "Char".toList, "Char".toList, "Char".toList],
              llvm_type := some 0, is_extern := true })] },
          (State.start.2.emit (.load .i32 (.value 7) [])).2)) :=
  have h := extern_struct_coercion
    { Globals.initial with
      struct_registry := [("Color".toList,
        { name := "Color".toList,
          field_names := ["r".toList, "g".toList, "b".toList, "a".toList],
          field_types := ["Char".toList, "Char".toList, "Char".toList, "Char".toList],
          llvm_type := some 0, is_extern := true })] } "Color".toList
    { name := "Color".toList,
      field_names := ["r".toList, "g".toList, "b".toList, "a".toList],
      field_types := ["Char".toList, "Char".toList, "Char".toList, "Char".toList],
      llvm_type := some 0, is_extern := true } rfl rfl (by decide)
  ⟨rfl, h.2.1.trans rfl, (h.2.2 ["Color".toList] 0 7 [] State.start.2 rfl).trans rfl⟩

/-! ### Array literals -/

theorem ceil_log2_spec (n : Nat) :
    n ≤ 2 ^ ceil_log2 n ∧ ∀ k, n ≤ 2 ^ k → ceil_log2 n ≤ k := by
  unfold ceil_log2
  cases hf : (List.range (n + 1)).find? (fun k => decide (n ≤ 2 ^ k)) with
  | none =>
    exfalso
    rw [List.find?_eq_none] at hf
    exact hf n (List.mem_range.mpr (Nat.lt_succ_self n))
      (by simpa using (Nat.lt_two_pow n).le)
  | some k0 =>
    obtain ⟨hp, as, bs, hsplit, has⟩ := List.find?_eq_some.mp hf
    have hk0 : as.length = k0 := by
      have h1 : (List.range (n + 1))[as.length]? = some k0 := by
        rw [hsplit, List.getElem?_append_right (Nat.le_refl _)]
        simp
      rw [List.getElem?_range] at h1
      · injection h1
      · by_contra hlt
        rw [List.getElem?_eq_none (by simpa using Nat.le_of_not_lt hlt)] at h1
        cases h1
    show n ≤ 2 ^ k0 ∧ ∀ k, n ≤ 2 ^ k → k0 ≤ k
    refine ⟨by simpa using hp, ?_⟩
    intro k hk
    by_contra hlt
    have hlt : k < as.length := by omega
    have hmem : k ∈ as := by
      have h1 : (List.range (n + 1))[k]? = as[k]? := by
        rw [hsplit, List.getElem?_append_left hlt]
      have hkn : k < n + 1 := by
        have : as.length ≤ (List.range (n + 1)).length := by
          rw [hsplit]; simp
        simp at this
        omega
      rw [List.getElem?_range hkn] at h1
      exact List.mem_iff_getElem?.mpr ⟨k, h1.symm⟩
    have := has k hmem
    simp at this
    omega

/-- The capacity of a literal of `n ≥ 1` values is the smallest power of two
that is at least `n`. -/
theorem pow2_ceil_log2_spec (n : Nat) (hn : 1 ≤ n) :
    (∃ k, pow2_ceil_log2 n = 2 ^ k) ∧ n ≤ pow2_ceil_log2 n ∧
      ∀ k, n ≤ 2 ^ k → pow2_ceil_log2 n ≤ 2 ^ k := by
  unfold pow2_ceil_log2
  rw [if_neg (by omega)]
  exact ⟨⟨_, rfl⟩, (ceil_log2_spec n).1,
    fun k hk => Nat.pow_le_pow_right (by decide) ((ceil_log2_spec n).2 k hk)⟩

theorem lookup_map_instrs (l : List (Nat × BasicBlock)) (b : Nat) (f : BasicBlock → BasicBlock) :
    List.lookup b (l.map fun e => if e.1 = b then (e.1, f e.2) else e) =
      (l.lookup b).map f := by
  induction l with
  | nil => rfl
  | cons e l ih =>
    obtain ⟨a, blk⟩ := e
    by_cases hab : a = b
    · subst hab
      simp [List.lookup_cons]
    · have h1 : (b == a) = false := by simpa using (Ne.symm hab)
      simp only [List.map_cons, if_neg hab, List.lookup_cons, h1, ih]

/-- An instruction built while the builder stands in a block goes to the end
of that block and defines the next value. -/
theorem CodeGen.emit_spec (cg : CodeGen) (i : Instr) (h : cg.Ready) :
    (cg.emit i).2.Ready ∧
      (cg.emit i).2.insertion_code = cg.insertion_code ++ [(cg.next, i)] := by
  unfold CodeGen.Ready CodeGen.insertion_code at *
  cases hb : cg.insert_block with
  | none => rw [hb] at h; cases h
  | some b =>
    rw [hb] at h
    simp only [Option.bind] at h
    cases hl : List.lookup b cg.blocks with
    | none => rw [hl] at h; cases h
    | some blk =>
      simp only [CodeGen.emit, hb, Option.bind]
      rw [lookup_map_instrs cg.blocks b
        (fun blk => { blk with instrs := blk.instrs ++ [(cg.next, i)] }), hl]
      exact ⟨rfl, rfl⟩

theorem store_elements_spec (element_type data_array_type : LType) (data_alloc : Value)
    (args : List Value) (i : Nat) (cg : CodeGen) (h : cg.Ready) :
    (store_elements element_type data_array_type data_alloc args i cg).Ready ∧
      ∃ code, (store_elements element_type data_array_type data_alloc args i cg).insertion_code =
        cg.insertion_code ++ code := by
  induction args generalizing i cg with
  | nil => exact ⟨h, [], by simp [store_elements]⟩
  | cons arg rest ih =>
    rw [store_elements]
    have e1 := CodeGen.emit_spec cg (.load element_type (.value arg) []) h
    have e2 := CodeGen.emit_spec _ (.inbounds_gep data_array_type (.value data_alloc)
      [.const_int 32 0, .const_int 32 i] "elem_ptr".toList) e1.1
    have e3 := CodeGen.emit_spec _ (.store (.value (cg.emit (.load element_type (.value arg) [])).1)
      (.value ((cg.emit (.load element_type (.value arg) [])).2.emit
        (.inbounds_gep data_array_type (.value data_alloc)
          [.const_int 32 0, .const_int 32 i] "elem_ptr".toList)).1)) e2.1
    obtain ⟨hr, code, hcode⟩ := ih (i + 1) _ e3.1
    refine ⟨hr, [(cg.next, .load element_type (.value arg) []),
      (cg.next + 1, .inbounds_gep data_array_type (.value data_alloc)
        [.const_int 32 0, .const_int 32 i] "elem_ptr".toList),
      (cg.next + 2, .store (.value cg.next) (.value (cg.next + 1)))] ++ code, ?_⟩
    rw [hcode, e3.2, e2.2, e1.2]
    simp only [List.append_assoc, List.cons_append, List.nil_append]
    rfl

theorem CodeGen.emit_ready (cg : CodeGen) (i : Instr) (h : cg.Ready) : (cg.emit i).2.Ready :=
  (CodeGen.emit_spec cg i h).1

theorem CodeGen.emit_code (cg : CodeGen) (i : Instr) (h : cg.Ready) :
    (cg.emit i).2.insertion_code = cg.insertion_code ++ [(cg.next, i)] :=
  (CodeGen.emit_spec cg i h).2

/-- The code of `write_header`: five instructions at the end of the insertion
block, two of them the stores of `size` and `capacity`. -/
theorem write_header_code (struct_name : Str) (size capacity : Nat) (cg : CodeGen)
    (h : cg.Ready) :
    (write_header struct_name size capacity cg).2.Ready ∧
    (write_header struct_name size capacity cg).2.insertion_code = cg.insertion_code ++
      [(cg.next, .alloca .array_struct struct_name),
       (cg.next + 1, .struct_gep .array_struct (.value cg.next) 0 "size_ptr".toList),
       (cg.next + 2, .store (.const_int 32 size) (.value (cg.next + 1))),
       (cg.next + 3, .struct_gep .array_struct (.value cg.next) 1 "cap_ptr".toList),
       (cg.next + 4, .store (.const_int 32 capacity) (.value (cg.next + 3)))] := by
  have e1 := CodeGen.emit_spec cg (.alloca .array_struct struct_name) h
  have e2 := CodeGen.emit_spec _
    (.struct_gep .array_struct (.value cg.next) 0 "size_ptr".toList) e1.1
  have e3 := CodeGen.emit_spec _ (.store (.const_int 32 size) (.value (cg.next + 1))) e2.1
  have e4 := CodeGen.emit_spec _
    (.struct_gep .array_struct (.value cg.next) 1 "cap_ptr".toList) e3.1
  have e5 := CodeGen.emit_spec _ (.store (.const_int 32 capacity) (.value (cg.next + 3))) e4.1
  refine ⟨e5.1, e5.2.trans ?_⟩
  rw [e4.2, e3.2, e2.2, e1.2]
  simp only [List.append_assoc, List.cons_append, List.nil_append]
  rfl

theorem CodeGen.emit_prefix (cg : CodeGen) (i : Instr) (h : cg.Ready) :
    cg.insertion_code <+: (cg.emit i).2.insertion_code :=
  ⟨[(cg.next, i)], (CodeGen.emit_code cg i h).symm⟩

theorem write_elements_grows (element_type : LType) (args : List Value) (array_alloc : Value)
    (cg : CodeGen) (h : cg.Ready) :
    ∃ code, (write_elements element_type args array_alloc cg).2.insertion_code =
      cg.insertion_code ++ code := by
  have h6 := CodeGen.emit_spec cg (.alloca (.array element_type args.length) "data_arr".toList) h
  obtain ⟨r7, code7, h7⟩ := store_elements_spec element_type (.array element_type args.length)
    cg.next args 0 _ h6.1
  have r8 := CodeGen.emit_ready _
    (.struct_gep .array_struct (.value array_alloc) 2 "data_ptr_ptr".toList) r7
  have r9 := CodeGen.emit_ready _ (.store (.value cg.next) (.value
    (store_elements element_type (.array element_type args.length) cg.next args 0
      (cg.emit (.alloca (.array element_type args.length) "data_arr".toList)).2).next)) r8
  have r10 := CodeGen.emit_ready _ (.alloca .ptr "array_ref".toList) r9
  have p7 : (cg.emit (.alloca (.array element_type args.length) "data_arr".toList)).2.insertion_code
      <+: (store_elements element_type (.array element_type args.length) cg.next args 0
        (cg.emit (.alloca (.array element_type args.length) "data_arr".toList)).2).insertion_code :=
    ⟨code7, h7.symm⟩
  have hp : cg.insertion_code <+:
      (write_elements element_type args array_alloc cg).2.insertion_code :=
    List.IsPrefix.trans (CodeGen.emit_prefix _ _ h)
      (List.IsPrefix.trans p7
        (List.IsPrefix.trans (CodeGen.emit_prefix _ _ r7)
          (List.IsPrefix.trans (CodeGen.emit_prefix _ _ r8)
            (List.IsPrefix.trans (CodeGen.emit_prefix _ _ r9) (CodeGen.emit_prefix _ _ r10)))))
  obtain ⟨code, hcode⟩ := hp
  exact ⟨code, hcode.symm⟩

/-- C17. For every array literal whose elements gave `n ≥ 1` values
(`args`), `build_array` returns a value and writes, at the end of the
insertion block, a header in which the size stored is `n` and the capacity
stored is the smallest power of two that is at least `n` (1 for `n = 1`, 4 for
`n = 3`, 8 for `n = 5`). -/
theorem array_literal_header (mol : Molecule) (args : List Value) (st : State)
    (subject first : Particle) (rest : List Particle) (t : Str × Globals)
    (hargs : args ≠ []) (hmol : mol.atoms = subject :: first :: rest)
    (ht : get_particle_type first st.1 = .ok t) (hready : st.2.Ready) :
    (∃ result st' code, build_array mol args st = .ok (some result, mol, st') ∧
      st'.2.insertion_code = st.2.insertion_code ++
        [(st.2.next, .alloca .array_struct "array_struct".toList),
         (st.2.next + 1, .struct_gep .array_struct (.value st.2.next) 0 "size_ptr".toList),
         (st.2.next + 2, .store (.const_int 32 args.length) (.value (st.2.next + 1))),
         (st.2.next + 3, .struct_gep .array_struct (.value st.2.next) 1 "cap_ptr".toList),
         (st.2.next + 4,
           .store (.const_int 32 (pow2_ceil_log2 args.length)) (.value (st.2.next + 3)))] ++
        code) ∧
    (∃ k, pow2_ceil_log2 args.length = 2 ^ k) ∧
    args.length ≤ pow2_ceil_log2 args.length ∧
    (∀ k, args.length ≤ 2 ^ k → pow2_ceil_log2 args.length ≤ 2 ^ k) ∧
    pow2_ceil_log2 1 = 1 ∧ pow2_ceil_log2 3 = 4 ∧ pow2_ceil_log2 5 = 8 := by
  have hn : 1 ≤ args.length := by
    cases args with
    | nil => exact absurd rfl hargs
    | cons a as => simp
  obtain ⟨hpow, hle, hmin⟩ := pow2_ceil_log2_spec args.length hn
  refine ⟨?_, hpow, hle, hmin, rfl, rfl, rfl⟩
  obtain ⟨hr, hcode⟩ :=
    write_header_code "array_struct".toList args.length (pow2_ceil_log2 args.length) st.2 hready
  obtain ⟨code, hgrow⟩ := write_elements_grows (get_llvm_type t.1) args
    (write_header "array_struct".toList args.length (pow2_ceil_log2 args.length) st.2).1 _ hr
  refine ⟨(write_elements (get_llvm_type t.1) args
      (write_header "array_struct".toList args.length (pow2_ceil_log2 args.length) st.2).1
      (write_header "array_struct".toList args.length (pow2_ceil_log2 args.length) st.2).2).1,
    (t.2, (write_elements (get_llvm_type t.1) args
      (write_header "array_struct".toList args.length (pow2_ceil_log2 args.length) st.2).1
      (write_header "array_struct".toList args.length (pow2_ceil_log2 args.length) st.2).2).2),
    code, ?_, ?_⟩
  · unfold build_array
    rw [if_neg hargs, hmol]
    simp only [ht, Except.bind]
  · simp only []
    rw [hgrow, hcode]

/-- Witness of `array_literal_header`: the literal `[7 8 9]`, its elements
compiled into the values `1`, `3` and `5`, has the size 3 and the capacity
4 stored. -/
theorem array_literal_header_witness :
    ∃ result st' code,
      build_array
        ⟨[word "array".toList [], .atom ⟨"7".toList, some 1, "Int".toList, [], 0⟩,
          .atom ⟨"8".toList, some 3, "Int".toList, [], 0⟩,
          .atom ⟨"9".toList, some 5, "Int".toList, [], 0⟩], none, [], true⟩
        [1, 3, 5] State.start =
        .ok (some result,
          ⟨[word "array".toList [], .atom ⟨"7".toList, some 1, "Int".toList, [], 0⟩,
            .atom ⟨"8".toList, some 3, "Int".toList, [], 0⟩,
            .atom ⟨"9".toList, some 5, "Int".toList, [], 0⟩], none, [], true⟩, st') ∧
      st'.2.insertion_code =
        [(1, .alloca .array_struct "array_struct".toList),
         (2, .struct_gep .array_struct (.value 1) 0 "size_ptr".toList),
         (3, .store (.const_int 32 3) (.value 2)),
         (4, .struct_gep .array_struct (.value 1) 1 "cap_ptr".toList),
         (5, .store (.const_int 32 4) (.value 4))] ++ code :=
  (array_literal_header _ [1, 3, 5] State.start (word "array".toList [])
    (.atom ⟨"7".toList, some 1, "Int".toList, [], 0⟩)
    [.atom ⟨"8".toList, some 3, "Int".toList, [], 0⟩,
     .atom ⟨"9".toList, some 5, "Int".toList, [], 0⟩]
    ("Int".toList, State.start.1) (by decide) rfl rfl rfl).1

set_option smartUnfolding false in
/-- C17, as stated, fails for `n = 0`: compiling the empty literal `[]` at the
start of `main` gives the literal no value and writes nothing, so no
capacity of at least 1 and no size 0 is stored. -/
theorem empty_literal_writes_no_header :
    (compile (run_builder no_others) example_empty_literal State.start).map
      (fun r => (get_stored_in r.1, r.2.2.blocks)) =
    .ok (none, [(0, { name := "entry".toList, parent := 0, instrs := [] })]) :=
  rfl

/-! ### Arrays at run time: growth, append, insert -/

theorem element_slot_ok (data : List (Option Nat)) (index : Nat)
    (h1 : index < 2 ^ 31) (h2 : index < data.length) : element_slot data index = .ok index := by
  have ho : element_offset index = (index : Int) := by
    unfold element_offset
    rw [if_pos h1]
  unfold element_slot
  rw [ho, if_pos ⟨Int.ofNat_nonneg _, by exact_mod_cast h2⟩]
  rfl

/-- The growth step of a non-string array that is full. -/
theorem grow_of_full (a : ArrayObject) (heq : a.size = a.capacity)
    (hcap : a.capacity ≤ a.data.length) (hint : a.capacity < 2 ^ 31) :
    a.grow_if_needed false =
      .ok { a with capacity := max 1 (2 * a.capacity),
                   data := a.data.take a.size ++
                     List.replicate (max 1 (2 * a.capacity) - a.size) none } := by
  have hnew : (if a.capacity = 0 then 1 else (a.capacity * 2) % 2 ^ 32) =
      max 1 (2 * a.capacity) := by
    split_ifs with h0
    · omega
    · rw [Nat.mod_eq_of_lt (by omega)]
      omega
  unfold ArrayObject.grow_if_needed
  simp only [Bool.false_eq_true, if_false, heq, decide_True, if_true, hnew]
  rw [if_pos ⟨hcap, by omega⟩]

/-- No growth step for a non-string array that is not full. -/
theorem grow_of_room (a : ArrayObject) (hne : a.size ≠ a.capacity) :
    a.grow_if_needed false = .ok a := by
  unfold ArrayObject.grow_if_needed
  simp [hne]

/-- The growth step of a string: taken exactly when `size + 1 = capacity`. -/
theorem grow_of_str (a : ArrayObject) (hroom : a.size + 1 ≤ a.capacity)
    (hcap : a.capacity ≤ a.data.length) (hint : a.capacity < 2 ^ 31) :
    a.grow_if_needed true =
      .ok (if a.size + 1 = a.capacity then
          { a with capacity := 2 * a.capacity,
                   data := a.data.take a.size ++
                     List.replicate (2 * a.capacity - a.size) none }
        else a) := by
  have hmod : (a.size + 1) % 2 ^ 32 = a.size + 1 := Nat.mod_eq_of_lt (by omega)
  unfold ArrayObject.grow_if_needed
  simp only [if_true, hmod]
  by_cases heq : a.size + 1 = a.capacity
  · have hnew : (if a.capacity = 0 then 1 else (a.capacity * 2) % 2 ^ 32) = 2 * a.capacity := by
      rw [if_neg (by omega), Nat.mod_eq_of_lt (by omega)]
      omega
    rw [if_pos heq, hnew]
    have : decide (a.capacity ≤ a.size + 1) = true := by simp; omega
    rw [this, if_pos rfl, if_pos ⟨by omega, by omega⟩]
  · rw [if_neg heq]
    have : decide (a.capacity ≤ a.size + 1) = false := by simp; omega
    rw [this]
    rfl

/-! ### What a run that is defined says about the buffer -/

theorem lookup_mem {α β : Type} [BEq α] [LawfulBEq α] (l : List (α × β)) (k : α) (x : β)
    (h : l.lookup k = some x) : (k, x) ∈ l := by
  induction l with
  | nil => cases h
  | cons e l ih =>
    obtain ⟨a, b⟩ := e
    rw [List.lookup_cons] at h
    cases hk : (k == a) with
    | true =>
      rw [hk] at h
      simp only [Option.some.injEq] at h
      have : k = a := by simpa using hk
      subst this; subst h
      exact List.mem_cons_self _ _
    | false =>
      rw [hk] at h
      exact List.mem_cons_of_mem _ (ih h)

theorem Machine.run_append (a b : List (Value × Instr)) (m : Machine) :
    Machine.run (a ++ b) m = (Machine.run a m).bind (Machine.run b) := by
  induction a generalizing m with
  | nil => rfl
  | cons e a ih =>
    obtain ⟨v, i⟩ := e
    simp only [List.cons_append, Machine.run]
    cases hs : m.step v i with
    | error err => rfl
    | ok m1 => exact ih m1

/-- What was readable in `m0` below `n` is readable in a machine that agrees
with it below `n`. -/
theorem Machine.read_of_agrees (m m0 : Machine) (n : Nat) (v : Value) (x : RValue)
    (hb : m0.before n) (ha : m.agrees_below m0 n) (h : m0.read v = some x) :
    m.read v = some x := by
  unfold Machine.read at h ⊢
  cases hr : m0.registers.lookup v with
  | none => rw [hr] at h; cases h
  | some r =>
    rw [hr] at h
    have hv : v < n := hb.1 _ (lookup_mem _ _ _ hr)
    rw [ha.1 v hv, hr]
    cases r with
    | int bits k => cases h
    | float l => cases h
    | pointer base path =>
      simp only at h ⊢
      have hbase : base < n := hb.2 _ (lookup_mem _ _ _ h)
      rw [ha.2 (base, path) hbase, h]

theorem indexOf?_of_nodup (l : List Str) (k : Nat) (f : Str) (hn : l.Nodup)
    (hk : l[k]? = some f) : l.indexOf? f = some k := by
  induction l generalizing k with
  | nil => cases hk
  | cons a l ih =>
    rw [List.nodup_cons] at hn
    cases k with
    | zero =>
      simp only [List.getElem?_cons_zero, Option.some.injEq] at hk
      subst hk
      simp [List.indexOf?, List.findIdx?_cons]
    | succ k =>
      simp only [List.getElem?_cons_succ] at hk
      have hne : a ≠ f := by
        rintro rfl
        exact hn.1 (List.mem_iff_getElem?.mpr ⟨k, hk⟩)
      have := ih k hn.2 hk
      simp only [List.indexOf?] at this ⊢
      rw [List.findIdx?_cons]
      simp [hne, this]
theorem lookup_cons_self {α β : Type} [BEq α] [LawfulBEq α] (k : α) (x : β) (l : List (α × β)) :
    List.lookup k ((k, x) :: l) = some x := by
  rw [List.lookup_cons, beq_self_eq_true]

theorem lookup_cons_ne {α β : Type} [BEq α] [LawfulBEq α] (k k' : α) (x : β) (l : List (α × β))
    (h : k ≠ k') : List.lookup k ((k', x) :: l) = List.lookup k l := by
  rw [List.lookup_cons]
  have : (k == k') = false := by simpa using h
  rw [this]

/-- What `m.read v = some x` says. -/
theorem Machine.read_eq_some (m : Machine) (v : Value) (x : RValue) (h : m.read v = some x) :
    ∃ b path, m.registers.lookup v = some (.pointer b path) ∧
      m.memory.lookup (b, path) = some x := by
  unfold Machine.read at h
  cases hr : m.registers.lookup v with
  | none => rw [hr] at h; cases h
  | some r =>
    rw [hr] at h
    cases r with
    | int bits n => cases h
    | float l => cases h
    | pointer b path => exact ⟨b, path, rfl, h⟩

/-- The loop that fills the fields of a struct instance `S`, and what its code
does when it runs on a machine that holds the operands' values below `S`. -/
theorem store_fields_run (sdef : StructDef) (S : Nat) (m0 : Machine) (hb : m0.before S) :
    ∀ (operands : List Particle) (i : Nat) (cg : CodeGen) (m : Machine),
      cg.Ready → S < cg.next →
      m.registers.lookup S = some (.pointer S []) → m.agrees_below m0 S →
      (∀ j p, operands[j]? = some p → ∃ v T x, get_stored_in p = some v ∧
        sdef.field_types[i + j]? = some T ∧ m0.read v = some x ∧
        x.has_type (get_llvm_type T) = true) →
      ∃ cg' code m', store_fields sdef S operands i cg = .ok cg' ∧ cg'.Ready ∧
        cg'.insertion_code = cg.insertion_code ++ code ∧ cg.next ≤ cg'.next ∧
        Machine.run code m = .ok m' ∧
        m'.registers.lookup S = some (.pointer S []) ∧ m'.agrees_below m0 S ∧
        (∀ j p, operands[j]? = some p →
          m'.memory.lookup (S, [i + j]) = (get_stored_in p).bind m0.read) ∧
        (∀ k, k < i → m'.memory.lookup (S, [k]) = m.memory.lookup (S, [k]))
  | [], i, cg, m, hready, _, hS, hagree, _ =>
    ⟨cg, [], m, rfl, hready, (List.append_nil _).symm, Nat.le_refl _, rfl, hS, hagree,
      fun j p h => by simp at h, fun _ _ => rfl⟩
  | p :: rest, i, cg, m, hready, hlt, hS, hagree, hops => by
    obtain ⟨v, T, x, hv, hT, hread0, hx⟩ := hops 0 p (by simp)
    have hT' : sdef.field_types.get? i = some T := by
      rw [List.get?_eq_getElem?]; simpa using hT
    have hread := Machine.read_of_agrees m m0 S v x hb hagree hread0
    obtain ⟨b, path, hreg, hcell⟩ := Machine.read_eq_some m v x hread
    have e1 := CodeGen.emit_spec cg (.load (get_llvm_type T) (.value v) []) hready
    have e2 := CodeGen.emit_spec _
      (.struct_gep (.created sdef.llvm_type) (.value S) i []) e1.1
    have e3 := CodeGen.emit_spec _ (.store (.value cg.next) (.value (cg.next + 1))) e2.1
    have hc0 : S ≠ cg.next := by omega
    have hc1 : S ≠ cg.next + 1 := by omega
    have hc01 : cg.next ≠ cg.next + 1 := by omega
    -- the three instructions, run
    have hrun3 : Machine.run
        [(cg.next, .load (get_llvm_type T) (.value v) []),
         (cg.next + 1, .struct_gep (.created sdef.llvm_type) (.value S) i []),
         (cg.next + 2, .store (.value cg.next) (.value (cg.next + 1)))] m =
        .ok { registers := (cg.next + 1, .pointer S [i]) :: (cg.next, x) :: m.registers,
              memory := ((S, [i]), x) :: m.memory } := by
      simp only [Machine.run, Machine.step, Machine.address, Machine.operand, hreg, hcell,
        Except.bind, hx, if_true, Except.map, lookup_cons_self, lookup_cons_ne _ _ _ _ hc0,
        lookup_cons_ne _ _ _ _ hc01, hS, List.nil_append]
    obtain ⟨cg', code, m', hstore, hready', hcode, hnext, hrun, hS', hagree', hfields, hkeep⟩ :=
      store_fields_run sdef S m0 hb rest (i + 1)
        (((cg.emit (.load (get_llvm_type T) (.value v) [])).2.emit
            (.struct_gep (.created sdef.llvm_type) (.value S) i [])).2.emit
          (.store (.value cg.next) (.value (cg.next + 1)))).2
        { registers := (cg.next + 1, .pointer S [i]) :: (cg.next, x) :: m.registers,
          memory := ((S, [i]), x) :: m.memory }
        e3.1 (by show S < cg.next + 1 + 1 + 1; omega)
        (by
          show List.lookup S ((cg.next + 1, _) :: (cg.next, x) :: m.registers) = _
          rw [lookup_cons_ne _ _ _ _ hc1, lookup_cons_ne _ _ _ _ hc0]
          exact hS)
        ⟨fun w hw => by
            show List.lookup w ((cg.next + 1, _) :: (cg.next, x) :: m.registers) = _
            rw [lookup_cons_ne _ _ _ _ (by omega), lookup_cons_ne _ _ _ _ (by omega)]
            exact hagree.1 w hw,
          fun a ha => by
            show List.lookup a (((S, [i]), x) :: m.memory) = _
            rw [lookup_cons_ne _ _ _ _ (by
              intro h
              rw [h] at ha
              exact Nat.lt_irrefl _ ha)]
            exact hagree.2 a ha⟩
        (fun j q hq => by
          have := hops (j + 1) q (by simpa using hq)
          rwa [show i + (j + 1) = i + 1 + j by omega] at this)
    refine ⟨cg',
      [(cg.next, .load (get_llvm_type T) (.value v) []),
       (cg.next + 1, .struct_gep (.created sdef.llvm_type) (.value S) i []),
       (cg.next + 2, .store (.value cg.next) (.value (cg.next + 1)))] ++ code, m',
      ?_, hready', ?_, ?_, ?_, hS', hagree', ?_, ?_⟩
    · rw [store_fields]
      simp only [hT', hv, Operand.of]
      exact hstore
    · rw [hcode, e3.2, e2.2, e1.2]
      simp only [List.append_assoc]
      rfl
    · have : cg.next + 1 + 1 + 1 ≤ cg'.next := hnext
      omega
    · rw [Machine.run_append, hrun3]
      exact hrun
    · intro j q hq
      cases j with
      | zero =>
        simp only [List.getElem?_cons_zero, Option.some.injEq] at hq
        subst hq
        rw [Nat.add_zero, hkeep i (by omega), hv]
        show List.lookup (S, [i]) (((S, [i]), x) :: m.memory) = m0.read v
        rw [lookup_cons_self, hread0]
      | succ j =>
        have := hfields j q (by simpa using hq)
        rwa [show i + 1 + j = i + (j + 1) by omega] at this
    · intro k hk
      rw [hkeep k (by omega)]
      show List.lookup (S, [k]) (((S, [i]), x) :: m.memory) = _
      rw [lookup_cons_ne _ _ _ _ (by
        intro h
        simp only [Prod.mk.injEq, List.cons.injEq, and_true, true_and] at h
        omega)]
/-- The code of a member access and what it does when it runs: the location
that `evaluate(Atom&)` returns holds what the field holds. -/
theorem member_access_reads_field (atom : Atom) (st : State) (obj : MemObject) (slot : Value)
    (sdef : StructDef) (k : Nat) (T : Str) (m : Machine) (S : Value) (x : RValue)
    (hmem : atom.member_access ≠ [])
    (hobj : st.1.object_registry.lookup atom.identifier = some obj)
    (hslot : obj.value = some slot)
    (hsdef : st.1.struct_registry.lookup obj.type = some sdef)
    (hnodup : sdef.field_names.Nodup)
    (hname : sdef.field_names[k]? = some atom.member_access)
    (htype : sdef.field_types[k]? = some T)
    (hptr : ∀ name, st.1.struct_registry.count name = true → get_llvm_type name = .ptr)
    (hready : st.2.Ready)
    (hhandle : m.read slot = some (.pointer S []))
    (hfield : m.memory.lookup (S, [k]) = some x)
    (hx : x.has_type (get_llvm_type T) = true) :
    ∃ res cg' code m',
      evaluate_atom atom st =
        .ok (some res, { atom with stored_in := some res, type := T }, (st.1, cg')) ∧
      cg'.insertion_code = st.2.insertion_code ++ code ∧
      code.take 2 =
        [(st.2.next, .load .ptr (.value slot) []),
         (st.2.next + 1, .struct_gep (.created sdef.llvm_type) (.value st.2.next) k [])] ∧
      Machine.run code m = .ok m' ∧ m'.read res = some x := by
  have hidx := indexOf?_of_nodup _ _ _ hnodup hname
  have htype' : sdef.field_types.get? k = some T := by rw [List.get?_eq_getElem?]; exact htype
  -- the handle in the slot
  obtain ⟨b, path, hreg, hcell⟩ : ∃ b path, m.registers.lookup slot = some (.pointer b path) ∧
      m.memory.lookup (b, path) = some (.pointer S []) := by
    unfold Machine.read at hhandle
    cases hr : m.registers.lookup slot with
    | none => rw [hr] at hhandle; cases hhandle
    | some r =>
      rw [hr] at hhandle
      cases r with
      | int bits n => cases hhandle
      | float l => cases hhandle
      | pointer b path => exact ⟨b, path, rfl, hhandle⟩
  have hlook : ∀ (v : Value) (r : RValue) (regs : List (Value × RValue)),
      List.lookup v ((v, r) :: regs) = some r := by
    intro v r regs
    rw [List.lookup_cons, beq_self_eq_true]
  have hskip : ∀ (v w : Value) (r : RValue) (regs : List (Value × RValue)), v ≠ w →
      List.lookup v ((w, r) :: regs) = List.lookup v regs := by
    intro v w r regs hne
    rw [List.lookup_cons]
    have : (v == w) = false := by simpa using hne
    rw [this]
  have e1 := CodeGen.emit_spec st.2 (.load .ptr (.value slot) []) hready
  have e2 := CodeGen.emit_spec _
    (.struct_gep (.created sdef.llvm_type) (.value st.2.next) k []) e1.1
  have e3 := CodeGen.emit_spec _ (.load .ptr (.value (st.2.next + 1)) []) e2.1
  have e4 := CodeGen.emit_spec _ (.alloca .ptr []) e3.1
  have e5 := CodeGen.emit_spec _ (.store (.value (st.2.next + 2)) (.value (st.2.next + 3))) e4.1
  -- the first two instructions, run
  have hrun2 : Machine.run
      [(st.2.next, .load .ptr (.value slot) []),
       (st.2.next + 1, .struct_gep (.created sdef.llvm_type) (.value st.2.next) k [])] m =
      .ok { m with registers :=
              (st.2.next + 1, .pointer S [k]) :: (st.2.next, .pointer S []) :: m.registers } := by
    simp only [Machine.run, Machine.step, Machine.address, Machine.operand, hreg, hcell,
      Except.bind, RValue.has_type, if_true, hlook, Except.map, List.nil_append]
  unfold evaluate_atom evaluate_member
  rw [if_neg hmem]
  simp only [hobj, hsdef, hidx, htype', hslot, Operand.of]
  by_cases hshape : T = "Str".toList ∨ st.1.struct_registry.count T = true
  · have hTptr : get_llvm_type T = .ptr := by
      rcases hshape with h | h
      · rw [h]; rfl
      · exact hptr T h
    rw [hTptr] at hx
    rw [if_pos hshape]
    refine ⟨st.2.next + 3, _,
      [(st.2.next, .load .ptr (.value slot) []),
       (st.2.next + 1, .struct_gep (.created sdef.llvm_type) (.value st.2.next) k [])] ++
      [(st.2.next + 2, .load .ptr (.value (st.2.next + 1)) []),
       (st.2.next + 3, .alloca .ptr []),
       (st.2.next + 4, .store (.value (st.2.next + 2)) (.value (st.2.next + 3)))],
      { registers := (st.2.next + 3, .pointer (st.2.next + 3) []) :: (st.2.next + 2, x) ::
          (st.2.next + 1, .pointer S [k]) :: (st.2.next, .pointer S []) :: m.registers,
        memory := ((st.2.next + 3, []), x) :: m.memory },
      rfl, ?_, ?_, ?_, ?_⟩
    · exact e5.2.trans (by rw [e4.2, e3.2, e2.2, e1.2]; simp only [List.append_assoc]; rfl)
    · rfl
    · rw [Machine.run_append, hrun2]
      have h23 : st.2.next + 2 ≠ st.2.next + 3 := by omega
      simp only [Machine.run, Machine.step, Machine.address, Machine.operand, Except.bind,
        hlook, hskip _ _ _ _ h23, hfield, hx, if_true, Except.map]
    · unfold Machine.read
      simp only [hlook]
      rw [List.lookup_cons, beq_self_eq_true]
  · rw [if_neg hshape]
    refine ⟨st.2.next + 1, _,
      [(st.2.next, .load .ptr (.value slot) []),
       (st.2.next + 1, .struct_gep (.created sdef.llvm_type) (.value st.2.next) k [])],
      _, rfl, ?_, rfl, hrun2, ?_⟩
    · exact e2.2.trans (by rw [e1.2]; simp only [List.append_assoc]; rfl)
    · unfold Machine.read
      simp only [hlook]
      exact hfield

/-- The code of a struct literal of a non-extern struct and what it does when
it runs: the fields of the new instance hold the operands' values, and the
location that the literal returns holds the handle of the instance. -/
theorem struct_literal_fills_fields (sdef : StructDef) (operands : List Particle)
    (cg : CodeGen) (m0 : Machine)
    (hext : StructDef.is_extern sdef = false) (hready : cg.Ready) (hb : m0.before cg.next)
    (hops : ∀ (j : Nat) p, operands[j]? = some p → ∃ v T x, get_stored_in p = some v ∧
      sdef.field_types[j]? = some T ∧ m0.read v = some x ∧
      x.has_type (get_llvm_type T) = true) :
    ∃ ref cg' code m', build_struct_literal sdef operands cg = .ok (ref, cg') ∧
      cg'.insertion_code = cg.insertion_code ++ code ∧
      Machine.run code m0 = .ok m' ∧ m'.read ref = some (.pointer cg.next []) ∧
      ∀ (j : Nat) p, operands[j]? = some p →
        m'.memory.lookup (cg.next, [j]) = (get_stored_in p).bind m0.read := by
  have e1 := CodeGen.emit_spec cg (.alloca (.created sdef.llvm_type) "struct_instance".toList)
    hready
  obtain ⟨cg1, code, m1, hstore, hready1, hcode, hnext, hrun, hreg, -, hfields, -⟩ :=
    store_fields_run sdef cg.next m0 hb operands 0
      (cg.emit (.alloca (.created sdef.llvm_type) "struct_instance".toList)).2
      { m0 with registers := (cg.next, .pointer cg.next []) :: m0.registers }
      e1.1 (Nat.lt_succ_self _) (lookup_cons_self _ _ _)
      ⟨fun w hw => lookup_cons_ne _ _ _ _ (by omega), fun _ _ => rfl⟩
      (fun j p hp => by simpa using hops j p hp)
  have hnext' : cg.next + 1 ≤ cg1.next := hnext
  have e2 := CodeGen.emit_spec cg1 (.alloca .ptr "struct_ref".toList) hready1
  have e3 := CodeGen.emit_spec _ (.store (.value cg.next) (.value cg1.next)) e2.1
  refine ⟨cg1.next,
    ((cg1.emit (.alloca .ptr "struct_ref".toList)).2.emit
      (.store (.value cg.next) (.value cg1.next))).2,
    [(cg.next, .alloca (.created sdef.llvm_type) "struct_instance".toList)] ++ code ++
      [(cg1.next, .alloca .ptr "struct_ref".toList),
       (cg1.next + 1, .store (.value cg.next) (.value cg1.next))],
    { registers := (cg1.next, .pointer cg1.next []) :: m1.registers,
      memory := ((cg1.next, []), .pointer cg.next []) :: m1.memory },
    ?_, ?_, ?_, ?_, ?_⟩
  · have hstore' : store_fields sdef
        (cg.emit (.alloca (.created sdef.llvm_type) "struct_instance".toList)).1 operands 0
        (cg.emit (.alloca (.created sdef.llvm_type) "struct_instance".toList)).2 = .ok cg1 :=
      hstore
    unfold build_struct_literal
    simp only [hstore', Except.map, hext, Bool.false_eq_true, if_false]
    rfl
  · rw [e3.2, e2.2, hcode, e1.2]
    simp only [List.append_assoc]
    rfl
  · rw [Machine.run_append, Machine.run_append]
    have hfirst : Machine.run
        [(cg.next, .alloca (.created sdef.llvm_type) "struct_instance".toList)] m0 =
        .ok { m0 with registers := (cg.next, .pointer cg.next []) :: m0.registers } := rfl
    rw [hfirst]
    simp only [Except.bind]
    rw [hrun]
    have hne : cg.next ≠ cg1.next := by omega
    simp only [Machine.run, Machine.step, Machine.address, Machine.operand, Except.bind,
      Except.map, lookup_cons_self, lookup_cons_ne _ _ _ _ hne, hreg]
  · unfold Machine.read
    simp only [lookup_cons_self]
  · intro j p hp
    have := hfields j p hp
    rw [Nat.zero_add] at this
    rw [← this]
    exact lookup_cons_ne _ _ _ _ (by
      intro h
      simp only [Prod.mk.injEq] at h
      omega)

/-- C22. A struct literal of a registered non-extern struct, with operands
whose locations hold values of the declared field types: the code of the
literal allocates an instance `S` and stores the value of operand `j` into
field `j`, and the location that the literal returns holds the handle of `S`.
A member access `owner>f`, where `owner` is a variable whose slot holds the
handle of `S` and `f` is the name of field `k` (field names are distinct, and
no struct has the name of a primitive type): `evaluate(Atom&)` computes the
location of field `k` of `S` (`getelementptr` with the index `k`), sets the
type of the atom to the declared type of the field, and returns a location
that holds what field `k` holds. -/
theorem struct_field_round_trip (sdef : StructDef) (operands : List Particle) (cg : CodeGen)
    (m0 : Machine)
    (hext : StructDef.is_extern sdef = false) (hnodup : sdef.field_names.Nodup)
    (hready : cg.Ready) (hb : m0.before cg.next)
    (hops : ∀ (j : Nat) p, operands[j]? = some p → ∃ v T x, get_stored_in p = some v ∧
      sdef.field_types[j]? = some T ∧ m0.read v = some x ∧
      x.has_type (get_llvm_type T) = true) :
    ∃ ref cg1 code1 m1 S,
      build_struct_literal sdef operands cg = .ok (ref, cg1) ∧
      cg1.insertion_code = cg.insertion_code ++ code1 ∧
      Machine.run code1 m0 = .ok m1 ∧
      m1.read ref = some (.pointer S []) ∧
      (∀ (j : Nat) p, operands[j]? = some p →
        m1.memory.lookup (S, [j]) = (get_stored_in p).bind m0.read) ∧
      ∀ (atom : Atom) (st : State) (obj : MemObject) (slot : Value) (k : Nat) (T : Str)
        (m : Machine) (x : RValue),
        atom.member_access ≠ [] →
        st.1.object_registry.lookup atom.identifier = some obj → obj.value = some slot →
        st.1.struct_registry.lookup obj.type = some sdef →
        sdef.field_names[k]? = some atom.member_access → sdef.field_types[k]? = some T →
        (∀ name, st.1.struct_registry.count name = true → get_llvm_type name = .ptr) →
        st.2.Ready →
        m.read slot = some (.pointer S []) → m.memory.lookup (S, [k]) = some x →
        x.has_type (get_llvm_type T) = true →
        ∃ res cg' code m',
          evaluate_atom atom st =
            .ok (some res, { atom with stored_in := some res, type := T }, (st.1, cg')) ∧
          cg'.insertion_code = st.2.insertion_code ++ code ∧
          code.take 2 =
            [(st.2.next, .load .ptr (.value slot) []),
             (st.2.next + 1,
               .struct_gep (.created sdef.llvm_type) (.value st.2.next) k [])] ∧
          Machine.run code m = .ok m' ∧ m'.read res = some x := by
  obtain ⟨ref, cg1, code1, m1, h1, h2, h3, h4, h5⟩ :=
    struct_literal_fills_fields sdef operands cg m0 hext hready hb hops
  exact ⟨ref, cg1, code1, m1, cg.next, h1, h2, h3, h4, h5,
    fun atom st obj slot k T m x hmem hobj hslot hsdef hname htype hptr hr hhandle hfield hx =>
      member_access_reads_field atom st obj slot sdef k T m cg.next x hmem hobj hslot hsdef
        hnodup hname htype hptr hr hhandle hfield hx⟩

/-- Witness of `struct_field_round_trip`: the literal `P:[7]` of the struct
`P` with the field `Int:a`, after the operand `7` was compiled into the slot
`1`: field `0` of the instance holds `7`. -/
theorem struct_field_round_trip_witness :
    ∃ ref cg1 code1 m1 S,
      build_struct_literal example_struct [.atom ⟨"7".toList, some 1, "Int".toList, [], 0⟩]
        example_operand_code = .ok (ref, cg1) ∧
      Machine.run code1 example_operand_machine = .ok m1 ∧
      m1.read ref = some (.pointer S []) ∧
      m1.memory.lookup (S, [0]) = some (.int 32 7) := by
  obtain ⟨ref, cg1, code1, m1, S, h1, -, h3, h4, h5, -⟩ :=
    struct_field_round_trip example_struct [.atom ⟨"7".toList, some 1, "Int".toList, [], 0⟩]
      example_operand_code example_operand_machine rfl (by decide) rfl (by decide)
      (fun j p hp => by
        cases j with
        | zero =>
          simp only [List.getElem?_cons_zero, Option.some.injEq] at hp
          subst hp
          exact ⟨1, "Int".toList, .int 32 7, rfl, rfl, rfl, rfl⟩
        | succ j => simp at hp)
  exact ⟨ref, cg1, code1, m1, S, h1, h3, h4, h5 0 _ rfl⟩

set_option smartUnfolding false in
/-- The example of C22, run through `main`: the program
`{(struct Person:[Str:name Int:age Bool:friend])
(def Person:bob Person:["bob" 30 true]) bob>name bob>age bob>friend}`.
The three member accesses are the last instructions of `main` before its
`ret`, and their results are the values `41`, `44` and `46`.  When the block
runs, the location `41` holds the handle of the string of size `3` with the
characters `b`, `o`, `b` and a zero byte (object `2`, buffer `7`), the
location `44` holds the `i32` `30`, and the location `46` holds the `i1`
`1`. -/
theorem person_fields_read_back : ∀ others,
    (compile_source (run_builder others)
        ("\x7b(struct Person:[Str:name Int:age Bool:friend]) " ++
          "(def Person:bob Person:[\"bob\" 30 true]) bob>name bob>age bob>friend\x7d").toList).map
      (fun st =>
        ((st.2.blocks.lookup 0).map fun b => b.instrs.drop 37,
          (st.2.blocks.lookup 0).map fun b =>
            (Machine.run b.instrs.dropLast Machine.empty).map fun m =>
              (m.read 41, m.memory.lookup (2, [0]), m.memory.lookup (2, [2]),
                [0, 1, 2, 3].map (fun i => m.memory.lookup (7, [i])), m.read 44, m.read 46))) =
    .ok
      (some [(38, .load .ptr (.value 1) []),
             (39, .struct_gep (.created (some 0)) (.value 38) 0 []),
             (40, .load .ptr (.value 39) []),
             (41, .alloca .ptr []),
             (42, .store (.value 40) (.value 41)),
             (43, .load .ptr (.value 1) []),
             (44, .struct_gep (.created (some 0)) (.value 43) 1 []),
             (45, .load .ptr (.value 1) []),
             (46, .struct_gep (.created (some 0)) (.value 45) 2 []),
             (47, .ret (some (.const_int 32 0)))],
        some (.ok
          (some (.pointer 2 []), some (.int 32 3), some (.pointer 7 []),
            [some (.int 8 98), some (.int 8 111), some (.int 8 98), some (.int 8 0)],
            some (.int 32 30), some (.int 1 1)))) :=
  fun _ => rfl

/-! ## Entries of the struct registry -/

set_option smartUnfolding false in
/-- C23. The program `{(extern-struct A [Int:x]) (struct A [Char:y])}`, which
declares `A` twice, in the struct-collection pass: after the first form `A`
has the field `x` of type `Int` and is an extern struct; the second form
replaces the entry, and `A` has the field `y` of type `Char` and is not an
extern struct. -/
theorem second_declaration_replaces_struct_entry :
    ((lexparse "\x7b(extern-struct A [Int:x])\x7d".toList).bind fun root =>
        collect_struct_declarations (.molecule root) (Globals.initial, CodeGen.empty)).map
      (fun st => st.1.struct_registry) =
      .ok [("A".toList,
        { name := "A".toList, field_names := ["x".toList], field_types := ["Int".toList],
          llvm_type := some 0, is_extern := true })] ∧
    ((lexparse "\x7b(extern-struct A [Int:x]) (struct A [Char:y])\x7d".toList).bind fun root =>
        collect_struct_declarations (.molecule root) (Globals.initial, CodeGen.empty)).map
      (fun st => st.1.struct_registry) =
      .ok [("A".toList,
        { name := "A".toList, field_names := ["y".toList], field_types := ["Char".toList],
          llvm_type := some 1, is_extern := false })] :=
  ⟨rfl, rfl⟩

/-! ## The memoized type of a molecule -/

/-- The overload path of `evaluate(Molecule)`: with the first matching
declared candidate `cand`, the call of its builder and then the assignment of
the value and of the type that its type-inference routine returns. -/
theorem evaluate_selected {σ : Type}
    (run : Build → Molecule → List Value → Globals × σ → Except Fault (Evaluated σ))
    (mol : Molecule) (subj : Atom) (operands : List Particle) (st : Globals × σ)
    (pre post : List Str) (cand : Str) (fn : Function) (tys : List Str) (g' : Globals)
    (hmol : mol.atoms = .atom subj :: operands)
    (hreg : st.1.overload_registry.lookup subj.identifier = some (pre ++ cand :: post))
    (htys : arg_types operands st.1 = .ok (tys, g'))
    (hpre : ∀ c ∈ pre, ∀ fc, st.1.INTRINSICS.lookup c = some fc →
      ¬ExactMatch fc.param_types tys)
    (hfn : st.1.INTRINSICS.lookup cand = some fn)
    (hmatch : ExactMatch fn.param_types tys) :
    evaluate run mol st =
      (run fn.build mol (operands.filterMap get_stored_in) (g', st.2)).bind fun r =>
        (type_inference fn.type_inference r.2.1.atoms.tail r.2.2.1).bind fun t =>
          .ok (r.1, { r.2.1 with stored_in := r.1, type := t.1 }, (t.2, r.2.2.2)) := by
  have hI : g'.INTRINSICS = st.1.INTRINSICS := (arg_types_frame operands st.1 _ htys).1.1
  rw [← hI] at hpre hfn
  unfold evaluate
  rw [hmol]
  simp only [hreg, htys, Except.bind]
  rw [try_overloads_skip run mol _ tys (g', st.2) pre (cand :: post) hpre]
  simp only [try_overloads, hfn, (signature_matches_iff _ _).mpr hmatch, if_true]
  rfl

/-- C24 (amended). A molecule whose `type` field is not empty.  `get_type`
returns the field and leaves the registries as they are, without calling a
type-inference routine.  `evaluate(Molecule)` leaves the field as it was on
every path on which no overload candidate is selected (the subject has no
registered overloads, or none of them is a declared operation whose parameter
types equal the operands' types `arg_types operands`; the builders get the
molecule by reference and are taken to leave the field alone).  On the
overload path, where `cand` is the first registered candidate that is a
declared operation matching the operands' types, `evaluate` returns exactly
when the builder of `cand` and its type-inference routine (called on the
operands as the builder left them) return, and the field then holds what the
routine returned, whatever it held before. -/
theorem memoized_type_kept_unless_overload {σ : Type}
    (run : Build → Molecule → List Value → Globals × σ → Except Fault (Evaluated σ))
    (mol : Molecule) (hty : mol.type ≠ [])
    (hrun : ∀ b m args st r, run b m args st = .ok r → r.2.1.type = m.type) :
    (∀ g, get_particle_type (.molecule mol) g = .ok (mol.type, g)) ∧
    (∀ st r, evaluate run mol st = .ok r →
      (∀ subj operands candidates tys g', mol.atoms = .atom subj :: operands →
        st.1.overload_registry.lookup subj.identifier = some candidates →
        arg_types operands st.1 = .ok (tys, g') →
        ∀ c ∈ candidates, ∀ fc, st.1.INTRINSICS.lookup c = some fc →
          ¬ExactMatch fc.param_types tys) →
      r.2.1.type = mol.type) ∧
    (∀ st r subj operands pre cand post fn tys g',
      mol.atoms = .atom subj :: operands →
      st.1.overload_registry.lookup subj.identifier = some (pre ++ cand :: post) →
      arg_types operands st.1 = .ok (tys, g') →
      (∀ c ∈ pre, ∀ fc, st.1.INTRINSICS.lookup c = some fc →
        ¬ExactMatch fc.param_types tys) →
      st.1.INTRINSICS.lookup cand = some fn → ExactMatch fn.param_types tys →
      (evaluate run mol st = .ok r ↔
        ∃ r0 t, run fn.build mol (operands.filterMap get_stored_in) (g', st.2) = .ok r0 ∧
          type_inference fn.type_inference r0.2.1.atoms.tail r0.2.2.1 = .ok t ∧
          r = (r0.1, { r0.2.1 with stored_in := r0.1, type := t.1 }, (t.2, r0.2.2.2)))) := by
  refine ⟨?_, ?_, ?_⟩
  · intro g
    obtain ⟨atoms, stored_in, type, eval⟩ := mol
    have hty' : type ≠ [] := hty
    cases atoms with
    | nil => simp only [get_particle_type]; rw [if_pos hty']
    | cons subject operands =>
      cases subject with
      | atom subj => simp only [get_particle_type]; rw [if_pos hty']
      | molecule m => simp only [get_particle_type]; rw [if_pos hty']
  · intro st r h hno
    have hfall : ∀ (args : List Value) (fn_name : Str) (s : Globals × σ),
        evaluate_fallback run mol args fn_name s = .ok r → r.2.1.type = mol.type := by
      intro args fn_name s hf
      unfold evaluate_fallback at hf
      cases hl : s.1.INTRINSICS.lookup fn_name with
      | none =>
        rw [hl] at hf
        simp only [Except.ok.injEq] at hf
        rw [← hf]
      | some fn =>
        rw [hl] at hf
        simp only at hf
        cases hr : run fn.build mol args s with
        | error e => rw [hr] at hf; cases hf
        | ok r0 =>
          rw [hr] at hf
          simp only [Except.map, Except.ok.injEq] at hf
          rw [← hf]
          exact hrun fn.build mol args s r0 hr
    unfold evaluate at h
    cases hatoms : mol.atoms with
    | nil => rw [hatoms] at h; cases h
    | cons subject operands =>
      rw [hatoms] at h
      cases subject with
      | molecule m =>
        simp only [Except.ok.injEq] at h
        rw [← h]
      | atom subj =>
        simp only at h
        cases hreg : st.1.overload_registry.lookup subj.identifier with
        | none =>
          rw [hreg] at h
          exact hfall _ _ _ h
        | some candidates =>
          rw [hreg] at h
          simp only at h
          cases hat : arg_types operands st.1 with
          | error e => rw [hat] at h; cases h
          | ok a =>
            rw [hat] at h
            simp only [Except.bind] at h
            have hI : a.2.INTRINSICS = st.1.INTRINSICS :=
              (arg_types_frame operands st.1 _ hat).1.1
            have hnone := try_overloads_skip run mol (operands.filterMap get_stored_in) a.1
              (a.2, st.2) candidates [] (by
                intro c hc fc hfc
                rw [hI] at hfc
                exact hno subj operands candidates a.1 a.2 hatoms hreg hat c hc fc hfc)
            rw [List.append_nil] at hnone
            rw [hnone] at h
            exact hfall _ _ _ h
  · intro st r subj operands pre cand post fn tys g' hmol hreg htys hpre hfn hmatch
    rw [evaluate_selected run mol subj operands st pre post cand fn tys g' hmol hreg htys hpre
      hfn hmatch]
    constructor
    · intro h
      cases hr : run fn.build mol (operands.filterMap get_stored_in) (g', st.2) with
      | error e => rw [hr] at h; cases h
      | ok r0 =>
        rw [hr] at h
        simp only [Except.bind] at h
        cases ht : type_inference fn.type_inference r0.2.1.atoms.tail r0.2.2.1 with
        | error e => rw [ht] at h; cases h
        | ok t =>
          rw [ht] at h
          simp only [Except.ok.injEq] at h
          exact ⟨r0, t, rfl, ht, h.symm⟩
    · rintro ⟨r0, t, hr, ht, rfl⟩
      rw [hr]
      simp only [Except.bind]
      rw [ht]

/-- Witness of `memoized_type_kept_unless_overload` on `Int:(+ 1.5 2.5)`: where
no overload is registered the type `Int` is kept, for `get_type` and through
`evaluate`, which calls the built-in `+`; where `+` has the overloads
`addInts` and `addFloats`, `evaluate` calls the builder of `addFloats` and
the field holds `Float`, the type that `addFloats` declares. -/
theorem memoized_type_kept_unless_overload_witness :
    get_particle_type (.molecule example_typed_call) Globals.initial =
      .ok ("Int".toList, Globals.initial) ∧
    (evaluate traceRun example_typed_call (Globals.initial, [])).map (fun r => r.2.1.type) =
      .ok "Int".toList ∧
    evaluate traceRun example_typed_call (example_globals, []) =
      .ok (none, { example_typed_call with type := "Float".toList },
        (example_globals,
          [Build.call_fun 2 ["Float".toList, "Float".toList] "Float".toList])) := by
  have hw := memoized_type_kept_unless_overload traceRun example_typed_call (by decide)
    (fun b m args st r h => by
      simp only [traceRun, Except.ok.injEq] at h
      rw [← h])
  refine ⟨hw.1 Globals.initial, ?_, ?_⟩
  · have hok : (evaluate traceRun example_typed_call (Globals.initial, [])).isOk = true := rfl
    cases h : evaluate traceRun example_typed_call (Globals.initial, []) with
    | error e => rw [h] at hok; cases hok
    | ok r =>
      have ht := hw.2.1 _ r h (fun subj operands candidates tys g' _ hreg => by cases hreg)
      simp only [Except.map, ht]
      rfl
  · exact (hw.2.2 (example_globals, []) _ ⟨"+".toList, none, [], [], 0⟩
      [.atom ⟨"1.5".toList, some 10, "Float".toList, [], 0⟩,
       .atom ⟨"2.5".toList, some 11, "Float".toList, [], 0⟩]
      ["addInts".toList] "addFloats".toList []
      (declared_fun "addFloats".toList ["Float".toList, "Float".toList] "Float".toList 2)
      ["Float".toList, "Float".toList] example_globals rfl rfl rfl
      (by
        intro c hc fc hfc h
        rw [List.mem_singleton.mp hc] at hfc
        cases hfc
        cases h with
        | cons h1 _ => exact absurd h1 (by decide))
      rfl
      (List.Forall₂.cons rfl (List.Forall₂.cons rfl List.Forall₂.nil))).mpr
      ⟨_, _, rfl, rfl, rfl⟩

/-- C24, as stated, fails on the overload path: `Int:(+ 1.5 2.5)` evaluated
where `+` has the overloads `addInts` and `addFloats` selects `addFloats`,
and the `type` field `Int` of the molecule becomes `Float`. -/
theorem overload_match_replaces_memoized_type :
    example_typed_call.type = "Int".toList ∧
    (evaluate traceRun example_typed_call (example_globals, [])).map (fun r => r.2.1.type) =
      .ok "Float".toList :=
  ⟨rfl, rfl⟩

/-! ## The shape of a parsed molecule -/

/-- C26. The string literal `"ab"` and the array literal of three values,
compiled at the start of `main`: the header gets the capacity `4` (value `5`
stores it through `cap_ptr`), the buffer is an `alloca` of `3` elements (value
`6`).  At run time the literals are arrays of capacity `4` with `3` slots,
and an `append`, which takes the path without growth, accesses slot `3`
outside the buffer. -/
theorem literal_capacity_exceeds_buffer :
    ((evaluate_string_literal "ab".toList State.start.2).2.insertion_code.take 6 =
      [(1, .alloca .array_struct "str_struct".toList),
       (2, .struct_gep .array_struct (.value 1) 0 "size_ptr".toList),
       (3, .store (.const_int 32 2) (.value 2)),
       (4, .struct_gep .array_struct (.value 1) 1 "cap_ptr".toList),
       (5, .store (.const_int 32 4) (.value 4)),
       (6, .alloca (.array .i8 3) "str_data".toList)]) ∧
    ((build_array ⟨[word "array".toList [], .atom ⟨"1".toList, some 1, "Int".toList, [], 0⟩],
          none, [], true⟩ [1, 3, 5] State.start).map
        (fun r => r.2.2.2.insertion_code.take 6) =
      .ok [(1, .alloca .array_struct "array_struct".toList),
           (2, .struct_gep .array_struct (.value 1) 0 "size_ptr".toList),
           (3, .store (.const_int 32 3) (.value 2)),
           (4, .struct_gep .array_struct (.value 1) 1 "cap_ptr".toList),
           (5, .store (.const_int 32 4) (.value 4)),
           (6, .alloca (.array .i32 3) "data_arr".toList)]) ∧
    ArrayObject.string_literal [97, 98] =
      { size := 2, capacity := 4, data := [some 97, some 98, some 0] } ∧
    (ArrayObject.string_literal [97, 98]).append true 99 = .error .undefined ∧
    ArrayObject.literal [1, 2, 3] =
      some { size := 3, capacity := 4, data := [some 1, some 2, some 3] } ∧
    ArrayObject.append false { size := 3, capacity := 4, data := [some 1, some 2, some 3] } 4 =
      .error .undefined :=
  ⟨rfl, rfl, rfl, rfl, rfl, rfl⟩

/-! ## The header of an array under `append` and `insert` -/

/-- The header after the growth step. -/
theorem grow_header (is_str : Bool) (a g : ArrayObject) (h : a.grow_if_needed is_str = .ok g) :
    g.size = a.size ∧
    g.capacity =
      if (if is_str then decide (a.capacity ≤ (a.size + 1) % 2 ^ 32)
          else decide (a.size = a.capacity)) = true
      then (if a.capacity = 0 then 1 else (a.capacity * 2) % 2 ^ 32)
      else a.capacity := by
  unfold ArrayObject.grow_if_needed at h
  dsimp only at h
  by_cases hc : (if is_str then decide (a.capacity ≤ (a.size + 1) % 2 ^ 32)
      else decide (a.size = a.capacity)) = true
  · rw [if_pos hc] at h ⊢
    by_cases h2 : a.size ≤ a.data.length ∧
        a.size ≤ (if a.capacity = 0 then 1 else (a.capacity * 2) % 2 ^ 32)
    · rw [if_pos h2] at h
      simp only [Except.ok.injEq] at h
      rw [← h]
      exact ⟨rfl, rfl⟩
    · rw [if_neg h2] at h
      cases h
  · rw [if_neg hc] at h ⊢
    simp only [Except.ok.injEq] at h
    rw [← h]
    exact ⟨rfl, rfl⟩

/-- The header after the store and the increment of the size. -/
theorem store_and_count_header (is_str : Bool) (g a' : ArrayObject) (size idx val : Nat)
    (h : g.store_and_count is_str size idx val = .ok a') :
    a'.capacity = g.capacity ∧ a'.size = (size + 1) % 2 ^ 32 := by
  unfold ArrayObject.store_and_count at h
  cases hs : element_slot g.data idx with
  | error e => rw [hs] at h; cases h
  | ok slot =>
    rw [hs] at h
    simp only [Except.bind] at h
    cases is_str with
    | false =>
      simp only [Bool.false_eq_true, if_false, Except.ok.injEq] at h
      rw [← h]
      exact ⟨rfl, rfl⟩
    | true =>
      simp only [if_true] at h
      cases hn : element_slot (g.data.set slot (some val)) ((size + 1) % 2 ^ 32) with
      | error e => rw [hn] at h; cases h
      | ok null_slot =>
        rw [hn] at h
        simp only [Except.map, Except.ok.injEq] at h
        rw [← h]
        exact ⟨rfl, rfl⟩

/-- The header relation after the growth step and the store. -/
theorem header_after (is_str : Bool) (a g a' : ArrayObject)
    (hcap1 : 1 ≤ a.capacity) (hcap2 : a.capacity < 2 ^ 30)
    (hrel : if is_str = true then a.size + 1 ≤ a.capacity else a.size ≤ a.capacity)
    (hg : g.size = a.size ∧
      g.capacity =
        if (if is_str then decide (a.capacity ≤ (a.size + 1) % 2 ^ 32)
            else decide (a.size = a.capacity)) = true
        then (if a.capacity = 0 then 1 else (a.capacity * 2) % 2 ^ 32)
        else a.capacity)
    (hs : a'.capacity = g.capacity ∧ a'.size = (a.size + 1) % 2 ^ 32) :
    a'.size = a.size + 1 ∧
    (if is_str = true then a'.size + 1 ≤ a'.capacity else a'.size ≤ a'.capacity) ∧
    (a'.capacity = a.capacity ∨ a'.capacity = 2 * a.capacity) := by
  have hnew : (if a.capacity = 0 then 1 else (a.capacity * 2) % 2 ^ 32) = 2 * a.capacity := by
    rw [if_neg (by omega), Nat.mod_eq_of_lt (by omega)]
    omega
  rw [hnew] at hg
  obtain ⟨-, hgc⟩ := hg
  obtain ⟨hc, hsz⟩ := hs
  cases is_str with
  | true =>
    simp only [if_true] at hrel hgc ⊢
    have hmod : (a.size + 1) % 2 ^ 32 = a.size + 1 := Nat.mod_eq_of_lt (by omega)
    rw [hmod] at hsz hgc
    refine ⟨hsz, ?_, ?_⟩
    · rw [hsz, hc, hgc]
      simp only [decide_eq_true_eq]
      split_ifs with h <;> omega
    · rw [hc, hgc]
      simp only [decide_eq_true_eq]
      split_ifs with h
      · exact Or.inr rfl
      · exact Or.inl rfl
  | false =>
    simp only [Bool.false_eq_true, if_false] at hrel hgc ⊢
    have hmod : (a.size + 1) % 2 ^ 32 = a.size + 1 := Nat.mod_eq_of_lt (by omega)
    rw [hmod] at hsz
    refine ⟨hsz, ?_, ?_⟩
    · rw [hsz, hc, hgc]
      simp only [decide_eq_true_eq]
      split_ifs with h <;> omega
    · rw [hc, hgc]
      simp only [decide_eq_true_eq]
      split_ifs with h
      · exact Or.inr rfl
      · exact Or.inl rfl

/-- The growth step succeeds on an array whose buffer has `capacity` slots,
and leaves a buffer with room for one more element (two for a string). -/
theorem grow_makes_room (is_str : Bool) (a : ArrayObject)
    (hcap1 : 1 ≤ a.capacity) (hcap2 : a.capacity < 2 ^ 30)
    (hrel : if is_str = true then a.size + 1 ≤ a.capacity else a.size ≤ a.capacity)
    (hbuf : a.capacity ≤ a.data.length) :
    ∃ g, a.grow_if_needed is_str = .ok g ∧
      (if is_str = true then a.size + 2 ≤ g.data.length else a.size + 1 ≤ g.data.length) := by
  cases is_str with
  | true =>
    simp only [if_true] at hrel ⊢
    rw [grow_of_str a hrel hbuf (by omega)]
    refine ⟨_, rfl, ?_⟩
    split_ifs with h
    · simp only [List.length_append, List.length_take, List.length_replicate]
      omega
    · omega
  | false =>
    simp only [Bool.false_eq_true, if_false] at hrel ⊢
    by_cases heq : a.size = a.capacity
    · rw [grow_of_full a heq hbuf (by omega)]
      refine ⟨_, rfl, ?_⟩
      simp only [List.length_append, List.length_take, List.length_replicate]
      omega
    · rw [grow_of_room a heq]
      exact ⟨_, rfl, by omega⟩

/-- The store and the increment succeed when the buffer has room. -/
theorem store_and_count_ok (is_str : Bool) (g : ArrayObject) (size idx val : Nat)
    (hidx : idx ≤ size) (hsize : size + 1 < 2 ^ 31)
    (hroom : if is_str = true then size + 2 ≤ g.data.length else size + 1 ≤ g.data.length) :
    ∃ a', g.store_and_count is_str size idx val = .ok a' := by
  have hlen : size + 1 ≤ g.data.length := by
    cases is_str with
    | true => simp only [if_true] at hroom; omega
    | false => simpa using hroom
  unfold ArrayObject.store_and_count
  rw [element_slot_ok g.data idx (by omega) (by omega)]
  simp only [Except.bind]
  have hmod : (size + 1) % 2 ^ 32 = size + 1 := Nat.mod_eq_of_lt (by omega)
  cases is_str with
  | false => exact ⟨_, rfl⟩
  | true =>
    simp only [if_true] at hroom ⊢
    rw [hmod, element_slot_ok _ (size + 1) (by omega) (by rw [List.length_set]; omega)]
    exact ⟨_, rfl⟩

/-- C27. `append` and `insert` on an array whose header satisfies
`1 ≤ capacity < 2^30` and `size ≤ capacity` (`size + 1 ≤ capacity` for a
string): whenever the operation runs to its end, the size is one more, the
capacity is the old one or twice the old one, and the same relation holds
between the new size and the new capacity; and the operation does run to its
end when the buffer has `capacity` slots (and the index of `insert` is at
most the size). -/
theorem header_relation_kept (is_str : Bool) (a : ArrayObject) (idx val : Nat)
    (hcap1 : 1 ≤ a.capacity) (hcap2 : a.capacity < 2 ^ 30)
    (hrel : if is_str = true then a.size + 1 ≤ a.capacity else a.size ≤ a.capacity) :
    (∀ a', a.append is_str val = .ok a' →
      a'.size = a.size + 1 ∧
      (if is_str = true then a'.size + 1 ≤ a'.capacity else a'.size ≤ a'.capacity) ∧
      (a'.capacity = a.capacity ∨ a'.capacity = 2 * a.capacity)) ∧
    (∀ a', a.insert is_str idx val = .ok a' →
      a'.size = a.size + 1 ∧
      (if is_str = true then a'.size + 1 ≤ a'.capacity else a'.size ≤ a'.capacity) ∧
      (a'.capacity = a.capacity ∨ a'.capacity = 2 * a.capacity)) ∧
    (a.capacity ≤ a.data.length → ∃ a', a.append is_str val = .ok a') ∧
    (a.capacity ≤ a.data.length → idx ≤ a.size → ∃ a', a.insert is_str idx val = .ok a') := by
  have hsz : a.size ≤ a.capacity := by
    cases is_str with
    | true => simp only [if_true] at hrel; omega
    | false => simpa using hrel
  refine ⟨?_, ?_, ?_, ?_⟩
  · intro a' h
    unfold ArrayObject.append at h
    cases hg : a.grow_if_needed is_str with
    | error e => rw [hg] at h; cases h
    | ok g =>
      rw [hg] at h
      exact header_after is_str a g a' hcap1 hcap2 hrel (grow_header _ _ _ hg)
        (store_and_count_header _ _ _ _ _ _ h)
  · intro a' h
    unfold ArrayObject.insert at h
    cases hg : a.grow_if_needed is_str with
    | error e => rw [hg] at h; cases h
    | ok g =>
      rw [hg] at h
      simp only [Except.bind] at h
      cases hm : move_elements g.data (element_offset ((idx + 1) % 2 ^ 32)) (element_offset idx)
          ((a.size + 2 ^ 32 - idx) % 2 ^ 32) with
      | error e => rw [hm] at h; cases h
      | ok data =>
        rw [hm] at h
        simp only at h
        exact header_after is_str a g a' hcap1 hcap2 hrel (grow_header _ _ _ hg)
          (store_and_count_header is_str { g with data := data } a' a.size idx val h)
  · intro hbuf
    obtain ⟨g, hg, hroom⟩ := grow_makes_room is_str a hcap1 hcap2 hrel hbuf
    unfold ArrayObject.append
    rw [hg]
    exact store_and_count_ok is_str g a.size a.size val (Nat.le_refl _) (by omega) hroom
  · intro hbuf hidx
    obtain ⟨g, hg, hroom⟩ := grow_makes_room is_str a hcap1 hcap2 hrel hbuf
    have hlen : a.size + 1 ≤ g.data.length := by
      cases is_str with
      | true => simp only [if_true] at hroom; omega
      | false => simpa using hroom
    unfold ArrayObject.insert
    rw [hg]
    simp only [Except.bind]
    have hsub : (a.size + 2 ^ 32 - idx) % 2 ^ 32 = a.size - idx := by
      have : a.size + 2 ^ 32 - idx = (a.size - idx) + 2 ^ 32 := by omega
      rw [this, Nat.add_mod_right, Nat.mod_eq_of_lt (by omega)]
    have hadd : (idx + 1) % 2 ^ 32 = idx + 1 := Nat.mod_eq_of_lt (by omega)
    have ho1 : element_offset idx = (idx : Int) := by
      unfold element_offset; rw [if_pos (by omega)]
    have ho2 : element_offset (idx + 1) = ((idx + 1 : Nat) : Int) := by
      unfold element_offset; rw [if_pos (by omega)]
    rw [hsub, hadd, ho1, ho2]
    unfold move_elements
    by_cases hn : a.size - idx = 0
    · rw [if_pos hn]
      exact store_and_count_ok is_str _ a.size idx val hidx (by omega) hroom
    · rw [if_neg hn, if_pos ⟨by omega, by omega, by omega, by push_cast; omega⟩]
      refine store_and_count_ok is_str _ a.size idx val hidx (by omega) ?_
      have hl : (g.data.take (idx + 1) ++ (g.data.drop idx).take (a.size - idx) ++
          g.data.drop (idx + 1 + (a.size - idx))).length = g.data.length := by
        simp only [List.length_append, List.length_take, List.length_drop]
        omega
      simp only [Int.toNat_ofNat]
      rw [hl]
      exact hroom

/-- Witness of `header_relation_kept`: the full array `[10]` of capacity 1. -/
theorem header_relation_kept_witness :
    (∀ a', (ArrayObject.mk 1 1 [some 10]).append false 11 = .ok a' →
      a'.size = 1 + 1 ∧ (if false = true then a'.size + 1 ≤ a'.capacity
        else a'.size ≤ a'.capacity) ∧ (a'.capacity = 1 ∨ a'.capacity = 2 * 1)) ∧
    (∀ a', (ArrayObject.mk 1 1 [some 10]).insert false 0 11 = .ok a' →
      a'.size = 1 + 1 ∧ (if false = true then a'.size + 1 ≤ a'.capacity
        else a'.size ≤ a'.capacity) ∧ (a'.capacity = 1 ∨ a'.capacity = 2 * 1)) ∧
    ((1 : Nat) ≤ [some 10].length → ∃ a', (ArrayObject.mk 1 1 [some 10]).append false 11 = .ok a') ∧
    ((1 : Nat) ≤ [some 10].length → 0 ≤ 1 →
      ∃ a', (ArrayObject.mk 1 1 [some 10]).insert false 0 11 = .ok a') :=
  header_relation_kept false ⟨1, 1, [some 10]⟩ 0 11 (by decide) (by decide) (by decide)

/-! ## The struct-collection pass and the `struct` branch of `compile` -/

set_option smartUnfolding false in
/-- C28. The `struct` form in the shape that `compile` reads,
`(struct P:[Int:a])`: the struct-collection pass leaves the struct registry
empty (`compile` registers `P` later, in pass 3).  The `struct` form in the
shape that the collection pass reads, `(struct P [Int:a])`: the collection
pass registers `P`, and `compile` of the form ends in
`std::bad_variant_access`. -/
theorem struct_form_shapes_disagree : ∀ others,
    ((lexparse "{(struct P:[Int:a])}".toList).bind fun root =>
        collect_struct_declarations (.molecule root) (Globals.initial, CodeGen.empty)).map
      (fun st => st.1.struct_registry) = .ok [] ∧
    (compile_source (run_builder others) "{(struct P:[Int:a])}".toList).map
      (fun st => st.1.struct_registry) =
      .ok [("P".toList,
        { name := "P".toList, field_names := ["a".toList], field_types := ["Int".toList],
          llvm_type := some 0, is_extern := false })] ∧
    ((lexparse "{(struct P [Int:a])}".toList).bind fun root =>
        collect_struct_declarations (.molecule root) (Globals.initial, CodeGen.empty)).map
      (fun st => st.1.struct_registry) =
      .ok [("P".toList,
        { name := "P".toList, field_names := ["a".toList], field_types := ["Int".toList],
          llvm_type := some 0, is_extern := false })] ∧
    compile_source (run_builder others) "{(struct P [Int:a])}".toList =
      .error .bad_variant_access :=
  fun _ => ⟨rfl, rfl, rfl, rfl⟩

/-! ## Native tags of `Str` nodes -/

/-- C29. Three nodes of the logical type `Str` under the same registries: the
string literal `"a"` (the atom that `Atom::Atom` makes of it), the variable
`s` declared as `Str`, and the molecule `Str:(f)`.  With `native = false` all
three give `Str`; with `native = true` the literal gives the tag `ptr`, the
variable and the molecule give the tag `i8`. -/
theorem str_nodes_get_different_native_tags :
    (get_particle_type_native (.atom ⟨"a".toList, none, "Str".toList, [], 2⟩) false example_str_globals).map
        (fun r => r.1) = .ok "Str".toList ∧
    (get_particle_type_native (word "s".toList []) false example_str_globals).map
        (fun r => r.1) = .ok "Str".toList ∧
    (get_particle_type_native (form [word "f".toList []] "Str".toList) false
        example_str_globals).map (fun r => r.1) = .ok "Str".toList ∧
    (get_particle_type_native (.atom ⟨"a".toList, none, "Str".toList, [], 2⟩) true example_str_globals).map
        (fun r => r.1) = .ok "ptr".toList ∧
    (get_particle_type_native (word "s".toList []) true example_str_globals).map
        (fun r => r.1) = .ok "i8".toList ∧
    (get_particle_type_native (form [word "f".toList []] "Str".toList) true
        example_str_globals).map (fun r => r.1) = .ok "i8".toList :=
  ⟨rfl, rfl, rfl, rfl, rfl, rfl⟩

/-! ## Assignment to a field -/

set_option smartUnfolding false in
/-- C30. The program `{(struct P:[Int:a]) (def P:p P:[1]) (= p>a 2)}` run
through `main`.  The slot of `p` is value `1`; the literal is built in
values `2` to `9` and its handle stored into the slot (`10`, `11`).  For
`(= p>a 2)` the member access computes the location of the field `a` (`12`,
`13`) and the operand `2` gets the slot `14`; then `build_reassign` loads the
operand as a `ptr` (`16`), not as the `Int` of the field, and stores it into
value `1`, the slot of `p`: no instruction stores into the field location
`13`, and the handle of `p` is overwritten. -/
theorem field_assignment_overwrites_handle : ∀ others,
    (compile_source (run_builder others)
        "{(struct P:[Int:a]) (def P:p P:[1]) (= p>a 2)}".toList).map
      (fun st => (st.1.object_registry, st.2.blocks)) =
    .ok ([("p".toList, { type := "P".toList, value := some 1 })],
      [(0, { name := "entry".toList, parent := 0,
             instrs := [(1, .alloca .ptr "p".toList),
                        (2, .alloca .i32 []),
                        (3, .store (.const_int 32 1) (.value 2)),
                        (4, .alloca (.created (some 0)) "struct_instance".toList),
                        (5, .load .i32 (.value 2) []),
                        (6, .struct_gep (.created (some 0)) (.value 4) 0 []),
                        (7, .store (.value 5) (.value 6)),
                        (8, .alloca .ptr "struct_ref".toList),
                        (9, .store (.value 4) (.value 8)),
                        (10, .load .ptr (.value 8) []),
                        (11, .store (.value 10) (.value 1)),
                        (12, .load .ptr (.value 1) []),
                        (13, .struct_gep (.created (some 0)) (.value 12) 0 []),
                        (14, .alloca .i32 []),
                        (15, .store (.const_int 32 2) (.value 14)),
                        (16, .load .ptr (.value 14) []),
                        (17, .store (.value 16) (.value 1)),
                        (18, .ret (some (.const_int 32 0)))] })]) :=
  fun _ => rfl

/-! ## The frame of `compile` on the module -/

set_option smartUnfolding false in
/-- The body of `compile` on a molecule whose subject is an atom. -/
theorem compile_atom_subject
    (run : Build → Molecule → List Value → State → Except Fault (Evaluated CodeGen))
    (subject : Atom) (operands : List Particle) (stored_in : Option Value) (type : Str)
    (eval : Bool) (st : State) :
    compile run (.molecule ⟨.atom subject :: operands, stored_in, type, eval⟩) st =
    (
    let subj := subject.identifier
    if subj = "block".toList then
      st.2.getParent.bind fun TheFunction =>
        let NewBB := st.2.create_block "block".toList TheFunction
        let cg := (NewBB.2.emit (.br NewBB.1)).2.SetInsertPoint NewBB.1
        (compile_each run operands (st.1, cg)).map fun r =>
          (.molecule ⟨.atom subject :: r.1, stored_in, type, eval⟩, r.2)
    else if subj = "if".toList then
      match operands with
      | [] => .error .undefined
      | condition :: branches =>
        (compile run condition st).bind fun c =>
          let cond := c.2.2.emit (.load .i1 (Operand.of (get_stored_in c.1)) "ifcond".toList)
          cond.2.getParent.bind fun TheFunction =>
            let ThenBB := cond.2.create_block "then".toList TheFunction
            let has_else := branches.length == 2
            let ElseBB :=
              if has_else then ThenBB.2.create_block "else".toList TheFunction
              else (0, ThenBB.2)
            let MergeBB := ElseBB.2.create_block "ifcont".toList TheFunction
            let cg := (MergeBB.2.emit
              (.cond_br (.value cond.1) ThenBB.1 (if has_else then ElseBB.1 else MergeBB.1))).2
            match branches with
            | [] => .error .undefined
            | then_branch :: after =>
              (compile run then_branch (c.2.1, cg.SetInsertPoint ThenBB.1)).bind fun t =>
                (branch_unless_terminated t.2.2 MergeBB.1).bind fun cg =>
                  match after with
                  | [else_branch] =>
                    (compile run else_branch (t.2.1, cg.SetInsertPoint ElseBB.1)).bind fun e =>
                      (branch_unless_terminated e.2.2 MergeBB.1).map fun cg =>
                        (.molecule ⟨[.atom subject, c.1, t.1, e.1], stored_in, type, eval⟩,
                          (e.2.1, keep_or_erase cg MergeBB.1))
                  | _ =>
                    .ok (.molecule ⟨.atom subject :: c.1 :: t.1 :: after, stored_in, type, eval⟩,
                      (t.2.1, keep_or_erase cg MergeBB.1))
    else if subj = "while".toList then
      st.2.getParent.bind fun TheFunction =>
        let CondBB := st.2.create_block "cond".toList TheFunction
        let LoopBB := CondBB.2.create_block "loop".toList TheFunction
        let MergeBB := LoopBB.2.create_block "whilecont".toList TheFunction
        let cg := (MergeBB.2.emit (.br CondBB.1)).2.SetInsertPoint CondBB.1
        match operands with
        | [] => .error .undefined
        | condition :: after =>
          (compile run condition (st.1, cg)).bind fun c =>
            let cond := c.2.2.emit
              (.load .i1 (Operand.of (get_stored_in c.1)) "whilecond".toList)
            let cg := (cond.2.emit (.cond_br (.value cond.1) LoopBB.1 MergeBB.1)).2
            match after with
            | [] => .error .undefined
            | body :: rest =>
              (compile run body (c.2.1, cg.SetInsertPoint LoopBB.1)).bind fun b =>
                (branch_unless_terminated b.2.2 CondBB.1).map fun cg =>
                  (.molecule ⟨.atom subject :: c.1 :: b.1 :: rest, stored_in, type, eval⟩,
                    (b.2.1, cg.SetInsertPoint MergeBB.1))
    else if subj = "web-loop".toList then
      match operands with
      | [] => .error .undefined
      | fps :: after =>
        (compile run fps st).bind fun f =>
          let fps_val := f.2.2.emit (.load .i32 (Operand.of (get_stored_in f.1)) "fps".toList)
          match fps_val.2.getParent, fps_val.2.insert_block with
          | .ok _, some ReturnPoint =>
            let UpdateFunc := fps_val.2.create_function "UpdateFrame".toList .void []
            let UpdateBB := UpdateFunc.2.create_block "entry".toList UpdateFunc.1
            match after with
            | [] => .error .undefined
            | body :: rest =>
              (compile run body (f.2.1, UpdateBB.2.SetInsertPoint UpdateBB.1)).bind fun b =>
                b.2.2.getTerminator.map fun terminated =>
                  let cg := if terminated then b.2.2 else (b.2.2.emit (.ret none)).2
                  (.molecule ⟨.atom subject :: f.1 :: b.1 :: rest, stored_in, type, eval⟩,
                    (b.2.1, call_set_main_loop cg ReturnPoint UpdateFunc.1 fps_val.1))
          | _, _ => .error .undefined
    else if subj = "fun".toList then
      match operands with
      | [] => .error .undefined
      | .atom _ :: _ => .error .bad_variant_access
      | .molecule sig :: after =>
        let return_type := sig.type
        match sig.atoms with
        | [] => .error .undefined
        | .molecule _ :: _ => .error .bad_variant_access
        | .atom name :: parameters =>
          let func_name := name.identifier
          (get_atoms parameters).bind fun params =>
            -- save the current state
            let SavedBB := st.2.insert_block
            let saved_registry := st.1.object_registry
            let entered := enter_function func_name return_type params st
            match after with
            | [] => .error .undefined
            | .atom _ :: _ => .error .bad_variant_access
            | .molecule ⟨body, body_stored_in, body_type, body_eval⟩ :: rest =>
              let compiled : Except Fault (List Particle × State) :=
                match body with
                | [] => .ok ([], entered.2)
                | head :: commands =>
                  (compile_each run commands entered.2).map fun r => (head :: r.1, r.2)
              compiled.bind fun b =>
                (leave_function func_name return_type params entered.1 SavedBB
                    saved_registry b.2).map fun left =>
                  (.molecule
                      ⟨.atom subject :: .molecule sig ::
                        .molecule ⟨b.1, body_stored_in, body_type, body_eval⟩ :: rest,
                       stored_in, type, eval⟩,
                    left)
    else if subj = "overload".toList then
      (compile_overload ⟨.atom subject :: operands, stored_in, type, eval⟩ st.1).map fun g =>
        (.molecule ⟨.atom subject :: operands, stored_in, type, eval⟩, (g, st.2))
    else if subj = "extern".toList then
      match operands with
      | [] => .error .undefined
      | .atom _ :: _ => .error .bad_variant_access
      | .molecule sig :: _ =>
        match sig.atoms with
        | [] => .error .undefined
        | .molecule _ :: _ => .error .bad_variant_access
        | .atom name :: parameters =>
          (get_atoms parameters).map fun params =>
            (.molecule ⟨.atom subject :: operands, stored_in, type, eval⟩,
              declare_external name.identifier sig.type params st)
    else if subj = "struct".toList then
      match operands with
      | [] => .error .undefined
      | .atom _ :: _ => .error .bad_variant_access
      | .molecule fields_mol :: _ =>
        let struct_name := fields_mol.type
        if st.1.struct_registry.count struct_name then
          .ok (.molecule ⟨.atom subject :: operands, stored_in, type, eval⟩, st)
        else
          (get_atoms fields_mol.atoms.tail).map fun fields =>
            (.molecule ⟨.atom subject :: operands, stored_in, type, eval⟩,
              register_struct struct_name fields false st)
    else if subj = "extern-struct".toList then
      match operands with
      | [] => .error .undefined
      | .molecule _ :: _ => .error .bad_variant_access
      | .atom name :: after =>
        let struct_name := name.identifier
        if st.1.struct_registry.count struct_name then
          .ok (.molecule ⟨.atom subject :: operands, stored_in, type, eval⟩, st)
        else
          match after with
          | [] => .error .undefined
          | .atom _ :: _ => .error .bad_variant_access
          | .molecule fields_mol :: _ =>
            (get_atoms fields_mol.atoms.tail).map fun fields =>
              (.molecule ⟨.atom subject :: operands, stored_in, type, eval⟩,
                register_struct struct_name fields true st)
    else
      match (if subj = "array".toList then st.1.struct_registry.lookup type else none) with
      | some sdef =>
        -- a struct literal
        (compile_each run operands st).bind fun r =>
          (build_struct_literal sdef r.1 r.2.2).map fun v =>
            (.molecule ⟨.atom subject :: r.1, some v.1, type, eval⟩, (r.2.1, v.2))
      | none =>
        (compile_missing run operands st).bind fun r =>
          (evaluate run ⟨.atom subject :: r.1, stored_in, type, eval⟩ r.2).map fun e =>
            (.molecule e.2.1, e.2.2)) := by
  rcases operands with _ | ⟨c, rest⟩
  · rfl
  · rcases c with a | ⟨_ | ⟨(h | h), tl⟩, s1, t1, e1⟩ <;>
      rcases rest with _ | ⟨t, rest2⟩ <;> try rfl
    all_goals
      rcases t with a2 | ⟨_ | ⟨h2, tl2⟩, s2, t2, e2⟩ <;>
        rcases rest2 with _ | ⟨e, _ | ⟨e3, more⟩⟩ <;> rfl
/-! ### Modules that extend one another -/

theorem CodeGen.hasPredecessor_iff (cg : CodeGen) (b : Nat) :
    cg.hasPredecessor b = true ↔ ∃ e ∈ cg.blocks, ∃ i ∈ e.2.instrs, b ∈ i.2.successors := by
  unfold CodeGen.hasPredecessor
  simp only [List.any_eq_true, List.contains_iff_exists_mem_beq, beq_iff_eq]
  constructor
  · rintro ⟨e, he, i, hi, a, ha, rfl⟩
    exact ⟨e, he, i, hi, ha⟩
  · rintro ⟨e, he, i, hi, hb⟩
    exact ⟨e, he, i, hi, b, hb, rfl⟩

theorem CodeGen.Extends.ext_refl (cg : CodeGen) (h : cg.WellFormed) : cg.Extends cg :=
  ⟨h, h, Nat.le_refl _, fun e he => ⟨e, he, rfl, List.prefix_refl _⟩, fun _ _ hp => hp⟩

theorem CodeGen.Extends.ext_trans {a b c : CodeGen} (h1 : a.Extends b) (h2 : b.Extends c) :
    a.Extends c := by
  obtain ⟨wa, -, n1, k1, p1⟩ := h1
  obtain ⟨-, wc, n2, k2, p2⟩ := h2
  refine ⟨wa, wc, Nat.le_trans n1 n2, ?_, ?_⟩
  · intro e he
    obtain ⟨e1, he1, hn1, hp1⟩ := k1 e he
    obtain ⟨e2, he2, hn2, hp2⟩ := k2 e1 he1
    exact ⟨e2, he2, hn2.trans hn1, hp1.trans hp2⟩
  · intro x hx hc
    exact p1 x hx (p2 x (Nat.lt_of_lt_of_le hx n1) hc)

/-- A new instruction that branches only to blocks made since `cg0`. -/
theorem CodeGen.Extends.ext_emit {cg0 cg : CodeGen} (h : cg0.Extends cg) (i : Instr)
    (hs : ∀ b ∈ i.successors, cg0.next ≤ b ∧ b < cg.next) : cg0.Extends (cg.emit i).2 := by
  obtain ⟨w0, w, hn, hk, hp⟩ := h
  have hblocks : ∀ e' ∈ (cg.emit i).2.blocks, ∃ e ∈ cg.blocks, e'.1 = e.1 ∧
      (e'.2.instrs = e.2.instrs ∨ e'.2.instrs = e.2.instrs ++ [(cg.next, i)]) := by
    intro e' he'
    unfold CodeGen.emit at he'
    simp only at he'
    cases hb : cg.insert_block with
    | none =>
      rw [hb] at he'
      exact ⟨e', he', rfl, Or.inl rfl⟩
    | some b =>
      rw [hb] at he'
      simp only [List.mem_map] at he'
      obtain ⟨e, he, rfl⟩ := he'
      refine ⟨e, he, ?_⟩
      split_ifs with hc
      · exact ⟨rfl, Or.inr rfl⟩
      · exact ⟨rfl, Or.inl rfl⟩
  have hkeep : ∀ e ∈ cg.blocks, ∃ e' ∈ (cg.emit i).2.blocks, e'.1 = e.1 ∧
      e.2.instrs <+: e'.2.instrs := by
    intro e he
    unfold CodeGen.emit
    simp only
    cases hb : cg.insert_block with
    | none => exact ⟨e, he, rfl, List.prefix_refl _⟩
    | some b =>
      simp only
      by_cases hc : e.1 = b
      · exact ⟨(e.1, { e.2 with instrs := e.2.instrs ++ [(cg.next, i)] }),
          List.mem_map.mpr ⟨e, he, by rw [if_pos hc]⟩, rfl, List.prefix_append _ _⟩
      · exact ⟨e, List.mem_map.mpr ⟨e, he, by rw [if_neg hc]⟩, rfl, List.prefix_refl _⟩
  refine ⟨w0, ⟨?_, ?_⟩, Nat.le_succ_of_le hn, ?_, ?_⟩
  · intro e' he'
    obtain ⟨e, he, hne, -⟩ := hblocks e' he'
    have := w.1 e he
    show e'.1 < cg.next + 1
    omega
  · intro e' he' j hj b hb
    obtain ⟨e, he, -, hi⟩ := hblocks e' he'
    show b < cg.next + 1
    rcases hi with hi | hi
    · rw [hi] at hj
      have := w.2 e he j hj b hb
      omega
    · rw [hi, List.mem_append, List.mem_singleton] at hj
      rcases hj with hj | hj
      · have := w.2 e he j hj b hb
        omega
      · subst hj
        have := (hs b hb).2
        omega
  · intro e he
    obtain ⟨e1, he1, hn1, hp1⟩ := hk e he
    obtain ⟨e2, he2, hn2, hp2⟩ := hkeep e1 he1
    exact ⟨e2, he2, hn2.trans hn1, hp1.trans hp2⟩
  · intro b hb hc
    apply hp b hb
    rw [CodeGen.hasPredecessor_iff] at hc ⊢
    obtain ⟨e', he', j, hj, hbj⟩ := hc
    obtain ⟨e, he, -, hi⟩ := hblocks e' he'
    rcases hi with hi | hi
    · rw [hi] at hj
      exact ⟨e, he, j, hj, hbj⟩
    · rw [hi, List.mem_append, List.mem_singleton] at hj
      rcases hj with hj | hj
      · exact ⟨e, he, j, hj, hbj⟩
      · subst hj
        have := (hs b hbj).1
        omega

/-- A new instruction that is not a branch. -/
theorem CodeGen.Extends.ext_emit_plain {cg0 cg : CodeGen} (h : cg0.Extends cg) (i : Instr)
    (hs : i.successors = []) : cg0.Extends (cg.emit i).2 :=
  h.ext_emit i (fun b hb => by rw [hs] at hb; cases hb)

/-- A new block. -/
theorem CodeGen.Extends.ext_create_block {cg0 cg : CodeGen} (h : cg0.Extends cg) (name : Str)
    (parent : Nat) : cg0.Extends (cg.create_block name parent).2 := by
  obtain ⟨w0, w, hn, hk, hp⟩ := h
  refine ⟨w0, ⟨?_, ?_⟩, Nat.le_succ_of_le hn, ?_, ?_⟩
  · intro e he
    unfold CodeGen.create_block at he
    simp only [List.mem_append, List.mem_singleton] at he
    show e.1 < cg.next + 1
    rcases he with he | he
    · have := w.1 e he; omega
    · subst he; exact Nat.lt_succ_self _
  · intro e he j hj b hb
    unfold CodeGen.create_block at he
    simp only [List.mem_append, List.mem_singleton] at he
    show b < cg.next + 1
    rcases he with he | he
    · have := w.2 e he j hj b hb; omega
    · subst he; cases hj
  · intro e he
    obtain ⟨e1, he1, hn1, hp1⟩ := hk e he
    exact ⟨e1, List.mem_append_left _ he1, hn1, hp1⟩
  · intro b hb hc
    apply hp b hb
    rw [CodeGen.hasPredecessor_iff] at hc ⊢
    obtain ⟨e, he, j, hj, hbj⟩ := hc
    unfold CodeGen.create_block at he
    simp only [List.mem_append, List.mem_singleton] at he
    rcases he with he | he
    · exact ⟨e, he, j, hj, hbj⟩
    · subst he; cases hj

/-- A step that changes neither the blocks nor the counter. -/
theorem CodeGen.Extends.ext_same {cg0 cg : CodeGen} (h : cg0.Extends cg) (cg' : CodeGen)
    (hb : cg'.blocks = cg.blocks) (hn : cg'.next = cg.next) : cg0.Extends cg' := by
  obtain ⟨w0, w, hle, hk, hp⟩ := h
  refine ⟨w0, ⟨?_, ?_⟩, ?_, ?_, ?_⟩
  · rw [hb, hn]; exact w.1
  · rw [hb, hn]; exact w.2
  · rw [hn]; exact hle
  · rw [hb]; exact hk
  · intro b hlt hc
    apply hp b hlt
    unfold CodeGen.hasPredecessor at hc ⊢
    rw [hb] at hc
    exact hc

/-- Erasing a block made since `cg0`. -/
theorem CodeGen.Extends.ext_erase {cg0 cg : CodeGen} (h : cg0.Extends cg) (b : Nat)
    (hb : cg0.next ≤ b) : cg0.Extends (cg.eraseFromParent b) := by
  obtain ⟨w0, w, hle, hk, hp⟩ := h
  have hsub : ∀ e ∈ (cg.eraseFromParent b).blocks, e ∈ cg.blocks := by
    intro e he
    unfold CodeGen.eraseFromParent at he
    exact (List.mem_filter.mp he).1
  refine ⟨w0, ⟨fun e he => w.1 e (hsub e he), fun e he => w.2 e (hsub e he)⟩, hle, ?_, ?_⟩
  · intro e he
    obtain ⟨e1, he1, hn1, hp1⟩ := hk e he
    refine ⟨e1, ?_, hn1, hp1⟩
    unfold CodeGen.eraseFromParent
    refine List.mem_filter.mpr ⟨he1, ?_⟩
    have := w0.1 e he
    simp only [bne_iff_ne, ne_eq]
    omega
  · intro x hx hc
    apply hp x hx
    rw [CodeGen.hasPredecessor_iff] at hc ⊢
    obtain ⟨e, he, j, hj, hbj⟩ := hc
    exact ⟨e, hsub e he, j, hj, hbj⟩
/-! ### The builders extend the module -/

theorem CodeGen.Extends.ext_getOrInsertFunction {cg0 cg : CodeGen} (h : cg0.Extends cg) (name : Str)
    (return_type : LType) (param_types : List LType) :
    cg0.Extends (cg.getOrInsertFunction name return_type param_types).2 := by
  unfold CodeGen.getOrInsertFunction
  split
  · exact h
  · exact h.ext_same _ rfl rfl

theorem store_chars_extends (data_array_type : LType) (data_alloc : Value) {cg0 : CodeGen} :
    ∀ (cs : List Char) (i : Nat) (cg : CodeGen), cg0.Extends cg →
      cg0.Extends (store_chars data_array_type data_alloc cs i cg)
  | [], _, _, h => h
  | c :: cs, i, cg, h => by
    rw [store_chars]
    refine store_chars_extends data_array_type data_alloc cs (i + 1) _ ?_
    repeat' first
      | exact h
      | exact rfl
      | refine CodeGen.Extends.ext_emit_plain ?_ _ ?_

theorem write_header_extends (struct_name : Str) (size capacity : Nat) {cg0 cg : CodeGen}
    (h : cg0.Extends cg) : cg0.Extends (write_header struct_name size capacity cg).2 := by
  unfold write_header
  repeat' first
    | exact h
    | exact rfl
    | refine CodeGen.Extends.ext_emit_plain ?_ _ ?_

theorem evaluate_string_literal_extends (identifier : Str) {cg0 cg : CodeGen}
    (h : cg0.Extends cg) : cg0.Extends (evaluate_string_literal identifier cg).2 := by
  unfold evaluate_string_literal
  dsimp only
  refine CodeGen.Extends.ext_emit_plain ?_ _ rfl
  refine CodeGen.Extends.ext_emit_plain ?_ _ rfl
  refine CodeGen.Extends.ext_emit_plain ?_ _ rfl
  refine CodeGen.Extends.ext_emit_plain ?_ _ rfl
  refine CodeGen.Extends.ext_emit_plain ?_ _ rfl
  refine CodeGen.Extends.ext_emit_plain ?_ _ rfl
  refine store_chars_extends _ _ _ _ _ ?_
  refine CodeGen.Extends.ext_emit_plain ?_ _ rfl
  exact write_header_extends _ _ _ h

theorem evaluate_atom_extends (atom : Atom) (st : State) (r : Option Value × Atom × State)
    {cg0 : CodeGen} (h : cg0.Extends st.2) (hr : evaluate_atom atom st = .ok r) :
    cg0.Extends r.2.2.2 := by
  unfold evaluate_atom at hr
  split at hr
  · rename_i result hm
    unfold evaluate_member at hm
    split at hm
    · cases hm
    · split at hm
      · cases hm
      · split at hm
        · cases hm
        · split at hm
          · cases hm
          · simp only at hm
            split at hm
            · simp only [Option.some.injEq] at hm
              subst hm
              cases hr
            · split at hm
              · simp only [Option.some.injEq] at hm
                subst hm
                simp only [Except.ok.injEq] at hr
                subst hr
                repeat' first
                  | exact h
                  | exact rfl
                  | refine CodeGen.Extends.ext_emit_plain ?_ _ ?_
              · simp only [Option.some.injEq] at hm
                subst hm
                simp only [Except.ok.injEq] at hr
                subst hr
                repeat' first
                  | exact h
                  | exact rfl
                  | refine CodeGen.Extends.ext_emit_plain ?_ _ ?_
  · split at hr
    · simp only [Except.ok.injEq] at hr
      subst hr
      exact evaluate_string_literal_extends _ h
    · split at hr
      · simp only [Except.ok.injEq] at hr
        subst hr
        exact h
      · cases hc : get_llvm_constant st.1 atom with
        | error e => rw [hc] at hr; cases hr
        | ok c =>
          rw [hc] at hr
          simp only [Except.bind] at hr
          split at hr
          · simp only [Except.ok.injEq] at hr
            subst hr
            repeat' first
              | exact h
              | exact rfl
              | refine CodeGen.Extends.ext_emit_plain ?_ _ ?_
          · simp only [Except.ok.injEq] at hr
            subst hr
            exact h

theorem build_def_extends (mol : Molecule) (st : State) (r : Evaluated CodeGen)
    {cg0 : CodeGen} (h : cg0.Extends st.2) (hr : build_def mol st = .ok r) :
    cg0.Extends r.2.2.2 := by
  unfold build_def at hr
  split at hr
  · simp only at hr
    split at hr
    · simp only [Except.ok.injEq] at hr; subst hr; exact h
    · simp only [Except.ok.injEq] at hr
      subst hr
      simp only
      repeat' first
        | exact h
        | exact rfl
        | refine CodeGen.Extends.ext_emit_plain ?_ _ ?_
        | split
  · simp only [Except.ok.injEq] at hr; subst hr; exact h
/-- A result that is returned as it is. -/
theorem extends_of_ok {α : Type} (f : α → CodeGen) {cg0 : CodeGen} (x : α)
    (h : cg0.Extends (f x)) : ∀ r, Except.ok (ε := Fault) x = .ok r → cg0.Extends (f r) := by
  intro r hr
  simp only [Except.ok.injEq] at hr
  subst hr
  exact h

theorem extends_of_error {α : Type} (f : α → CodeGen) {cg0 : CodeGen} (e : Fault) :
    ∀ r : α, Except.error e = .ok r → cg0.Extends (f r) := by
  intro r hr
  cases hr

theorem extends_of_bind {α β : Type} (f : β → CodeGen) {cg0 : CodeGen} (x : Except Fault α)
    (k : α → Except Fault β)
    (h : ∀ a, x = .ok a → ∀ r, k a = .ok r → cg0.Extends (f r)) :
    ∀ r, x.bind k = .ok r → cg0.Extends (f r) := by
  intro r hr
  cases hx : x with
  | error e => rw [hx] at hr; cases hr
  | ok a => rw [hx] at hr; exact h a hx r hr

theorem extends_of_map {α β : Type} (f : β → CodeGen) {cg0 : CodeGen} (x : Except Fault α)
    (g : α → β) (h : ∀ a, x = .ok a → cg0.Extends (f (g a))) :
    ∀ r, x.map g = .ok r → cg0.Extends (f r) := by
  intro r hr
  cases hx : x with
  | error e => rw [hx] at hr; cases hr
  | ok a =>
    rw [hx] at hr
    simp only [Except.map, Except.ok.injEq] at hr
    subst hr
    exact h a hx

theorem build_reassign_extends (mol : Molecule) (st : State) (r : Evaluated CodeGen)
    {cg0 : CodeGen} (h : cg0.Extends st.2) (hr : build_reassign mol st = .ok r) :
    cg0.Extends r.2.2.2 := by
  revert r
  unfold build_reassign
  repeat' first
    | exact h
    | exact rfl
    | refine extends_of_ok (fun r : Evaluated CodeGen => r.2.2.2) _ ?_
    | refine CodeGen.Extends.ext_emit_plain ?_ _ ?_
    | split
    | dsimp only

theorem build_return_extends (mol : Molecule) (args : List Value) (st : State)
    (r : Evaluated CodeGen) {cg0 : CodeGen} (h : cg0.Extends st.2)
    (hr : build_return mol args st = .ok r) : cg0.Extends r.2.2.2 := by
  revert r
  unfold build_return
  repeat' first
    | exact h
    | exact rfl
    | exact extends_of_error _ _
    | refine extends_of_ok (fun r : Evaluated CodeGen => r.2.2.2) _ ?_
    | refine extends_of_bind (fun r : Evaluated CodeGen => r.2.2.2) _ _ (fun t _ => ?_)
    | refine CodeGen.Extends.ext_emit_plain ?_ _ ?_
    | split

theorem store_elements_extends (element_type data_array_type : LType) (data_alloc : Value)
    {cg0 : CodeGen} :
    ∀ (args : List Value) (i : Nat) (cg : CodeGen), cg0.Extends cg →
      cg0.Extends (store_elements element_type data_array_type data_alloc args i cg)
  | [], _, _, h => h
  | arg :: rest, i, cg, h => by
    rw [store_elements]
    refine store_elements_extends element_type data_array_type data_alloc rest (i + 1) _ ?_
    repeat' first
      | exact h
      | exact rfl
      | refine CodeGen.Extends.ext_emit_plain ?_ _ ?_

theorem write_elements_extends (element_type : LType) (args : List Value) (array_alloc : Value)
    {cg0 cg : CodeGen} (h : cg0.Extends cg) :
    cg0.Extends (write_elements element_type args array_alloc cg).2 := by
  unfold write_elements
  dsimp only
  refine CodeGen.Extends.ext_emit_plain ?_ _ rfl
  refine CodeGen.Extends.ext_emit_plain ?_ _ rfl
  refine CodeGen.Extends.ext_emit_plain ?_ _ rfl
  refine CodeGen.Extends.ext_emit_plain ?_ _ rfl
  refine store_elements_extends _ _ _ _ _ _ ?_
  exact h.ext_emit_plain _ rfl

theorem build_array_extends (mol : Molecule) (args : List Value) (st : State)
    (r : Evaluated CodeGen) {cg0 : CodeGen} (h : cg0.Extends st.2)
    (hr : build_array mol args st = .ok r) : cg0.Extends r.2.2.2 := by
  revert r
  unfold build_array
  split
  · exact extends_of_ok (fun r : Evaluated CodeGen => r.2.2.2) _ h
  · split
    · refine extends_of_bind (fun r : Evaluated CodeGen => r.2.2.2) _ _ (fun t _ => ?_)
      dsimp only
      refine extends_of_ok (fun r : Evaluated CodeGen => r.2.2.2) _ ?_
      exact write_elements_extends _ _ _ (write_header_extends _ _ _ h)
    · exact extends_of_error _ _

theorem extract_cstring_extends (str_ptr_ptr : Value) {cg0 cg : CodeGen} (h : cg0.Extends cg) :
    cg0.Extends (extract_cstring str_ptr_ptr cg).2 := by
  unfold extract_cstring
  repeat' first
    | exact h
    | exact rfl
    | refine CodeGen.Extends.ext_emit_plain ?_ _ ?_

theorem marshal_arguments_extends (captured_param_types : List Str) {cg0 : CodeGen} :
    ∀ (args : List Value) (i : Nat) (st : State) (r : List Operand × State),
      cg0.Extends st.2 → marshal_arguments captured_param_types args i st = .ok r →
      cg0.Extends r.2.2
  | [], _, st, r, h, hr => by
    simp only [marshal_arguments, Except.ok.injEq] at hr
    subst hr
    exact h
  | arg :: rest, i, st, r, h, hr => by
    revert r
    rw [marshal_arguments]
    split
    · exact extends_of_error _ _
    · dsimp only
      refine extends_of_map (fun r : List Operand × State => r.2.2) _ _ (fun r1 hr1 => ?_)
      refine marshal_arguments_extends captured_param_types rest (i + 1) _ r1 ?_ hr1
      dsimp only
      repeat' first
        | exact h
        | exact rfl
        | refine extract_cstring_extends _ ?_
        | refine CodeGen.Extends.ext_emit_plain ?_ _ ?_
        | split

theorem call_and_store_extends (callee : Nat) (call_args : List Operand) (llvm_ret_type : LType)
    (mol : Molecule) (st : State) {cg0 : CodeGen} (h : cg0.Extends st.2) :
    cg0.Extends (call_and_store callee call_args llvm_ret_type mol st).2.2.2 := by
  unfold call_and_store
  dsimp only
  repeat' first
    | exact h
    | exact rfl
    | refine CodeGen.Extends.ext_emit_plain ?_ _ ?_
    | split

theorem call_external_extends (extern_func : Value) (captured_param_types : List Str)
    (llvm_ret_type : LType) (mol : Molecule) (args : List Value) (st : State)
    (r : Evaluated CodeGen) {cg0 : CodeGen} (h : cg0.Extends st.2)
    (hr : call_external extern_func captured_param_types llvm_ret_type mol args st = .ok r) :
    cg0.Extends r.2.2.2 := by
  revert r
  unfold call_external
  refine extends_of_map (fun r : Evaluated CodeGen => r.2.2.2) _ _ (fun m hm => ?_)
  exact call_and_store_extends _ _ _ _ _ (marshal_arguments_extends _ _ _ _ _ h hm)

theorem load_arguments_extends (llvm_param_types : List LType) {cg0 : CodeGen} :
    ∀ (args : List Value) (i : Nat) (cg : CodeGen) (r : List Operand × CodeGen),
      cg0.Extends cg → load_arguments llvm_param_types args i cg = .ok r → cg0.Extends r.2
  | [], _, cg, r, h, hr => by
    simp only [load_arguments, Except.ok.injEq] at hr
    subst hr
    exact h
  | arg :: rest, i, cg, r, h, hr => by
    revert r
    rw [load_arguments]
    split
    · exact extends_of_error _ _
    · dsimp only
      refine extends_of_map (fun r : List Operand × CodeGen => r.2) _ _ (fun r1 hr1 => ?_)
      exact load_arguments_extends llvm_param_types rest (i + 1) _ r1
        (h.ext_emit_plain (.load _ (.value arg) []) rfl) hr1

theorem call_function_extends (Func : Value) (llvm_param_types : List LType)
    (llvm_ret_type : LType) (mol : Molecule) (args : List Value) (st : State)
    (r : Evaluated CodeGen) {cg0 : CodeGen} (h : cg0.Extends st.2)
    (hr : call_function Func llvm_param_types llvm_ret_type mol args st = .ok r) :
    cg0.Extends r.2.2.2 := by
  revert r
  unfold call_function
  refine extends_of_map (fun r : Evaluated CodeGen => r.2.2.2) _ _ (fun m hm => ?_)
  exact call_and_store_extends _ _ _ _ (st.1, m.2) (load_arguments_extends _ _ _ _ _ h hm)

/-- The modelled builders only generate code, if the others do. -/
theorem run_builder_framed
    (others : Build → Molecule → List Value → State → Except Fault (Evaluated CodeGen))
    (ho : Framed others) : Framed (run_builder others) := by
  intro b mol args st r hw hr
  have h := CodeGen.Extends.ext_refl st.2 hw
  cases b with
  | build_def => exact build_def_extends mol st r h hr
  | build_reassign => exact build_reassign_extends mol st r h hr
  | build_return => exact build_return_extends mol args st r h hr
  | build_array => exact build_array_extends mol args st r h hr
  | call_fun Func llvm_param_types llvm_ret_type => exact call_function_extends _ _ _ _ _ _ r h hr
  | call_extern extern_func captured_param_types llvm_ret_type =>
    exact call_external_extends _ _ _ _ _ _ r h hr
  | _ => exact ho _ mol args st r hw hr

theorem no_others_framed : Framed no_others := by
  intro b mol args st r hw hr
  simp only [no_others, Except.ok.injEq] at hr
  subst hr
  exact CodeGen.Extends.ext_refl _ hw
/-! ### The steps of `compile` extend the module -/

theorem branch_unless_terminated_extends {cg0 cg : CodeGen} (h : cg0.Extends cg) (dest : Nat)
    (hd : cg0.next ≤ dest ∧ dest < cg.next) (r : CodeGen)
    (hr : branch_unless_terminated cg dest = .ok r) : cg0.Extends r := by
  revert r
  unfold branch_unless_terminated
  refine extends_of_map (fun r : CodeGen => r) _ _ (fun terminated _ => ?_)
  dsimp only
  split
  · exact h
  · exact h.ext_emit _ (fun b hb => by
      simp only [Instr.successors, List.mem_singleton] at hb
      subst hb
      exact hd)

theorem keep_or_erase_extends {cg0 cg : CodeGen} (h : cg0.Extends cg) (MergeBB : Nat)
    (hm : cg0.next ≤ MergeBB) : cg0.Extends (keep_or_erase cg MergeBB) := by
  unfold keep_or_erase
  split
  · exact h.ext_same _ rfl rfl
  · exact h.ext_erase _ hm

theorem allocate_parameters_extends (Func : Nat) {cg0 : CodeGen} :
    ∀ (params : List Atom) (idx : Nat) (st : State), cg0.Extends st.2 →
      cg0.Extends (allocate_parameters Func params idx st).2
  | [], _, _, h => h
  | param :: rest, idx, st, h => by
    rw [allocate_parameters]
    refine allocate_parameters_extends Func rest (idx + 1) _ ?_
    dsimp only
    repeat' first
      | exact h
      | exact rfl
      | refine CodeGen.Extends.ext_emit_plain ?_ _ ?_

theorem enter_function_extends (func_name return_type : Str) (params : List Atom) (st : State)
    {cg0 : CodeGen} (h : cg0.Extends st.2) :
    cg0.Extends (enter_function func_name return_type params st).2.2 := by
  unfold enter_function
  dsimp only
  refine allocate_parameters_extends _ _ _ _ ?_
  exact (CodeGen.Extends.ext_create_block
    (h.ext_same (st.2.create_function func_name (get_llvm_type return_type)
      (params.map fun param => get_llvm_type param.type)).2 rfl rfl) _ _).ext_same _ rfl rfl

theorem implicit_return_extends {cg0 cg : CodeGen} (h : cg0.Extends cg) (llvm_ret_type : LType)
    (r : CodeGen) (hr : implicit_return cg llvm_ret_type = .ok r) : cg0.Extends r := by
  revert r
  unfold implicit_return
  refine extends_of_map (fun r : CodeGen => r) _ _ (fun terminated _ => ?_)
  dsimp only
  repeat' first
    | exact h
    | exact rfl
    | refine CodeGen.Extends.ext_emit_plain ?_ _ ?_
    | split

theorem leave_function_extends (func_name return_type : Str) (params : List Atom) (Func : Nat)
    (SavedBB : Option Nat) (saved_registry : Table MemObject) (st : State) (r : State)
    {cg0 : CodeGen} (h : cg0.Extends st.2)
    (hr : leave_function func_name return_type params Func SavedBB saved_registry st = .ok r) :
    cg0.Extends r.2 := by
  revert r
  unfold leave_function
  refine extends_of_bind (fun r : State => r.2) _ _ (fun cg hcg => ?_)
  have hc := implicit_return_extends h _ cg hcg
  split
  · exact extends_of_error _ _
  · exact extends_of_ok (fun r : State => r.2) _ (hc.ext_same _ rfl rfl)

theorem store_fields_extends (sdef : StructDef) (struct_alloc : Value) {cg0 : CodeGen} :
    ∀ (operands : List Particle) (i : Nat) (cg : CodeGen) (r : CodeGen), cg0.Extends cg →
      store_fields sdef struct_alloc operands i cg = .ok r → cg0.Extends r
  | [], _, cg, r, h, hr => by
    simp only [store_fields, Except.ok.injEq] at hr
    subst hr
    exact h
  | p :: rest, i, cg, r, h, hr => by
    rw [store_fields] at hr
    split at hr
    · cases hr
    · refine store_fields_extends sdef struct_alloc rest (i + 1) _ r ?_ hr
      repeat' first
        | exact h
        | exact rfl
        | refine CodeGen.Extends.ext_emit_plain ?_ _ ?_

theorem build_struct_literal_extends (sdef : StructDef) (operands : List Particle)
    {cg0 cg : CodeGen} (h : cg0.Extends cg) (r : Value × CodeGen)
    (hr : build_struct_literal sdef operands cg = .ok r) : cg0.Extends r.2 := by
  revert r
  unfold build_struct_literal
  dsimp only
  refine extends_of_map (fun r : Value × CodeGen => r.2) _ _ (fun c hc => ?_)
  have h1 := store_fields_extends sdef _ operands 0 _ c
    (h.ext_emit_plain (.alloca (.created sdef.llvm_type) "struct_instance".toList) rfl) hc
  dsimp only
  split
  · exact h1
  · refine CodeGen.Extends.ext_emit_plain ?_ _ rfl
    exact CodeGen.Extends.ext_emit_plain h1 _ rfl

theorem call_set_main_loop_extends {cg0 cg : CodeGen} (h : cg0.Extends cg)
    (ReturnPoint UpdateFunc : Nat) (fps_val : Value) :
    cg0.Extends (call_set_main_loop cg ReturnPoint UpdateFunc fps_val) := by
  unfold call_set_main_loop
  dsimp only
  refine CodeGen.Extends.ext_emit_plain ?_ _ rfl
  exact CodeGen.Extends.ext_getOrInsertFunction (h.ext_same (cg.SetInsertPoint ReturnPoint) rfl rfl) _ _ _

/-- `evaluate(Molecule&)` changes the module only through the builder. -/
theorem evaluate_extends
    (run : Build → Molecule → List Value → State → Except Fault (Evaluated CodeGen))
    (hrun : Framed run) (mol : Molecule) (st : State) (r : Evaluated CodeGen) {cg0 : CodeGen}
    (h : cg0.Extends st.2) (hr : evaluate run mol st = .ok r) : cg0.Extends r.2.2.2 := by
  have hstep : ∀ (b : Build) (args : List Value) (g : Globals) (r0 : Evaluated CodeGen),
      run b mol args (g, st.2) = .ok r0 → cg0.Extends r0.2.2.2 :=
    fun b args g r0 h0 => h.ext_trans (hrun b mol args (g, st.2) r0 h.2.1 h0)
  have hfall : ∀ (args : List Value) (fn_name : Str) (g : Globals) (r : Evaluated CodeGen),
      evaluate_fallback run mol args fn_name (g, st.2) = .ok r → cg0.Extends r.2.2.2 := by
    intro args fn_name g
    unfold evaluate_fallback
    split
    · exact extends_of_map (fun r : Evaluated CodeGen => r.2.2.2) _ _
        (fun r0 h0 => hstep _ _ _ r0 h0)
    · exact extends_of_ok (fun r : Evaluated CodeGen => r.2.2.2) _ h
  have htry : ∀ (args : List Value) (tys : List Str) (g : Globals) (candidates : List Str)
      (r : Evaluated CodeGen),
      try_overloads run mol args tys candidates (g, st.2) = some (.ok r) →
      cg0.Extends r.2.2.2 := by
    intro args tys g candidates
    induction candidates with
    | nil => intro r h0; simp [try_overloads] at h0
    | cons c rest ih =>
      intro r h0
      simp only [try_overloads] at h0
      split at h0
      · split at h0
        · simp only [Option.some.injEq] at h0
          revert r
          refine extends_of_bind (fun r : Evaluated CodeGen => r.2.2.2) _ _ (fun r0 h1 => ?_)
          refine extends_of_bind (fun r : Evaluated CodeGen => r.2.2.2) _ _ (fun t _ => ?_)
          exact extends_of_ok (fun r : Evaluated CodeGen => r.2.2.2) _ (hstep _ _ _ r0 h1)
        · exact ih r h0
      · exact ih r h0
  revert r
  unfold evaluate
  split
  · exact extends_of_error _ _
  · exact extends_of_ok (fun r : Evaluated CodeGen => r.2.2.2) _ h
  · dsimp only
    split
    · refine extends_of_bind (fun r : Evaluated CodeGen => r.2.2.2) _ _ (fun a _ => ?_)
      intro r hr
      split at hr
      · rename_i result htr
        subst hr
        exact htry _ _ _ _ r htr
      · exact hfall _ _ _ r hr
    · intro r hr
      exact hfall _ _ st.1 r hr

/-! ### `compile`, unfolded -/

set_option smartUnfolding false in
theorem compile_atom_eq
    (run : Build → Molecule → List Value → State → Except Fault (Evaluated CodeGen))
    (atom : Atom) (st : State) :
    compile run (.atom atom) st = (evaluate_atom atom st).map fun r => (.atom r.2.1, r.2.2) :=
  rfl

set_option smartUnfolding false in
theorem compile_molecule_subject
    (run : Build → Molecule → List Value → State → Except Fault (Evaluated CodeGen))
    (subject : Molecule) (operands : List Particle) (stored_in : Option Value) (type : Str)
    (eval : Bool) (st : State) :
    compile run (.molecule ⟨.molecule subject :: operands, stored_in, type, eval⟩) st =
      (compile_missing run operands st).bind fun r =>
        (evaluate run ⟨.molecule subject :: r.1, stored_in, type, eval⟩ r.2).map fun e =>
          (.molecule e.2.1, e.2.2) := rfl

set_option smartUnfolding false in
theorem compile_each_cons
    (run : Build → Molecule → List Value → State → Except Fault (Evaluated CodeGen))
    (p : Particle) (ps : List Particle) (st : State) :
    compile_each run (p :: ps) st =
      (compile run p st).bind fun r =>
        (compile_each run ps r.2).map fun rs => (r.1 :: rs.1, rs.2) := by
  cases p <;> rfl

set_option smartUnfolding false in
theorem compile_missing_nil
    (run : Build → Molecule → List Value → State → Except Fault (Evaluated CodeGen))
    (st : State) : compile_missing run [] st = .ok ([], st) := rfl

set_option smartUnfolding false in
theorem compile_missing_cons
    (run : Build → Molecule → List Value → State → Except Fault (Evaluated CodeGen))
    (p : Particle) (ps : List Particle) (st : State) :
    compile_missing run (p :: ps) st =
      match get_stored_in p with
      | some _ => (compile_missing run ps st).map fun rs => (p :: rs.1, rs.2)
      | none =>
        (compile run p st).bind fun r =>
          (compile_missing run ps r.2).map fun rs => (r.1 :: rs.1, rs.2) := by
  cases p <;> rfl

set_option smartUnfolding false in
/-- The `if` branch of `compile` on a form with an else arm. -/
theorem compile_if_else
    (run : Build → Molecule → List Value → State → Except Fault (Evaluated CodeGen))
    (s1 : Option Value) (t1 m1 : Str) (l1 : Int) (condition then_branch else_branch : Particle)
    (stored_in : Option Value) (type : Str) (eval : Bool) (st : State) :
    compile run (.molecule ⟨[.atom ⟨"if".toList, s1, t1, m1, l1⟩, condition, then_branch,
        else_branch], stored_in, type, eval⟩) st =
    (compile run condition st).bind fun c =>
      (c.2.2.emit (.load .i1 (Operand.of (get_stored_in c.1)) "ifcond".toList)).2.getParent.bind
        fun TheFunction =>
          (compile run then_branch (c.2.1,
            ((((((c.2.2.emit (.load .i1 (Operand.of (get_stored_in c.1))
              "ifcond".toList)).2.create_block "then".toList TheFunction).2.create_block
              "else".toList TheFunction).2.create_block "ifcont".toList TheFunction).2.emit
              (.cond_br (.value c.2.2.next) (c.2.2.next + 1) (c.2.2.next + 2))).2.SetInsertPoint
              (c.2.2.next + 1)))).bind fun t =>
            (branch_unless_terminated t.2.2 (c.2.2.next + 3)).bind fun cg =>
              (compile run else_branch (t.2.1, cg.SetInsertPoint (c.2.2.next + 2))).bind fun e =>
                (branch_unless_terminated e.2.2 (c.2.2.next + 3)).map fun cg =>
                  (.molecule ⟨[.atom ⟨"if".toList, s1, t1, m1, l1⟩, c.1, t.1, e.1],
                      stored_in, type, eval⟩,
                    (e.2.1, keep_or_erase cg (c.2.2.next + 3))) := rfl

set_option smartUnfolding false in
/-- The `if` branch of `compile` on a form without an else arm: two operands,
or more than three. -/
theorem compile_if_no_else
    (run : Build → Molecule → List Value → State → Except Fault (Evaluated CodeGen))
    (s1 : Option Value) (t1 m1 : Str) (l1 : Int) (condition then_branch : Particle)
    (after : List Particle) (hafter : after.length ≠ 1)
    (stored_in : Option Value) (type : Str) (eval : Bool) (st : State) :
    compile run (.molecule ⟨.atom ⟨"if".toList, s1, t1, m1, l1⟩ :: condition :: then_branch ::
        after, stored_in, type, eval⟩) st =
    (compile run condition st).bind fun c =>
      (c.2.2.emit (.load .i1 (Operand.of (get_stored_in c.1)) "ifcond".toList)).2.getParent.bind
        fun TheFunction =>
          (compile run then_branch (c.2.1,
            (((((c.2.2.emit (.load .i1 (Operand.of (get_stored_in c.1))
              "ifcond".toList)).2.create_block "then".toList TheFunction).2.create_block
              "ifcont".toList TheFunction).2.emit
              (.cond_br (.value c.2.2.next) (c.2.2.next + 1) (c.2.2.next + 2))).2.SetInsertPoint
              (c.2.2.next + 1)))).bind fun t =>
            (branch_unless_terminated t.2.2 (c.2.2.next + 2)).bind fun cg =>
              .ok (.molecule ⟨.atom ⟨"if".toList, s1, t1, m1, l1⟩ :: c.1 :: t.1 :: after,
                  stored_in, type, eval⟩,
                (t.2.1, keep_or_erase cg (c.2.2.next + 2))) := by
  rcases after with _ | ⟨e, _ | ⟨e2, more⟩⟩
  · rfl
  · exact absurd rfl hafter
  · rfl
/-! ### The frame of `compile` -/

theorem CodeGen.Extends.ext_SetInsertPoint {cg0 cg : CodeGen} (h : cg0.Extends cg) (b : Nat) :
    cg0.Extends (cg.SetInsertPoint b) :=
  h.ext_same _ rfl rfl

theorem CodeGen.Extends.ext_create_function {cg0 cg : CodeGen} (h : cg0.Extends cg) (name : Str)
    (return_type : LType) (param_types : List LType) :
    cg0.Extends (cg.create_function name return_type param_types).2 :=
  h.ext_same _ rfl rfl

theorem CodeGen.Extends.ext_create_struct {cg0 cg : CodeGen} (h : cg0.Extends cg) (name : Str)
    (fields : List LType) : cg0.Extends (cg.create_struct name fields).2 :=
  h.ext_same _ rfl rfl

theorem branch_unless_terminated_next (cg : CodeGen) (dest : Nat) (r : CodeGen)
    (hr : branch_unless_terminated cg dest = .ok r) : cg.next ≤ r.next := by
  unfold branch_unless_terminated at hr
  cases ht : cg.getTerminator with
  | error e => rw [ht] at hr; cases hr
  | ok terminated =>
    rw [ht] at hr
    simp only [Except.map, Except.ok.injEq] at hr
    subst hr
    split
    · exact Nat.le_refl _
    · exact Nat.le_succ _

theorem sizeOf_lt_of_mem_atoms {q : Particle} {atoms : List Particle} (hq : q ∈ atoms)
    (stored_in : Option Value) (type : Str) (eval : Bool) :
    sizeOf q < sizeOf (Particle.molecule ⟨atoms, stored_in, type, eval⟩) := by
  have := List.sizeOf_lt_of_mem hq
  simp only [Particle.molecule.sizeOf_spec, MoleculeOf.mk.sizeOf_spec]
  omega

theorem compile_each_extends
    (run : Build → Molecule → List Value → State → Except Fault (Evaluated CodeGen))
    (ps : List Particle)
    (hP : ∀ p ∈ ps, ∀ (st : State) (cg0 : CodeGen), cg0.Extends st.2 →
      ∀ r, compile run p st = .ok r → cg0.Extends r.2.2) :
    ∀ (st : State) (cg0 : CodeGen), cg0.Extends st.2 →
      ∀ r, compile_each run ps st = .ok r → cg0.Extends r.2.2 := by
  induction ps with
  | nil =>
    intro st cg0 h
    exact extends_of_ok (fun r : List Particle × State => r.2.2) _ h
  | cons p ps ih =>
    intro st cg0 h
    rw [compile_each_cons]
    refine extends_of_bind (fun r : List Particle × State => r.2.2) _ _ (fun a ha => ?_)
    refine extends_of_map (fun r : List Particle × State => r.2.2) _ _ (fun b hb => ?_)
    exact ih (fun q hq => hP q (List.mem_cons_of_mem _ hq)) a.2 cg0
      (hP p (List.mem_cons_self _ _) st cg0 h a ha) b hb

theorem compile_missing_extends
    (run : Build → Molecule → List Value → State → Except Fault (Evaluated CodeGen))
    (ps : List Particle)
    (hP : ∀ p ∈ ps, ∀ (st : State) (cg0 : CodeGen), cg0.Extends st.2 →
      ∀ r, compile run p st = .ok r → cg0.Extends r.2.2) :
    ∀ (st : State) (cg0 : CodeGen), cg0.Extends st.2 →
      ∀ r, compile_missing run ps st = .ok r → cg0.Extends r.2.2 := by
  induction ps with
  | nil =>
    intro st cg0 h
    exact extends_of_ok (fun r : List Particle × State => r.2.2) _ h
  | cons p ps ih =>
    intro st cg0 h
    rw [compile_missing_cons]
    split
    · refine extends_of_map (fun r : List Particle × State => r.2.2) _ _ (fun b hb => ?_)
      exact ih (fun q hq => hP q (List.mem_cons_of_mem _ hq)) st cg0 h b hb
    · refine extends_of_bind (fun r : List Particle × State => r.2.2) _ _ (fun a ha => ?_)
      refine extends_of_map (fun r : List Particle × State => r.2.2) _ _ (fun b hb => ?_)
      exact ih (fun q hq => hP q (List.mem_cons_of_mem _ hq)) a.2 cg0
        (hP p (List.mem_cons_self _ _) st cg0 h a ha) b hb

theorem declare_external_extends (func_name return_type : Str) (params : List Atom) (st : State)
    {cg0 : CodeGen} (h : cg0.Extends st.2) :
    cg0.Extends (declare_external func_name return_type params st).2 := by
  unfold declare_external
  exact CodeGen.Extends.ext_getOrInsertFunction h _ _ _

theorem register_struct_extends (struct_name : Str) (fields : List Atom) (external : Bool)
    (st : State) {cg0 : CodeGen} (h : cg0.Extends st.2) :
    cg0.Extends (register_struct struct_name fields external st).2 := by
  unfold register_struct
  exact CodeGen.Extends.ext_create_struct h _ _
set_option smartUnfolding false in
theorem compile_nil_eq
    (run : Build → Molecule → List Value → State → Except Fault (Evaluated CodeGen))
    (stored_in : Option Value) (type : Str) (eval : Bool) (st : State) :
    compile run (.molecule ⟨[], stored_in, type, eval⟩) st =
      .ok (.molecule ⟨[], stored_in, type, eval⟩, st) := rfl

/-- Compilation changes the module only by code generation, by induction on
the size of the node. -/
theorem compile_extends_aux
    (run : Build → Molecule → List Value → State → Except Fault (Evaluated CodeGen))
    (hrun : Framed run) :
    ∀ (n : Nat) (p : Particle), sizeOf p ≤ n → ∀ (st : State) (cg0 : CodeGen),
      cg0.Extends st.2 → ∀ r, compile run p st = .ok r → cg0.Extends r.2.2 := by
  intro n
  induction n with
  | zero =>
    intro p hp
    cases p <;> simp at hp
  | succ n ih =>
    intro p hp st cg0 h
    have both : ∀ q, sizeOf q ≤ n → ∀ (st : State) (cg0 : CodeGen), cg0.Extends st.2 →
        ∀ r, compile run q st = .ok r → cg0.Extends r.2.2 ∧ st.2.next ≤ r.2.2.next :=
      fun q hq st cg0 h r hr =>
        ⟨ih q hq st cg0 h r hr, (ih q hq st st.2 (CodeGen.Extends.ext_refl _ h.2.1) r hr).2.2.1⟩
    have hle := h.2.2.1
    rcases p with atom | ⟨atoms, stored_in, type, eval⟩
    · rw [compile_atom_eq]
      refine extends_of_map (fun r : Particle × State => r.2.2) _ _ (fun a ha => ?_)
      exact evaluate_atom_extends atom st a h ha
    · have hsub : ∀ q ∈ atoms, sizeOf q ≤ n := fun q hq => by
        have := sizeOf_lt_of_mem_atoms hq stored_in type eval
        omega
      rcases atoms with _ | ⟨head, operands⟩
      · rw [compile_nil_eq]
        exact extends_of_ok (fun r : Particle × State => r.2.2) _ h
      · have hP : ∀ q ∈ operands, ∀ (st : State) (cg0 : CodeGen), cg0.Extends st.2 →
            ∀ r, compile run q st = .ok r → cg0.Extends r.2.2 :=
          fun q hq => ih q (hsub q (List.mem_cons_of_mem _ hq))
        rcases head with subject | subject
        swap
        · rw [compile_molecule_subject]
          refine extends_of_bind (fun r : Particle × State => r.2.2) _ _ (fun a ha => ?_)
          refine extends_of_map (fun r : Particle × State => r.2.2) _ _ (fun e he => ?_)
          exact evaluate_extends run hrun _ a.2 e
            (compile_missing_extends run operands hP st cg0 h a ha) he
        · by_cases hif : subject.identifier = "if".toList
          · rcases subject with ⟨id, s1, t1, m1, l1⟩
            dsimp only at hif
            subst hif
            rcases operands with _ | ⟨condition, _ | ⟨then_branch, after⟩⟩
            · rw [compile_atom_subject]
              exact extends_of_error _ _
            · rw [compile_atom_subject]
              dsimp only
              rw [if_neg (by decide), if_pos rfl]
              refine extends_of_bind (fun r : Particle × State => r.2.2) _ _ (fun c _ => ?_)
              refine extends_of_bind (fun r : Particle × State => r.2.2) _ _ (fun F _ => ?_)
              exact extends_of_error _ _
            · have hcond : sizeOf condition ≤ n := hsub _ (by simp)
              have hthen : sizeOf then_branch ≤ n := hsub _ (by simp)
              by_cases hafter : after.length = 1
              · obtain ⟨else_branch, rfl⟩ := List.length_eq_one.mp hafter
                have helse : sizeOf else_branch ≤ n := hsub _ (by simp)
                rw [compile_if_else]
                refine extends_of_bind (fun r : Particle × State => r.2.2) _ _ (fun c hc => ?_)
                obtain ⟨h1, h1n⟩ := both condition hcond st cg0 h c hc
                refine extends_of_bind (fun r : Particle × State => r.2.2) _ _ (fun F _ => ?_)
                refine extends_of_bind (fun r : Particle × State => r.2.2) _ _ (fun t ht => ?_)
                have h2 : cg0.Extends t.2.2 ∧ c.2.2.next + 5 ≤ t.2.2.next := by
                  refine both then_branch hthen _ cg0 ?_ t ht
                  refine CodeGen.Extends.ext_SetInsertPoint ?_ _
                  refine CodeGen.Extends.ext_emit ?_ _ ?_
                  · refine CodeGen.Extends.ext_create_block ?_ _ _
                    refine CodeGen.Extends.ext_create_block ?_ _ _
                    refine CodeGen.Extends.ext_create_block ?_ _ _
                    exact CodeGen.Extends.ext_emit_plain h1 _ rfl
                  · intro d hd
                    simp only [Instr.successors, List.mem_cons, List.mem_singleton,
                      List.not_mem_nil, or_false] at hd
                    show cg0.next ≤ d ∧ d < c.2.2.next + 4
                    have := h1.2.2.1
                    rcases hd with rfl | rfl <;> omega
                obtain ⟨h2, h2n⟩ := h2
                have h0 := h1.2.2.1
                refine extends_of_bind (fun r : Particle × State => r.2.2) _ _ (fun cg hcg => ?_)
                have h3 := branch_unless_terminated_extends h2 _
                  ⟨by omega, by omega⟩ cg hcg
                have h3n := branch_unless_terminated_next _ _ _ hcg
                refine extends_of_bind (fun r : Particle × State => r.2.2) _ _ (fun e he => ?_)
                obtain ⟨h4, h4n⟩ := both else_branch helse _ cg0
                  (h3.ext_SetInsertPoint (c.2.2.next + 2)) e he
                have h4n' : cg.next ≤ e.2.2.next := h4n
                refine extends_of_map (fun r : Particle × State => r.2.2) _ _ (fun cg2 hcg2 => ?_)
                have h5 := branch_unless_terminated_extends h4 _
                  ⟨by omega, by omega⟩ cg2 hcg2
                exact keep_or_erase_extends h5 _ (by omega)
              · rw [compile_if_no_else run s1 t1 m1 l1 condition then_branch after hafter]
                refine extends_of_bind (fun r : Particle × State => r.2.2) _ _ (fun c hc => ?_)
                obtain ⟨h1, h1n⟩ := both condition hcond st cg0 h c hc
                refine extends_of_bind (fun r : Particle × State => r.2.2) _ _ (fun F _ => ?_)
                refine extends_of_bind (fun r : Particle × State => r.2.2) _ _ (fun t ht => ?_)
                have h2 : cg0.Extends t.2.2 ∧ c.2.2.next + 4 ≤ t.2.2.next := by
                  refine both then_branch hthen _ cg0 ?_ t ht
                  refine CodeGen.Extends.ext_SetInsertPoint ?_ _
                  refine CodeGen.Extends.ext_emit ?_ _ ?_
                  · refine CodeGen.Extends.ext_create_block ?_ _ _
                    refine CodeGen.Extends.ext_create_block ?_ _ _
                    exact CodeGen.Extends.ext_emit_plain h1 _ rfl
                  · intro d hd
                    simp only [Instr.successors, List.mem_cons, List.mem_singleton,
                      List.not_mem_nil, or_false] at hd
                    show cg0.next ≤ d ∧ d < c.2.2.next + 3
                    have := h1.2.2.1
                    rcases hd with rfl | rfl <;> omega
                obtain ⟨h2, h2n⟩ := h2
                have h0 := h1.2.2.1
                refine extends_of_bind (fun r : Particle × State => r.2.2) _ _ (fun cg hcg => ?_)
                have h3 := branch_unless_terminated_extends h2 _
                  ⟨by omega, by omega⟩ cg hcg
                refine extends_of_ok (fun r : Particle × State => r.2.2) _ ?_
                exact keep_or_erase_extends h3 _ (by omega)
          rw [compile_atom_subject]
          dsimp only
          by_cases hblock : subject.identifier = "block".toList
          · rw [if_pos hblock]
            refine extends_of_bind (fun r : Particle × State => r.2.2) _ _ (fun F _ => ?_)
            refine extends_of_map (fun r : Particle × State => r.2.2) _ _ (fun b hb => ?_)
            refine compile_each_extends run operands hP _ cg0 ?_ b hb
            refine CodeGen.Extends.ext_SetInsertPoint ?_ _
            refine CodeGen.Extends.ext_emit ?_ _ ?_
            · exact h.ext_create_block _ _
            · intro d hd
              simp only [Instr.successors, List.mem_singleton] at hd
              subst hd
              exact ⟨hle, Nat.lt_succ_self _⟩
          rw [if_neg hblock, if_neg hif]
          by_cases hwhile : subject.identifier = "while".toList
          · rw [if_pos hwhile]
            refine extends_of_bind (fun r : Particle × State => r.2.2) _ _ (fun F _ => ?_)
            rcases operands with _ | ⟨condition, _ | ⟨body, rest⟩⟩
            · exact extends_of_error _ _
            · dsimp only
              refine extends_of_bind (fun r : Particle × State => r.2.2) _ _ (fun c _ => ?_)
              exact extends_of_error _ _
            · have hcond : sizeOf condition ≤ n := hsub _ (by simp)
              have hbody : sizeOf body ≤ n := hsub _ (by simp)
              dsimp only
              refine extends_of_bind (fun r : Particle × State => r.2.2) _ _ (fun c hc => ?_)
              have h1 : cg0.Extends c.2.2 ∧ st.2.next + 4 ≤ c.2.2.next := by
                refine both condition hcond _ cg0 ?_ c hc
                refine CodeGen.Extends.ext_SetInsertPoint ?_ _
                refine CodeGen.Extends.ext_emit ?_ _ ?_
                · refine CodeGen.Extends.ext_create_block ?_ _ _
                  refine CodeGen.Extends.ext_create_block ?_ _ _
                  exact CodeGen.Extends.ext_create_block h _ _
                · intro d hd
                  simp only [Instr.successors, List.mem_singleton] at hd
                  subst hd
                  show cg0.next ≤ st.2.next ∧ st.2.next < st.2.next + 3
                  omega
              obtain ⟨h1, h1n⟩ := h1
              refine extends_of_bind (fun r : Particle × State => r.2.2) _ _ (fun b hb => ?_)
              have h2 : cg0.Extends b.2.2 ∧ c.2.2.next + 2 ≤ b.2.2.next := by
                refine both body hbody _ cg0 ?_ b hb
                refine CodeGen.Extends.ext_SetInsertPoint ?_ _
                refine CodeGen.Extends.ext_emit ?_ _ ?_
                · exact CodeGen.Extends.ext_emit_plain h1 _ rfl
                · intro d hd
                  simp only [Instr.successors, List.mem_cons, List.mem_singleton,
                    List.not_mem_nil, or_false] at hd
                  rcases hd with rfl | rfl
                  · show cg0.next ≤ st.2.next + 1 ∧ st.2.next + 1 < c.2.2.next + 1
                    omega
                  · show cg0.next ≤ st.2.next + 2 ∧ st.2.next + 2 < c.2.2.next + 1
                    omega
              obtain ⟨h2, h2n⟩ := h2
              refine extends_of_map (fun r : Particle × State => r.2.2) _ _ (fun cg hcg => ?_)
              have h3 := branch_unless_terminated_extends h2 st.2.next
                ⟨by omega, by omega⟩ cg hcg
              exact h3.ext_SetInsertPoint _
          rw [if_neg hwhile]
          by_cases hweb : subject.identifier = "web-loop".toList
          · rw [if_pos hweb]
            rcases operands with _ | ⟨fps, _ | ⟨body, rest⟩⟩
            · exact extends_of_error _ _
            · dsimp only
              refine extends_of_bind (fun r : Particle × State => r.2.2) _ _ (fun f _ => ?_)
              split
              · exact extends_of_error _ _
              · exact extends_of_error _ _
            · have hfps : sizeOf fps ≤ n := hsub _ (by simp)
              have hbody : sizeOf body ≤ n := hsub _ (by simp)
              dsimp only
              refine extends_of_bind (fun r : Particle × State => r.2.2) _ _ (fun f hf => ?_)
              have h1 := ih fps hfps st cg0 h f hf
              split
              · refine extends_of_bind (fun r : Particle × State => r.2.2) _ _ (fun b hb => ?_)
                have h2 : cg0.Extends b.2.2 := by
                  refine ih body hbody _ cg0 ?_ b hb
                  refine CodeGen.Extends.ext_SetInsertPoint ?_ _
                  refine CodeGen.Extends.ext_create_block ?_ _ _
                  refine CodeGen.Extends.ext_create_function ?_ _ _ _
                  exact CodeGen.Extends.ext_emit_plain h1 _ rfl
                refine extends_of_map (fun r : Particle × State => r.2.2) _ _
                  (fun terminated _ => ?_)
                dsimp only
                refine call_set_main_loop_extends ?_ _ _ _
                split
                · exact h2
                · exact CodeGen.Extends.ext_emit_plain h2 _ rfl
              · exact extends_of_error _ _
          rw [if_neg hweb]
          by_cases hfun : subject.identifier = "fun".toList
          · rw [if_pos hfun]
            rcases operands with _ | ⟨(a | ⟨sig_atoms, sig_stored_in, sig_type, sig_eval⟩), after⟩
            · exact extends_of_error _ _
            · exact extends_of_error _ _
            dsimp only
            rcases sig_atoms with _ | ⟨(name | m), parameters⟩
            · exact extends_of_error _ _
            swap
            · exact extends_of_error _ _
            dsimp only
            refine extends_of_bind (fun r : Particle × State => r.2.2) _ _ (fun params _ => ?_)
            rcases after with _ | ⟨(a | ⟨body, body_stored_in, body_type, body_eval⟩), rest⟩
            · exact extends_of_error _ _
            · exact extends_of_error _ _
            dsimp only
            refine extends_of_bind (fun r : Particle × State => r.2.2) _ _ (fun b hb => ?_)
            refine extends_of_map (fun r : Particle × State => r.2.2) _ _ (fun left hleft => ?_)
            refine leave_function_extends _ _ _ _ _ _ _ left ?_ hleft
            have hentered := enter_function_extends name.identifier sig_type params st h
            clear hleft
            revert hb
            revert b
            rcases body with _ | ⟨head, commands⟩
            · intro b hb
              simp only [Except.ok.injEq] at hb
              subst hb
              exact hentered
            · dsimp only
              refine extends_of_map (fun r : List Particle × State => r.2.2) _ _ (fun r hr => ?_)
              refine compile_each_extends run commands (fun q hq => ih q ?_) _ cg0 hentered r hr
              have hb := hsub (.molecule ⟨head :: commands, body_stored_in, body_type, body_eval⟩)
                (by simp)
              have := sizeOf_lt_of_mem_atoms (List.mem_cons_of_mem head hq) body_stored_in
                body_type body_eval
              omega
          rw [if_neg hfun]
          by_cases hover : subject.identifier = "overload".toList
          · rw [if_pos hover]
            refine extends_of_map (fun r : Particle × State => r.2.2) _ _ (fun g _ => ?_)
            exact h
          rw [if_neg hover]
          by_cases hext : subject.identifier = "extern".toList
          · rw [if_pos hext]
            rcases operands with _ | ⟨(a | ⟨sig_atoms, sig_stored_in, sig_type, sig_eval⟩), after⟩
            · exact extends_of_error _ _
            · exact extends_of_error _ _
            dsimp only
            rcases sig_atoms with _ | ⟨(name | m), parameters⟩
            · exact extends_of_error _ _
            swap
            · exact extends_of_error _ _
            dsimp only
            refine extends_of_map (fun r : Particle × State => r.2.2) _ _ (fun params _ => ?_)
            exact declare_external_extends _ _ _ st h
          rw [if_neg hext]
          by_cases hstruct : subject.identifier = "struct".toList
          · rw [if_pos hstruct]
            rcases operands with _ | ⟨(a | fields_mol), after⟩
            · exact extends_of_error _ _
            · exact extends_of_error _ _
            dsimp only
            split
            · exact extends_of_ok (fun r : Particle × State => r.2.2) _ h
            · refine extends_of_map (fun r : Particle × State => r.2.2) _ _ (fun fields _ => ?_)
              exact register_struct_extends _ _ _ st h
          rw [if_neg hstruct]
          by_cases hes : subject.identifier = "extern-struct".toList
          · rw [if_pos hes]
            rcases operands with _ | ⟨(name | m), after⟩
            · exact extends_of_error _ _
            swap
            · exact extends_of_error _ _
            dsimp only
            split
            · exact extends_of_ok (fun r : Particle × State => r.2.2) _ h
            · rcases after with _ | ⟨(a | fields_mol), rest⟩
              · exact extends_of_error _ _
              · exact extends_of_error _ _
              dsimp only
              refine extends_of_map (fun r : Particle × State => r.2.2) _ _ (fun fields _ => ?_)
              exact register_struct_extends _ _ _ st h
          rw [if_neg hes]
          split
          · rename_i sdef _
            refine extends_of_bind (fun r : Particle × State => r.2.2) _ _ (fun r hr => ?_)
            refine extends_of_map (fun r : Particle × State => r.2.2) _ _ (fun v hv => ?_)
            exact build_struct_literal_extends sdef r.1
              (compile_each_extends run operands hP st cg0 h r hr) v hv
          · refine extends_of_bind (fun r : Particle × State => r.2.2) _ _ (fun a ha => ?_)
            refine extends_of_map (fun r : Particle × State => r.2.2) _ _ (fun e he => ?_)
            exact evaluate_extends run hrun _ a.2 e
              (compile_missing_extends run operands hP st cg0 h a ha) he

/-- Compilation changes the module only by code generation: the blocks that
exist stay, with the instructions they had in front, and no branch to one of
them is added. -/
theorem compile_extends
    (run : Build → Molecule → List Value → State → Except Fault (Evaluated CodeGen))
    (hrun : Framed run) (p : Particle) (st : State) (cg0 : CodeGen) (h : cg0.Extends st.2)
    (r : Particle × State) (hr : compile run p st = .ok r) : cg0.Extends r.2.2 :=
  compile_extends_aux run hrun (sizeOf p) p (Nat.le_refl _) st cg0 h r hr

/-! ### The merge block of `if` -/

theorem lookup_isSome_iff {β : Type} (l : List (Nat × β)) (b : Nat) :
    (l.lookup b).isSome = true ↔ ∃ e ∈ l, e.1 = b := by
  induction l with
  | nil => simp
  | cons e l ih =>
    obtain ⟨a, x⟩ := e
    rw [List.lookup_cons]
    cases hk : (b == a) with
    | true =>
      have : b = a := by simpa using hk
      subst this
      simp
    | false =>
      have hne : b ≠ a := by simpa using hk
      simp only [List.mem_cons, exists_eq_or_imp]
      rw [ih]
      constructor
      · intro h
        exact Or.inr h
      · rintro (h | h)
        · exact absurd h.symm hne
        · exact h

theorem CodeGen.Keeps.keeps_refl (cg : CodeGen) : cg.Keeps cg :=
  fun e he => ⟨e, he, rfl, List.prefix_refl _⟩

theorem CodeGen.Keeps.keeps_trans {a b c : CodeGen} (h1 : a.Keeps b) (h2 : b.Keeps c) :
    a.Keeps c := by
  intro e he
  obtain ⟨e1, he1, hn1, hp1⟩ := h1 e he
  obtain ⟨e2, he2, hn2, hp2⟩ := h2 e1 he1
  exact ⟨e2, he2, hn2.trans hn1, hp1.trans hp2⟩

theorem CodeGen.Keeps.keeps_same (cg cg' : CodeGen) (hb : cg'.blocks = cg.blocks) : cg.Keeps cg' := by
  intro e he
  rw [hb]
  exact ⟨e, he, rfl, List.prefix_refl _⟩

theorem CodeGen.Keeps.keeps_emit (cg : CodeGen) (i : Instr) : cg.Keeps (cg.emit i).2 := by
  intro e he
  unfold CodeGen.emit
  simp only
  cases hb : cg.insert_block with
  | none => exact ⟨e, he, rfl, List.prefix_refl _⟩
  | some b =>
    simp only
    by_cases hc : e.1 = b
    · exact ⟨(e.1, { e.2 with instrs := e.2.instrs ++ [(cg.next, i)] }),
        List.mem_map.mpr ⟨e, he, by rw [if_pos hc]⟩, rfl, List.prefix_append _ _⟩
    · exact ⟨e, List.mem_map.mpr ⟨e, he, by rw [if_neg hc]⟩, rfl, List.prefix_refl _⟩

theorem CodeGen.Keeps.keeps_create_block (cg : CodeGen) (name : Str) (parent : Nat) :
    cg.Keeps (cg.create_block name parent).2 :=
  fun e he => ⟨e, List.mem_append_left _ he, rfl, List.prefix_refl _⟩

theorem CodeGen.Extends.ext_keeps {cg cg' : CodeGen} (h : cg.Extends cg') : cg.Keeps cg' :=
  h.2.2.2.1

theorem CodeGen.Keeps.keeps_hasPredecessor {cg cg' : CodeGen} (h : cg.Keeps cg') (b : Nat)
    (hb : cg.hasPredecessor b = true) : cg'.hasPredecessor b = true := by
  rw [CodeGen.hasPredecessor_iff] at hb ⊢
  obtain ⟨e, he, i, hi, hbi⟩ := hb
  obtain ⟨e', he', -, hp⟩ := h e he
  exact ⟨e', he', i, hp.subset hi, hbi⟩

theorem CodeGen.Keeps.keeps_lookup_isSome {cg cg' : CodeGen} (h : cg.Keeps cg') (b : Nat)
    (hb : (cg.blocks.lookup b).isSome = true) : (cg'.blocks.lookup b).isSome = true := by
  rw [lookup_isSome_iff] at hb ⊢
  obtain ⟨e, he, rfl⟩ := hb
  obtain ⟨e', he', hn, -⟩ := h e he
  exact ⟨e', he', hn⟩

theorem branch_unless_terminated_keeps (cg : CodeGen) (dest : Nat) (r : CodeGen)
    (hr : branch_unless_terminated cg dest = .ok r) : cg.Keeps r := by
  unfold branch_unless_terminated at hr
  cases ht : cg.getTerminator with
  | error e => rw [ht] at hr; cases hr
  | ok terminated =>
    rw [ht] at hr
    simp only [Except.map, Except.ok.injEq] at hr
    subst hr
    split
    · exact CodeGen.Keeps.keeps_refl _
    · exact CodeGen.Keeps.keeps_emit _ _

theorem CodeGen.Ready.ready_of_getTerminator {cg : CodeGen} {x : Bool} (h : cg.getTerminator = .ok x) :
    cg.Ready := by
  unfold CodeGen.getTerminator at h
  unfold CodeGen.Ready
  cases hb : cg.insert_block with
  | none => rw [hb] at h; cases h
  | some b =>
    rw [hb] at h
    simp only at h
    cases hl : cg.blocks.lookup b with
    | none => rw [hl] at h; cases h
    | some block => simp [hl]

theorem CodeGen.Ready.ready_of_getParent {cg : CodeGen} {x : Nat} (h : cg.getParent = .ok x) :
    cg.Ready := by
  unfold CodeGen.getParent at h
  unfold CodeGen.Ready
  cases hb : cg.insert_block with
  | none => rw [hb] at h; cases h
  | some b =>
    rw [hb] at h
    simp only at h
    cases hl : cg.blocks.lookup b with
    | none => rw [hl] at h; cases h
    | some block => simp [hl]

theorem CodeGen.Ready.ready_create_block {cg : CodeGen} (h : cg.Ready) (name : Str)
    (parent : Nat) :
    (cg.create_block name parent).2.Ready := by
  unfold CodeGen.Ready at h ⊢
  cases hb : cg.insert_block with
  | none => rw [hb] at h; cases h
  | some b =>
    rw [hb] at h
    have h' : (cg.blocks.lookup b).isSome = true := h
    have hi : (cg.create_block name parent).2.insert_block = cg.insert_block := rfl
    rw [hi, hb]
    exact (CodeGen.Keeps.keeps_create_block cg name parent).keeps_lookup_isSome b h'

/-- A branch emitted into a block of the module makes a predecessor. -/
theorem CodeGen.Ready.ready_emit_hasPredecessor {cg : CodeGen} (h : cg.Ready) (i : Instr) (d : Nat)
    (hd : d ∈ i.successors) : (cg.emit i).2.hasPredecessor d = true := by
  unfold CodeGen.Ready at h
  cases hb : cg.insert_block with
  | none => rw [hb] at h; cases h
  | some b =>
    rw [hb] at h
    have h' : (cg.blocks.lookup b).isSome = true := h
    rw [lookup_isSome_iff] at h'
    obtain ⟨e, he, hn⟩ := h'
    rw [CodeGen.hasPredecessor_iff]
    refine ⟨(e.1, { e.2 with instrs := e.2.instrs ++ [(cg.next, i)] }), ?_, (cg.next, i), ?_, hd⟩
    · unfold CodeGen.emit
      simp only [hb]
      exact List.mem_map.mpr ⟨e, he, by rw [if_pos hn]⟩
    · simp

theorem CodeGen.hasPredecessor_of_emit (cg : CodeGen) (i : Instr) (b : Nat)
    (h : (cg.emit i).2.hasPredecessor b = true) :
    cg.hasPredecessor b = true ∨ b ∈ i.successors := by
  rw [CodeGen.hasPredecessor_iff] at h
  obtain ⟨e', he', j, hj, hbj⟩ := h
  rw [CodeGen.hasPredecessor_iff]
  unfold CodeGen.emit at he'
  simp only at he'
  cases hb : cg.insert_block with
  | none =>
    rw [hb] at he'
    exact Or.inl ⟨e', he', j, hj, hbj⟩
  | some blk =>
    rw [hb] at he'
    simp only [List.mem_map] at he'
    obtain ⟨e, he, rfl⟩ := he'
    split_ifs at hj with hc
    · simp only [List.mem_append, List.mem_singleton] at hj
      rcases hj with hj | hj
      · exact Or.inl ⟨e, he, j, hj, hbj⟩
      · subst hj
        exact Or.inr hbj
    · exact Or.inl ⟨e, he, j, hj, hbj⟩

theorem CodeGen.hasPredecessor_of_create_block (cg : CodeGen) (name : Str) (parent : Nat)
    (b : Nat) (h : (cg.create_block name parent).2.hasPredecessor b = true) :
    cg.hasPredecessor b = true := by
  rw [CodeGen.hasPredecessor_iff] at h ⊢
  obtain ⟨e, he, j, hj, hbj⟩ := h
  unfold CodeGen.create_block at he
  simp only [List.mem_append, List.mem_singleton] at he
  rcases he with he | he
  · exact ⟨e, he, j, hj, hbj⟩
  · subst he
    cases hj

theorem CodeGen.WellFormed.no_predecessor {cg : CodeGen} (h : cg.WellFormed) (b : Nat)
    (hb : cg.next ≤ b) : ¬ cg.hasPredecessor b = true := by
  intro hc
  rw [CodeGen.hasPredecessor_iff] at hc
  obtain ⟨e, he, j, hj, hbj⟩ := hc
  have := h.2 e he j hj b hbj
  omega

theorem CodeGen.lookup_eraseFromParent (cg : CodeGen) (b : Nat) :
    (cg.eraseFromParent b).blocks.lookup b = none := by
  cases hl : (cg.eraseFromParent b).blocks.lookup b with
  | none => rfl
  | some x =>
    have hs : ((cg.eraseFromParent b).blocks.lookup b).isSome = true := by rw [hl]; rfl
    rw [lookup_isSome_iff] at hs
    obtain ⟨e, he, hn⟩ := hs
    unfold CodeGen.eraseFromParent at he
    have := (List.mem_filter.mp he).2
    simp [hn] at this

theorem CodeGen.lookup_create_block (cg : CodeGen) (name : Str) (parent : Nat) :
    ((cg.create_block name parent).2.blocks.lookup cg.next).isSome = true := by
  rw [lookup_isSome_iff]
  exact ⟨(cg.next, { name := name, parent := parent, instrs := [] }),
    List.mem_append_right _ (List.mem_singleton.mpr rfl), rfl⟩
theorem bind_eq_ok {α β : Type} {x : Except Fault α} {k : α → Except Fault β} {r : β}
    (h : x.bind k = .ok r) : ∃ a, x = .ok a ∧ k a = .ok r := by
  cases hx : x with
  | error e => rw [hx] at h; cases h
  | ok a => rw [hx] at h; exact ⟨a, rfl, h⟩

theorem map_eq_ok {α β : Type} {x : Except Fault α} {g : α → β} {r : β}
    (h : x.map g = .ok r) : ∃ a, x = .ok a ∧ g a = r := by
  cases hx : x with
  | error e => rw [hx] at h; cases h
  | ok a =>
    rw [hx] at h
    simp only [Except.map, Except.ok.injEq] at h
    exact ⟨a, rfl, h⟩

theorem branch_unless_terminated_of_open {cg r : CodeGen} {dest : Nat}
    (hr : branch_unless_terminated cg dest = .ok r) (ht : cg.getTerminator = .ok false) :
    r = (cg.emit (.br dest)).2 := by
  unfold branch_unless_terminated at hr
  rw [ht] at hr
  simp only [Except.map, Except.ok.injEq] at hr
  exact hr.symm

theorem branch_unless_terminated_of_closed {cg r : CodeGen} {dest : Nat}
    (hr : branch_unless_terminated cg dest = .ok r) (ht : cg.getTerminator ≠ .ok false) :
    r = cg ∧ cg.getTerminator = .ok true := by
  unfold branch_unless_terminated at hr
  cases hx : cg.getTerminator with
  | error e => rw [hx] at hr; cases hr
  | ok terminated =>
    rw [hx] at hr
    cases terminated with
    | false => exact absurd hx ht
    | true =>
      simp only [Except.map, Except.ok.injEq] at hr
      exact ⟨hr.symm, rfl⟩

theorem branch_unless_terminated_ready {cg r : CodeGen} {dest : Nat}
    (hr : branch_unless_terminated cg dest = .ok r) : cg.Ready := by
  unfold branch_unless_terminated at hr
  obtain ⟨a, ha, -⟩ := map_eq_ok hr
  exact CodeGen.Ready.ready_of_getTerminator ha

/-- What `keep_or_erase` leaves of a merge block with a predecessor. -/
theorem keep_or_erase_kept (cg : CodeGen) (MergeBB : Nat)
    (hp : cg.hasPredecessor MergeBB = true) (hl : (cg.blocks.lookup MergeBB).isSome = true) :
    ((keep_or_erase cg MergeBB).blocks.lookup MergeBB).isSome = true ∧
      (keep_or_erase cg MergeBB).insert_block = some MergeBB := by
  unfold keep_or_erase
  rw [if_pos hp]
  exact ⟨hl, rfl⟩

/-- What `keep_or_erase` leaves of a merge block without a predecessor. -/
theorem keep_or_erase_erased (cg : CodeGen) (MergeBB : Nat)
    (hp : ¬ cg.hasPredecessor MergeBB = true) :
    (keep_or_erase cg MergeBB).blocks.lookup MergeBB = none := by
  unfold keep_or_erase
  rw [if_neg hp]
  exact CodeGen.lookup_eraseFromParent _ _

theorem keep_or_erase_cursor (cg : CodeGen) (MergeBB : Nat)
    (h : ((keep_or_erase cg MergeBB).blocks.lookup MergeBB).isSome = true) :
    (keep_or_erase cg MergeBB).insert_block = some MergeBB := by
  by_cases hp : cg.hasPredecessor MergeBB = true
  · unfold keep_or_erase
    rw [if_pos hp]
    rfl
  · rw [keep_or_erase_erased cg MergeBB hp] at h
    cases h

/-- The blocks of an `if` with an else arm, as the then arm finds them. -/
theorem open_branches_else (c : Particle × State) (F : Nat) (hw : c.2.2.WellFormed)
    (hF : (c.2.2.emit (.load .i1 (Operand.of (get_stored_in c.1))
      "ifcond".toList)).2.getParent = .ok F) :
    ∃ then_start : CodeGen,
      then_start = ((((((c.2.2.emit (.load .i1 (Operand.of (get_stored_in c.1))
        "ifcond".toList)).2.create_block "then".toList F).2.create_block
        "else".toList F).2.create_block "ifcont".toList F).2.emit
        (.cond_br (.value c.2.2.next) (c.2.2.next + 1) (c.2.2.next + 2))).2.SetInsertPoint
        (c.2.2.next + 1)) ∧
      open_branches c true = .ok (c.2.2.next + 2, c.2.2.next + 3, then_start) ∧
      c.2.2.Extends then_start ∧
      then_start.next = c.2.2.next + 5 ∧
      (then_start.blocks.lookup (c.2.2.next + 3)).isSome = true ∧
      ¬ then_start.hasPredecessor (c.2.2.next + 3) = true := by
  refine ⟨_, rfl, ?_, ?_, rfl, ?_, ?_⟩
  · unfold open_branches
    dsimp only
    rw [hF]
    rfl
  · refine CodeGen.Extends.ext_SetInsertPoint ?_ _
    refine CodeGen.Extends.ext_emit ?_ _ ?_
    · refine CodeGen.Extends.ext_create_block ?_ _ _
      refine CodeGen.Extends.ext_create_block ?_ _ _
      refine CodeGen.Extends.ext_create_block ?_ _ _
      exact CodeGen.Extends.ext_emit_plain (CodeGen.Extends.ext_refl _ hw) _ rfl
    · intro d hd
      simp only [Instr.successors, List.mem_cons, List.mem_singleton,
        List.not_mem_nil, or_false] at hd
      show c.2.2.next ≤ d ∧ d < c.2.2.next + 4
      rcases hd with rfl | rfl <;> omega
  · refine (CodeGen.Keeps.keeps_same _ (CodeGen.SetInsertPoint _ _) rfl).keeps_lookup_isSome _ ?_
    refine (CodeGen.Keeps.keeps_emit _ _).keeps_lookup_isSome _ ?_
    exact CodeGen.lookup_create_block (((c.2.2.emit (.load .i1 (Operand.of (get_stored_in c.1))
      "ifcond".toList)).2.create_block "then".toList F).2.create_block "else".toList F).2
      "ifcont".toList F
  · intro hp
    have hp1 : (((((c.2.2.emit (.load .i1 (Operand.of (get_stored_in c.1))
        "ifcond".toList)).2.create_block "then".toList F).2.create_block
        "else".toList F).2.create_block "ifcont".toList F).2.emit
        (.cond_br (.value c.2.2.next) (c.2.2.next + 1) (c.2.2.next + 2))).2.hasPredecessor
        (c.2.2.next + 3) = true := hp
    rcases CodeGen.hasPredecessor_of_emit _ _ _ hp1 with h1 | h1
    · have h2 := CodeGen.hasPredecessor_of_create_block _ _ _ _ h1
      have h3 := CodeGen.hasPredecessor_of_create_block _ _ _ _ h2
      have h4 := CodeGen.hasPredecessor_of_create_block _ _ _ _ h3
      rcases CodeGen.hasPredecessor_of_emit _ _ _ h4 with h5 | h5
      · exact hw.no_predecessor _ (by omega) h5
      · cases h5
    · simp only [Instr.successors, List.mem_cons, List.mem_singleton,
        List.not_mem_nil, or_false] at h1
      omega

/-- The blocks of an `if` without an else arm, as the then arm finds them. -/
theorem open_branches_no_else (c : Particle × State) (F : Nat) (hw : c.2.2.WellFormed)
    (hF : (c.2.2.emit (.load .i1 (Operand.of (get_stored_in c.1))
      "ifcond".toList)).2.getParent = .ok F) :
    ∃ then_start : CodeGen,
      then_start = (((((c.2.2.emit (.load .i1 (Operand.of (get_stored_in c.1))
        "ifcond".toList)).2.create_block "then".toList F).2.create_block
        "ifcont".toList F).2.emit
        (.cond_br (.value c.2.2.next) (c.2.2.next + 1) (c.2.2.next + 2))).2.SetInsertPoint
        (c.2.2.next + 1)) ∧
      open_branches c false = .ok (0, c.2.2.next + 2, then_start) ∧
      c.2.2.Extends then_start ∧
      then_start.next = c.2.2.next + 4 ∧
      (then_start.blocks.lookup (c.2.2.next + 2)).isSome = true ∧
      then_start.hasPredecessor (c.2.2.next + 2) = true := by
  refine ⟨_, rfl, ?_, ?_, rfl, ?_, ?_⟩
  · unfold open_branches
    dsimp only
    rw [hF]
    rfl
  · refine CodeGen.Extends.ext_SetInsertPoint ?_ _
    refine CodeGen.Extends.ext_emit ?_ _ ?_
    · refine CodeGen.Extends.ext_create_block ?_ _ _
      refine CodeGen.Extends.ext_create_block ?_ _ _
      exact CodeGen.Extends.ext_emit_plain (CodeGen.Extends.ext_refl _ hw) _ rfl
    · intro d hd
      simp only [Instr.successors, List.mem_cons, List.mem_singleton,
        List.not_mem_nil, or_false] at hd
      show c.2.2.next ≤ d ∧ d < c.2.2.next + 3
      rcases hd with rfl | rfl <;> omega
  · refine (CodeGen.Keeps.keeps_same _ (CodeGen.SetInsertPoint _ _) rfl).keeps_lookup_isSome _ ?_
    refine (CodeGen.Keeps.keeps_emit _ _).keeps_lookup_isSome _ ?_
    exact CodeGen.lookup_create_block ((c.2.2.emit (.load .i1 (Operand.of (get_stored_in c.1))
      "ifcond".toList)).2.create_block "then".toList F).2 "ifcont".toList F
  · refine (CodeGen.Keeps.keeps_same _ (CodeGen.SetInsertPoint _ _) rfl).keeps_hasPredecessor _ ?_
    refine CodeGen.Ready.ready_emit_hasPredecessor ?_ _ _ ?_
    · exact ((CodeGen.Ready.ready_of_getParent hF).ready_create_block _ _).ready_create_block
        _ _
    · simp [Instr.successors]

/-- C21: compiling an `if` form leaves the merge block `ifcont` in the module
exactly when the then arm or the else arm ends in a block without a
terminator; when both arms end terminated the block is removed; and without
an else arm the block always remains.  A merge block that remains is the
insertion block afterwards.  Here `c`, `t` and `e` are the results of the
compilation of the condition and of the arms, from the states in which the
`if` branch compiles them, and the builders behind `run` only generate code. -/
theorem merge_block_kept_iff_arm_open
    (run : Build → Molecule → List Value → State → Except Fault (Evaluated CodeGen))
    (hrun : Framed run) (s1 : Option Value) (t1 m1 : Str) (l1 : Int)
    (condition then_branch : Particle) (after : List Particle)
    (stored_in : Option Value) (type : Str) (eval : Bool) (st : State) (r : Particle × State)
    (hwf : st.2.WellFormed)
    (hr : compile run (.molecule ⟨.atom ⟨"if".toList, s1, t1, m1, l1⟩ :: condition ::
      then_branch :: after, stored_in, type, eval⟩) st = .ok r) :
    ∃ (c : Particle × State) (ElseBB MergeBB : Nat) (then_start : CodeGen)
      (t : Particle × State) (cg : CodeGen),
      compile run condition st = .ok c ∧
      open_branches c (after.length == 1) = .ok (ElseBB, MergeBB, then_start) ∧
      (then_start.blocks.lookup MergeBB).isSome = true ∧
      compile run then_branch (c.2.1, then_start) = .ok t ∧
      branch_unless_terminated t.2.2 MergeBB = .ok cg ∧
      match after with
      | [else_branch] =>
        ∃ e : Particle × State,
          compile run else_branch (t.2.1, cg.SetInsertPoint ElseBB) = .ok e ∧
          ((r.2.2.blocks.lookup MergeBB).isSome = true ↔
            (t.2.2.getTerminator = .ok false ∨ e.2.2.getTerminator = .ok false)) ∧
          (t.2.2.getTerminator = .ok true → e.2.2.getTerminator = .ok true →
            r.2.2.blocks.lookup MergeBB = none) ∧
          ((r.2.2.blocks.lookup MergeBB).isSome = true → r.2.2.insert_block = some MergeBB)
      | _ =>
        (r.2.2.blocks.lookup MergeBB).isSome = true ∧ r.2.2.insert_block = some MergeBB := by
  have hst := CodeGen.Extends.ext_refl st.2 hwf
  by_cases hafter : after.length = 1
  · obtain ⟨else_branch, rfl⟩ := List.length_eq_one.mp hafter
    rw [compile_if_else] at hr
    obtain ⟨c, hc, hr⟩ := bind_eq_ok hr
    obtain ⟨F, hF, hr⟩ := bind_eq_ok hr
    obtain ⟨t, ht, hr⟩ := bind_eq_ok hr
    obtain ⟨cg, hcg, hr⟩ := bind_eq_ok hr
    obtain ⟨e, he, hr⟩ := bind_eq_ok hr
    obtain ⟨cg2, hcg2, hr⟩ := map_eq_ok hr
    subst hr
    have hwc : c.2.2.WellFormed := (compile_extends run hrun condition st st.2 hst c hc).2.1
    obtain ⟨then_start, hts, hopen, hext, hnext, hlook, hnopred⟩ := open_branches_else c F hwc hF
    rw [← hts] at ht
    have h1 := compile_extends run hrun then_branch (c.2.1, then_start) then_start
      (CodeGen.Extends.ext_refl _ hext.2.1) t ht
    have h1n : c.2.2.next + 5 ≤ t.2.2.next := by
      have := h1.2.2.1
      omega
    have hbase : c.2.2.Extends cg :=
      branch_unless_terminated_extends (hext.ext_trans h1) _ ⟨by omega, by omega⟩ cg hcg
    have h2k := branch_unless_terminated_keeps _ _ _ hcg
    have h2n := branch_unless_terminated_next _ _ _ hcg
    have h3 := compile_extends run hrun else_branch (t.2.1, cg.SetInsertPoint (c.2.2.next + 2))
      (cg.SetInsertPoint (c.2.2.next + 2))
      (CodeGen.Extends.ext_refl _ (hbase.ext_SetInsertPoint _).2.1) e he
    have h4k := branch_unless_terminated_keeps _ _ _ hcg2
    have hk_cg_e : cg.Keeps e.2.2 :=
      (CodeGen.Keeps.keeps_same cg (cg.SetInsertPoint (c.2.2.next + 2)) rfl).keeps_trans
        h3.ext_keeps
    have hmerge : (cg2.blocks.lookup (c.2.2.next + 3)).isSome = true :=
      (((h1.ext_keeps.keeps_trans h2k).keeps_trans hk_cg_e).keeps_trans
        h4k).keeps_lookup_isSome _ hlook
    have hiff : ((keep_or_erase cg2 (c.2.2.next + 3)).blocks.lookup (c.2.2.next + 3)).isSome
        = true ↔ (t.2.2.getTerminator = .ok false ∨ e.2.2.getTerminator = .ok false) := by
      constructor
      · intro hkept
        by_contra hboth
        rw [not_or] at hboth
        obtain ⟨e1, -⟩ := branch_unless_terminated_of_closed hcg hboth.1
        obtain ⟨e2, -⟩ := branch_unless_terminated_of_closed hcg2 hboth.2
        subst e1
        subst e2
        have hno : ¬ e.2.2.hasPredecessor (c.2.2.next + 3) = true := by
          intro hp
          have hp1 : t.2.2.hasPredecessor (c.2.2.next + 3) = true :=
            h3.2.2.2.2 _ (show c.2.2.next + 3 < t.2.2.next by omega) hp
          exact hnopred (h1.2.2.2.2 _ (by omega) hp1)
        rw [keep_or_erase_erased _ _ hno] at hkept
        cases hkept
      · intro hopen_arm
        have hp : cg2.hasPredecessor (c.2.2.next + 3) = true := by
          rcases hopen_arm with ho | ho
          · have e1 := branch_unless_terminated_of_open hcg ho
            have hp0 : cg.hasPredecessor (c.2.2.next + 3) = true := by
              rw [e1]
              exact (CodeGen.Ready.ready_of_getTerminator ho).ready_emit_hasPredecessor _ _
                (List.mem_singleton.mpr rfl)
            exact h4k.keeps_hasPredecessor _ (hk_cg_e.keeps_hasPredecessor _ hp0)
          · have e2 := branch_unless_terminated_of_open hcg2 ho
            rw [e2]
            exact (CodeGen.Ready.ready_of_getTerminator ho).ready_emit_hasPredecessor _ _
              (List.mem_singleton.mpr rfl)
        exact (keep_or_erase_kept cg2 _ hp hmerge).1
    refine ⟨c, c.2.2.next + 2, c.2.2.next + 3, then_start, t, cg, hc, hopen, hlook, ht, hcg,
      e, he, hiff, ?_, keep_or_erase_cursor cg2 _⟩
    intro ht1 he1
    cases hl : (keep_or_erase cg2 (c.2.2.next + 3)).blocks.lookup (c.2.2.next + 3) with
    | none => rfl
    | some x =>
      have hs : ((keep_or_erase cg2 (c.2.2.next + 3)).blocks.lookup
          (c.2.2.next + 3)).isSome = true := by rw [hl]; rfl
      rcases hiff.mp hs with ho | ho
      · rw [ht1] at ho; cases ho
      · rw [he1] at ho; cases ho
  · rw [compile_if_no_else run s1 t1 m1 l1 condition then_branch after hafter] at hr
    obtain ⟨c, hc, hr⟩ := bind_eq_ok hr
    obtain ⟨F, hF, hr⟩ := bind_eq_ok hr
    obtain ⟨t, ht, hr⟩ := bind_eq_ok hr
    obtain ⟨cg, hcg, hr⟩ := bind_eq_ok hr
    simp only [Except.ok.injEq] at hr
    subst hr
    have hwc : c.2.2.WellFormed := (compile_extends run hrun condition st st.2 hst c hc).2.1
    obtain ⟨then_start, hts, hopen, hext, hnext, hlook, hpred⟩ :=
      open_branches_no_else c F hwc hF
    rw [← hts] at ht
    have h1 := compile_extends run hrun then_branch (c.2.1, then_start) then_start
      (CodeGen.Extends.ext_refl _ hext.2.1) t ht
    have hk := h1.ext_keeps.keeps_trans (branch_unless_terminated_keeps _ _ _ hcg)
    have hfalse : (after.length == 1) = false := by simpa using hafter
    rw [← hfalse] at hopen
    refine ⟨c, 0, c.2.2.next + 2, then_start, t, cg, hc, hopen, hlook, ht, hcg, ?_⟩
    have hfinal := keep_or_erase_kept cg _ (hk.keeps_hasPredecessor _ hpred) (hk.keeps_lookup_isSome _ hlook)
    rcases after with _ | ⟨e, _ | ⟨e2, more⟩⟩
    · exact hfinal
    · exact absurd rfl hafter
    · exact hfinal
set_option smartUnfolding false in
/-- The theorem on `(if true (return 1) (return 2))` at the start of `main`,
with the builders of `run_builder`. -/
theorem merge_block_kept_iff_arm_open_witness :
    State.start.2.WellFormed ∧
    ∃ (r c : Particle × State) (ElseBB MergeBB : Nat) (then_start : CodeGen)
      (t : Particle × State) (cg : CodeGen) (e : Particle × State),
      compile (run_builder no_others) (.molecule ⟨[.atom ⟨"if".toList, none, [], [], 0⟩,
        example_condition, example_return "1".toList, example_return "2".toList],
        none, [], true⟩) State.start = .ok r ∧
      compile (run_builder no_others) example_condition State.start = .ok c ∧
      open_branches c true = .ok (ElseBB, MergeBB, then_start) ∧
      (then_start.blocks.lookup MergeBB).isSome = true ∧
      compile (run_builder no_others) (example_return "1".toList) (c.2.1, then_start) = .ok t ∧
      branch_unless_terminated t.2.2 MergeBB = .ok cg ∧
      compile (run_builder no_others) (example_return "2".toList)
        (t.2.1, cg.SetInsertPoint ElseBB) = .ok e ∧
      ((r.2.2.blocks.lookup MergeBB).isSome = true ↔
        (t.2.2.getTerminator = .ok false ∨ e.2.2.getTerminator = .ok false)) ∧
      (t.2.2.getTerminator = .ok true → e.2.2.getTerminator = .ok true →
        r.2.2.blocks.lookup MergeBB = none) ∧
      ((r.2.2.blocks.lookup MergeBB).isSome = true → r.2.2.insert_block = some MergeBB) := by
  refine ⟨by decide, ?_⟩
  cases h : compile (run_builder no_others) (.molecule ⟨[.atom ⟨"if".toList, none, [], [], 0⟩,
      example_condition, example_return "1".toList, example_return "2".toList],
      none, [], true⟩) State.start with
  | error x =>
    have hok : (compile (run_builder no_others) (.molecule ⟨[.atom ⟨"if".toList, none, [], [], 0⟩,
      example_condition, example_return "1".toList, example_return "2".toList],
      none, [], true⟩) State.start).isOk = true := rfl
    rw [h] at hok
    cases hok
  | ok r =>
    obtain ⟨c, ElseBB, MergeBB, then_start, t, cg, h1, h2, h3, h4, h5, e, h6, h7, h8, h9⟩ :=
      merge_block_kept_iff_arm_open (run_builder no_others)
        (run_builder_framed no_others no_others_framed) none [] [] 0 example_condition
        (example_return "1".toList) [example_return "2".toList] none [] true State.start r
        (by decide) h
    exact ⟨r, c, ElseBB, MergeBB, then_start, t, cg, e, rfl, h1, h2, h3, h4, h5, h6, h7, h8, h9⟩

set_option smartUnfolding false in
/-- Three programs: with both arms returning the module has no block
`ifcont`; with an else arm that does not return, and without an else arm,
it has one, and `main` ends in it. -/
theorem merge_block_examples :
    (compile_source (run_builder no_others) "{(if true (return 1) (return 2))}".toList).map
      (fun st => (st.2.blocks.map fun e => e.2.name, st.2.insert_block)) =
      .ok (["entry".toList, "then".toList, "else".toList], some 5) ∧
    (compile_source (run_builder no_others) "{(if true (return 1) ())}".toList).map
      (fun st => (st.2.blocks.map fun e => e.2.name, st.2.insert_block)) =
      .ok (["entry".toList, "then".toList, "else".toList, "ifcont".toList], some 6) ∧
    (compile_source (run_builder no_others) "{(if true (return 1))}".toList).map
      (fun st => (st.2.blocks.map fun e => e.2.name, st.2.insert_block)) =
      .ok (["entry".toList, "then".toList, "ifcont".toList], some 5) :=
  ⟨rfl, rfl, rfl⟩

end Miaow
